import Mathlib

/-
  Verification of the mermaid-ascii rendering pipeline (a TypeScript port of
  mermaid-ascii).  The development shallowly embeds the core modules:

  * geometry primitives (`GridCoord`, `Direction`, `determineDirection`)
    from types/common.ts and types/direction.ts;
  * the A* pathfinder (`getPath`) and path simplification (`mergePath`)
    from pathfinding.ts;
  * the character canvas (`makeDrawing`, `increaseSize`, junction fusion)
    from drawing.ts;
  * edge routing (`determinePath`) and layout (`createMapping`) from
    types/graph.ts.

  Modelling conventions:
  - JS numbers holding grid coordinates are unbounded integers (`Int`);
    canvas sizes and step counts are `Nat`.
  - A JS `Map` keyed by the string `"x,y"` is modeled as a function from
    the coordinate itself (the key encoding is injective on integers).
  - The `while` loops of the pathfinder are given explicit fuel; running
    out of fuel is a distinct outcome (`outOfFuel`) that matches the
    possible non-termination of the source loop on unbounded grids.
  - The priority queue of pathfinding.ts appends an item and re-sorts with
    JS `Array.prototype.sort`, which is stable and is applied to an
    already-sorted array; this equals inserting the new item after all
    items of priority less than or equal to its own (`pqPush`).
-/

/-! ## Geometry primitives (types/common.ts, types/direction.ts) -/

/-- Grid coordinate; also used for drawing coordinates, which have the same
components (`DrawingCoord` in types/common.ts). -/
structure GridCoord where
  x : Int
  y : Int
deriving DecidableEq

/-- Drawing coordinates share the representation of grid coordinates. -/
abbrev DrawingCoord := GridCoord

/-- Eight-direction value plus the neutral `Middle`; the components are the
exact constants of types/direction.ts (offsets from a node block center). -/
structure Direction where
  x : Int
  y : Int
deriving DecidableEq

def Direction.Up : Direction := ⟨1, 0⟩

def Direction.Down : Direction := ⟨1, 2⟩

def Direction.Left : Direction := ⟨0, 1⟩

def Direction.Right : Direction := ⟨2, 1⟩

def Direction.UpperRight : Direction := ⟨2, 0⟩

def Direction.UpperLeft : Direction := ⟨0, 0⟩

def Direction.LowerRight : Direction := ⟨2, 2⟩

def Direction.LowerLeft : Direction := ⟨0, 2⟩

def Direction.Middle : Direction := ⟨1, 1⟩

/-- `GridCoord.direction` of types/common.ts: add the direction components. -/
def GridCoord.direction (c : GridCoord) (dir : Direction) : GridCoord :=
  ⟨c.x + dir.x, c.y + dir.y⟩

/-- `determineDirection` of types/direction.ts. -/
def determineDirection (f t : GridCoord) : Direction :=
  if f.x = t.x then
    if f.y < t.y then Direction.Down else Direction.Up
  else if f.y = t.y then
    if f.x < t.x then Direction.Right else Direction.Left
  else if f.x < t.x then
    if f.y < t.y then Direction.LowerRight else Direction.UpperRight
  else
    if f.y < t.y then Direction.LowerLeft else Direction.UpperLeft

/-! ## Canvas buffer (drawing.ts: DrawingEngine) -/

/-- `makeDrawing`: a canvas of `(x+1) × (y+1)` blank cells, indexed
`canvas[x][y]` (outer list over columns). -/
def makeDrawing (x y : Nat) : List (List Char) :=
  List.replicate (x + 1) (List.replicate (y + 1) ' ')

/-- `getDrawingSize`: `(canvas.length - 1, canvas[0].length - 1)`, with the
explicit empty-canvas guard of drawing.ts. -/
def getDrawingSize (d : List (List Char)) : Nat × Nat :=
  if d.length = 0 then (0, 0) else (d.length - 1, (d.headD []).length - 1)

/-- Read one canvas cell (out-of-range reads give the blank character, which
is what the serializer would print for untouched cells). -/
def getCell (d : List (List Char)) (x y : Nat) : Char :=
  (d.getD x []).getD y ' '

/-- `increaseSize`: build a canvas of the component-wise maximum of current
and requested sizes and copy the existing content cell by cell.  The copy
loop of drawing.ts writes `old[i][j]` for every index in the old canvas; on
rectangular canvases (the only ones the engine builds) every such index is
in range of the new canvas, which is what this overlay expresses. -/
def increaseSize (d : List (List Char)) (x y : Nat) : List (List Char) :=
  let curr := getDrawingSize d
  (List.range (max x curr.1 + 1)).map fun i =>
    (List.range (max y curr.2 + 1)).map fun j => getCell d i j

/-- All rows of a canvas have the length of the first row, and the canvas is
nonempty; every canvas built by `makeDrawing` and the drawing operations has
this shape. -/
def Rectangular (d : List (List Char)) : Prop :=
  d ≠ [] ∧ ∀ col ∈ d, col.length = (d.headD []).length

/-! ## Junction characters (drawing.ts) -/

/-- The 15 Unicode junction characters recognized by `isJunctionChar`. -/
def junctionChars : List Char :=
  ['─', '│', '┌', '┐', '└', '┘', '├', '┤', '┬', '┴', '┼', '╴', '╵', '╶', '╷']

/-- `isJunctionChar` of drawing.ts. -/
def isJunctionChar (c : Char) : Bool :=
  junctionChars.contains c

/-- The junction fusion lookup table of `mergeJunctions` (drawing.ts),
row-keyed by the existing character. -/
def junctionMap : List (Char × List (Char × Char)) :=
  [ ('─', [('│', '┼'), ('┌', '┬'), ('┐', '┬'), ('└', '┴'), ('┘', '┴'),
           ('├', '┼'), ('┤', '┼'), ('┬', '┬'), ('┴', '┴')]),
    ('│', [('─', '┼'), ('┌', '├'), ('┐', '┤'), ('└', '├'), ('┘', '┤'),
           ('├', '├'), ('┤', '┤'), ('┬', '┼'), ('┴', '┼')]),
    ('┌', [('─', '┬'), ('│', '├'), ('┐', '┬'), ('└', '├'), ('┘', '┼'),
           ('├', '├'), ('┤', '┼'), ('┬', '┬'), ('┴', '┼')]),
    ('┐', [('─', '┬'), ('│', '┤'), ('┌', '┬'), ('└', '┼'), ('┘', '┤'),
           ('├', '┼'), ('┤', '┤'), ('┬', '┬'), ('┴', '┼')]),
    ('└', [('─', '┴'), ('│', '├'), ('┌', '├'), ('┐', '┼'), ('┘', '┴'),
           ('├', '├'), ('┤', '┼'), ('┬', '┼'), ('┴', '┴')]),
    ('┘', [('─', '┴'), ('│', '┤'), ('┌', '┼'), ('┐', '┤'), ('└', '┴'),
           ('├', '┼'), ('┤', '┤'), ('┬', '┼'), ('┴', '┴')]),
    ('├', [('─', '┼'), ('│', '├'), ('┌', '├'), ('┐', '┼'), ('└', '├'),
           ('┘', '┼'), ('┤', '┼'), ('┬', '┼'), ('┴', '┼')]),
    ('┤', [('─', '┼'), ('│', '┤'), ('┌', '┼'), ('┐', '┤'), ('└', '┼'),
           ('┘', '┤'), ('├', '┼'), ('┬', '┼'), ('┴', '┼')]),
    ('┬', [('─', '┬'), ('│', '┼'), ('┌', '┬'), ('┐', '┬'), ('└', '┼'),
           ('┘', '┼'), ('├', '┼'), ('┤', '┼'), ('┴', '┼')]),
    ('┴', [('─', '┴'), ('│', '┼'), ('┌', '┼'), ('┐', '┼'), ('└', '┴'),
           ('┘', '┴'), ('├', '┼'), ('┤', '┼'), ('┬', '┼')]) ]

/-- `mergeJunctions c1 c2`: look up the row of `c1`, then `c2` in that row;
return `c1` when either lookup fails (the fallback of drawing.ts). -/
def mergeJunctions (c1 c2 : Char) : Char :=
  match junctionMap.lookup c1 with
  | none => c1
  | some row =>
    match row.lookup c2 with
    | none => c1
    | some merged => merged

/-- Whether the fusion table defines an entry for the ordered pair. -/
def hasFusionEntry (c1 c2 : Char) : Bool :=
  ((junctionMap.lookup c1).bind fun row => row.lookup c2).isSome

/-! ## Supporting lemmas for canvas claims -/

theorem getDrawingSize_fst (d : List (List Char)) (h : d ≠ []) :
    (getDrawingSize d).1 = d.length - 1 := by
  unfold getDrawingSize
  rw [if_neg (by simpa using List.length_pos.mpr h |>.ne')]

theorem getDrawingSize_snd (d : List (List Char)) (h : d ≠ []) :
    (getDrawingSize d).2 = (d.headD []).length - 1 := by
  unfold getDrawingSize
  rw [if_neg (by simpa using List.length_pos.mpr h |>.ne')]

theorem increaseSize_length (d : List (List Char)) (x y : Nat) :
    (increaseSize d x y).length = max x (getDrawingSize d).1 + 1 := by
  simp [increaseSize]

theorem increaseSize_col_length (d : List (List Char)) (x y : Nat)
    (col : List Char) (hc : col ∈ increaseSize d x y) :
    col.length = max y (getDrawingSize d).2 + 1 := by
  simp only [increaseSize, List.mem_map, List.mem_range] at hc
  obtain ⟨i, _, rfl⟩ := hc
  simp

theorem increaseSize_getCell (d : List (List Char)) (x y i j : Nat)
    (hi : i < max x (getDrawingSize d).1 + 1)
    (hj : j < max y (getDrawingSize d).2 + 1) :
    getCell (increaseSize d x y) i j = getCell d i j := by
  have hrow : (increaseSize d x y).getD i [] =
      (List.range (max y (getDrawingSize d).2 + 1)).map fun jj => getCell d i jj := by
    unfold increaseSize
    rw [List.getD_eq_getElem?_getD, List.getElem?_map, List.getElem?_range hi]
    rfl
  have hcell : ((List.range (max y (getDrawingSize d).2 + 1)).map
      fun jj => getCell d i jj).getD j ' ' = getCell d i j := by
    rw [List.getD_eq_getElem?_getD, List.getElem?_map, List.getElem?_range hj]
    rfl
  calc getCell (increaseSize d x y) i j
      = ((increaseSize d x y).getD i []).getD j ' ' := rfl
    _ = getCell d i j := by rw [hrow, hcell]

theorem increaseSize_ne_nil (d : List (List Char)) (x y : Nat) :
    increaseSize d x y ≠ [] := by
  intro h
  have := increaseSize_length d x y
  rw [h] at this
  simp at this

theorem increaseSize_getDrawingSize (d : List (List Char)) (x y : Nat) :
    getDrawingSize (increaseSize d x y) =
      (max x (getDrawingSize d).1, max y (getDrawingSize d).2) := by
  have hne := increaseSize_ne_nil d x y
  have h1 := getDrawingSize_fst (increaseSize d x y) hne
  have h2 := getDrawingSize_snd (increaseSize d x y) hne
  have hhead : (increaseSize d x y).headD [] ∈ increaseSize d x y := by
    cases h : increaseSize d x y with
    | nil => exact absurd h hne
    | cons a l => simp
  have hcol := increaseSize_col_length d x y _ hhead
  have := increaseSize_length d x y
  refine Prod.ext ?_ ?_
  · rw [h1, this]
    simp
  · rw [h2, hcol]
    simp

/-! ## Claim theorems: canvas resize and junction fusion -/

/-- Claim C7: `increaseSize` yields a buffer whose dimensions are the
component-wise maximum of the current and requested dimensions, never
shrinks, and every previously existing cell keeps its character at the same
coordinates. -/
theorem C7_increaseSize_grows_and_preserves (d : List (List Char))
    (x y : Nat) (hrect : Rectangular d) :
    getDrawingSize (increaseSize d x y) =
        (max x (getDrawingSize d).1, max y (getDrawingSize d).2) ∧
    (getDrawingSize d).1 ≤ (getDrawingSize (increaseSize d x y)).1 ∧
    (getDrawingSize d).2 ≤ (getDrawingSize (increaseSize d x y)).2 ∧
    (∀ i j : Nat, i < d.length → j < (d.getD i []).length →
      getCell (increaseSize d x y) i j = getCell d i j) := by
  obtain ⟨hne, hcols⟩ := hrect
  have hsz := increaseSize_getDrawingSize d x y
  refine ⟨hsz, ?_, ?_, ?_⟩
  · rw [hsz]
    exact le_max_right _ _
  · rw [hsz]
    exact le_max_right _ _
  · intro i j hi hj
    have hdlen : d.length = (getDrawingSize d).1 + 1 := by
      rw [getDrawingSize_fst d hne]
      have : 0 < d.length := List.length_pos.mpr hne
      omega
    have hrowmem : d.getD i [] ∈ d := by
      rw [List.getD_eq_getElem?_getD, List.getElem?_eq_getElem hi]
      simp [List.getElem_mem hi]
    have hrowlen := hcols _ hrowmem
    have hheadlen : (d.headD []).length = (getDrawingSize d).2 + 1 := by
      rw [getDrawingSize_snd d hne]
      rw [hrowlen] at hj
      omega
    apply increaseSize_getCell
    · omega
    · rw [hrowlen, hheadlen] at hj
      omega

/-- Claim C7 witness: resize a concrete 2×2 canvas to requested size (3, 0)
and observe the component-wise-maximum dimensions. -/
theorem C7_increaseSize_grows_and_preserves_witness :
    getDrawingSize (increaseSize (makeDrawing 1 1) 3 0) = (3, 1) :=
  (C7_increaseSize_grows_and_preserves (makeDrawing 1 1) 3 0
    ⟨by decide, by decide⟩).1

/-- Claim C8: merging the horizontal line glyph onto the vertical line glyph
and vice versa give the same result, the 4-way cross. -/
theorem C8_mergeJunctions_cross_symmetric :
    mergeJunctions '─' '│' = '┼' ∧ mergeJunctions '│' '─' = '┼' ∧
    mergeJunctions '─' '│' = mergeJunctions '│' '─' := by
  refine ⟨by decide, by decide, by decide⟩

/-- Claim C10: pairs with no fusion-table entry merge to the first character
unchanged; the cross and the four half-line end glyphs have no fusion rows,
so merging anything onto a cross leaves the cross and the five glyphs never
fuse, even though all five are recognized junction characters. -/
theorem C10_mergeJunctions_missing_entry_identity :
    (∀ c1 c2 : Char, hasFusionEntry c1 c2 = false → mergeJunctions c1 c2 = c1) ∧
    (∀ c2 : Char, hasFusionEntry '┼' c2 = false ∧ mergeJunctions '┼' c2 = '┼') ∧
    (∀ c2 : Char, hasFusionEntry '╴' c2 = false ∧ mergeJunctions '╴' c2 = '╴') ∧
    (∀ c2 : Char, hasFusionEntry '╵' c2 = false ∧ mergeJunctions '╵' c2 = '╵') ∧
    (∀ c2 : Char, hasFusionEntry '╶' c2 = false ∧ mergeJunctions '╶' c2 = '╶') ∧
    (∀ c2 : Char, hasFusionEntry '╷' c2 = false ∧ mergeJunctions '╷' c2 = '╷') ∧
    isJunctionChar '┼' = true ∧ isJunctionChar '╴' = true ∧
    isJunctionChar '╵' = true ∧ isJunctionChar '╶' = true ∧
    isJunctionChar '╷' = true := by
  have hgen : ∀ c1 c2 : Char, hasFusionEntry c1 c2 = false →
      mergeJunctions c1 c2 = c1 := by
    intro c1 c2 h
    cases hl : junctionMap.lookup c1 with
    | none => simp [mergeJunctions, hl]
    | some row =>
      cases hr : row.lookup c2 with
      | none => simp [mergeJunctions, hl, hr]
      | some m =>
        exfalso
        simp [hasFusionEntry, hl, hr] at h
  have hnorow : ∀ c1 : Char, junctionMap.lookup c1 = none →
      ∀ c2 : Char, hasFusionEntry c1 c2 = false ∧ mergeJunctions c1 c2 = c1 := by
    intro c1 hl c2
    constructor
    · simp [hasFusionEntry, hl]
    · simp [mergeJunctions, hl]
  exact ⟨hgen, hnorow '┼' (by decide), hnorow '╴' (by decide),
    hnorow '╵' (by decide), hnorow '╶' (by decide), hnorow '╷' (by decide),
    by decide, by decide, by decide, by decide, by decide⟩

/-- Claim C10 witness: a pair of ordinary letters has no fusion entry and
merges to the first character. -/
theorem C10_mergeJunctions_missing_entry_identity_witness :
    mergeJunctions 'a' 'b' = 'a' :=
  C10_mergeJunctions_missing_entry_identity.1 'a' 'b' (by decide)

/-! ## Path simplification (pathfinding.ts: mergePath) -/

/-- The indices marked for removal by `mergePath`: scanning the triples
`path[idx], path[idx+1], path[idx+2]` (the sliding `step0`/`step1`/`step2`
of pathfinding.ts), the middle index `idx + 1` is recorded whenever the
direction into the middle point equals the direction out of it. -/
def pathIndexToRemove (path : List GridCoord) : List Nat :=
  (List.range (path.length - 2)).filterMap fun idx =>
    if determineDirection (path.getD idx ⟨0, 0⟩) (path.getD (idx + 1) ⟨0, 0⟩) =
        determineDirection (path.getD (idx + 1) ⟨0, 0⟩) (path.getD (idx + 2) ⟨0, 0⟩)
    then some (idx + 1) else none

/-- `mergePath` of pathfinding.ts: paths of length at most 2 are returned
unchanged; otherwise the indices collected in `pathIndexToRemove` are
filtered out of the path. -/
def mergePath (path : List GridCoord) : List GridCoord :=
  if path.length ≤ 2 then path
  else
    (List.range path.length).filterMap fun idx =>
      if idx ∈ pathIndexToRemove path then none else path[idx]?

/-- Direction of the step leaving index `i` of a path. -/
def dirAt (p : List GridCoord) (i : Nat) : Direction :=
  determineDirection (p.getD i ⟨0, 0⟩) (p.getD (i + 1) ⟨0, 0⟩)

theorem mem_pathIndexToRemove (p : List GridCoord) (k : Nat) :
    k ∈ pathIndexToRemove p ↔
      1 ≤ k ∧ k - 1 < p.length - 2 ∧ dirAt p (k - 1) = dirAt p k := by
  unfold pathIndexToRemove
  simp only [List.mem_filterMap, List.mem_range]
  constructor
  · rintro ⟨idx, hidx, hif⟩
    by_cases hc : determineDirection (p.getD idx ⟨0, 0⟩) (p.getD (idx + 1) ⟨0, 0⟩) =
        determineDirection (p.getD (idx + 1) ⟨0, 0⟩) (p.getD (idx + 2) ⟨0, 0⟩)
    · rw [if_pos hc] at hif
      obtain rfl : idx + 1 = k := by simpa using hif
      refine ⟨by omega, by omega, ?_⟩
      simpa [dirAt] using hc
    · rw [if_neg hc] at hif
      simp at hif
  · rintro ⟨h1, h2, h3⟩
    refine ⟨k - 1, by omega, ?_⟩
    have hk : k - 1 + 1 = k := by omega
    have hk2 : k - 1 + 2 = k + 1 := by omega
    rw [hk, hk2]
    have h3' := h3
    simp only [dirAt, hk] at h3'
    rw [if_pos h3']

/-- Exhaustive classification of `determineDirection` by the sign pattern of
the coordinate differences (one disjunct per leaf of the if-tree). -/
theorem determineDirection_cases (f t : GridCoord) :
    (determineDirection f t = Direction.Down ∧ f.x = t.x ∧ f.y < t.y) ∨
    (determineDirection f t = Direction.Up ∧ f.x = t.x ∧ ¬f.y < t.y) ∨
    (determineDirection f t = Direction.Right ∧ ¬f.x = t.x ∧ f.y = t.y ∧
      f.x < t.x) ∨
    (determineDirection f t = Direction.Left ∧ ¬f.x = t.x ∧ f.y = t.y ∧
      ¬f.x < t.x) ∨
    (determineDirection f t = Direction.LowerRight ∧ ¬f.x = t.x ∧ ¬f.y = t.y ∧
      f.x < t.x ∧ f.y < t.y) ∨
    (determineDirection f t = Direction.UpperRight ∧ ¬f.x = t.x ∧ ¬f.y = t.y ∧
      f.x < t.x ∧ ¬f.y < t.y) ∨
    (determineDirection f t = Direction.LowerLeft ∧ ¬f.x = t.x ∧ ¬f.y = t.y ∧
      ¬f.x < t.x ∧ f.y < t.y) ∨
    (determineDirection f t = Direction.UpperLeft ∧ ¬f.x = t.x ∧ ¬f.y = t.y ∧
      ¬f.x < t.x ∧ ¬f.y < t.y) := by
  by_cases h1 : f.x = t.x
  · by_cases h2 : f.y < t.y
    · exact Or.inl ⟨by simp [determineDirection, h1, h2], h1, h2⟩
    · exact Or.inr (Or.inl ⟨by simp [determineDirection, h1, h2], h1, h2⟩)
  · by_cases h2 : f.y = t.y
    · by_cases h3 : f.x < t.x
      · exact Or.inr (Or.inr (Or.inl
          ⟨by simp [determineDirection, h1, h2, h3], h1, h2, h3⟩))
      · exact Or.inr (Or.inr (Or.inr (Or.inl
          ⟨by simp [determineDirection, h1, h2, h3], h1, h2, h3⟩)))
    · by_cases h3 : f.x < t.x
      · by_cases h4 : f.y < t.y
        · exact Or.inr (Or.inr (Or.inr (Or.inr (Or.inl
            ⟨by simp [determineDirection, h1, h2, h3, h4], h1, h2, h3, h4⟩))))
        · exact Or.inr (Or.inr (Or.inr (Or.inr (Or.inr (Or.inl
            ⟨by simp [determineDirection, h1, h2, h3, h4], h1, h2, h3, h4⟩)))))
      · by_cases h4 : f.y < t.y
        · exact Or.inr (Or.inr (Or.inr (Or.inr (Or.inr (Or.inr (Or.inl
            ⟨by simp [determineDirection, h1, h2, h3, h4], h1, h2, h3, h4⟩))))))
        · exact Or.inr (Or.inr (Or.inr (Or.inr (Or.inr (Or.inr (Or.inr
            ⟨by simp [determineDirection, h1, h2, h3, h4], h1, h2, h3, h4⟩))))))

/-- Sign-class transitivity of `determineDirection`: if the step from `a` to
`b` and the step from `b` to `c` classify identically, so does the combined
step from `a` to `c`. -/
theorem determineDirection_trans (a b c : GridCoord)
    (h : determineDirection a b = determineDirection b c) :
    determineDirection a c = determineDirection a b := by
  rcases determineDirection_cases a b with
    ⟨e, p1, p2⟩ | ⟨e, p1, p2⟩ | ⟨e, p1, p2, p3⟩ | ⟨e, p1, p2, p3⟩ |
    ⟨e, p1, p2, p3, p4⟩ | ⟨e, p1, p2, p3, p4⟩ | ⟨e, p1, p2, p3, p4⟩ |
    ⟨e, p1, p2, p3, p4⟩ <;>
  rcases determineDirection_cases b c with
    ⟨f', q1, q2⟩ | ⟨f', q1, q2⟩ | ⟨f', q1, q2, q3⟩ | ⟨f', q1, q2, q3⟩ |
    ⟨f', q1, q2, q3, q4⟩ | ⟨f', q1, q2, q3, q4⟩ | ⟨f', q1, q2, q3, q4⟩ |
    ⟨f', q1, q2, q3, q4⟩ <;>
  rw [e, f'] at h <;>
  first
    | exact absurd h (by decide)
    | (rw [e]
       rcases determineDirection_cases a c with
         ⟨g, r1, r2⟩ | ⟨g, r1, r2⟩ | ⟨g, r1, r2, r3⟩ | ⟨g, r1, r2, r3⟩ |
         ⟨g, r1, r2, r3, r4⟩ | ⟨g, r1, r2, r3, r4⟩ | ⟨g, r1, r2, r3, r4⟩ |
         ⟨g, r1, r2, r3, r4⟩ <;>
       first
         | exact g
         | (exfalso; omega))

/-- Paths of length at most 2 are returned unchanged. -/
theorem mergePath_short (p : List GridCoord) (h : p.length ≤ 2) :
    mergePath p = p := by
  unfold mergePath
  rw [if_pos h]

/-- The indices kept by the final filter of `mergePath`. -/
def keptIdx (p : List GridCoord) : List Nat :=
  (List.range p.length).filter fun k => decide (k ∉ pathIndexToRemove p)

set_option maxRecDepth 4000 in
theorem filterMap_keep_eq (p : List GridCoord) (S : List Nat) (l : List Nat)
    (hl : ∀ k ∈ l, k < p.length) :
    (l.filterMap fun idx => if idx ∈ S then none else p[idx]?) =
      (l.filter fun idx => decide (idx ∉ S)).map fun k => p.getD k ⟨0, 0⟩ := by
  induction l with
  | nil => rfl
  | cons a t ih =>
    have ha : a < p.length := hl a (by simp)
    have ht : ∀ k ∈ t, k < p.length := fun k hk => hl k (by simp [hk])
    by_cases hmem : a ∈ S
    · simp [List.filterMap_cons, List.filter_cons, hmem, ih ht]
    · have hsome : p[a]? = some (p.getD a ⟨0, 0⟩) := by
        rw [List.getD_eq_getElem?_getD, List.getElem?_eq_getElem ha]
        rfl
      have h1 : ((a :: t).filterMap fun idx =>
          if idx ∈ S then none else p[idx]?) =
          p.getD a ⟨0, 0⟩ :: (t.filterMap fun idx =>
            if idx ∈ S then none else p[idx]?) := by
        rw [List.filterMap_cons]
        rw [if_neg hmem, hsome]
      have h2 : ((a :: t).filter fun idx => decide (idx ∉ S)) =
          a :: (t.filter fun idx => decide (idx ∉ S)) := by
        simp [List.filter_cons, hmem]
      rw [h1, ih ht, h2, List.map_cons]

theorem mergePath_eq_kept (p : List GridCoord) (h : ¬p.length ≤ 2) :
    mergePath p = (keptIdx p).map fun k => p.getD k ⟨0, 0⟩ := by
  unfold mergePath keptIdx
  rw [if_neg h]
  exact filterMap_keep_eq p _ _ fun k hk => List.mem_range.mp hk

theorem mem_keptIdx (p : List GridCoord) (k : Nat) :
    k ∈ keptIdx p ↔ k < p.length ∧ k ∉ pathIndexToRemove p := by
  simp [keptIdx, List.mem_filter, List.mem_range]

theorem zero_not_removed (p : List GridCoord) : 0 ∉ pathIndexToRemove p := by
  rw [mem_pathIndexToRemove]
  omega

theorem last_not_removed (p : List GridCoord) :
    p.length - 1 ∉ pathIndexToRemove p := by
  rw [mem_pathIndexToRemove]
  omega

theorem keptIdx_sorted (p : List GridCoord) :
    (keptIdx p).Sorted (· < ·) :=
  (List.pairwise_lt_range _).filter _

theorem keptIdx_lt_length (p : List GridCoord) (m : Nat)
    (hm : m < (keptIdx p).length) : (keptIdx p)[m] < p.length := by
  have : (keptIdx p)[m] ∈ keptIdx p := List.getElem_mem hm
  exact ((mem_keptIdx p _).mp this).1

theorem keptIdx_gap (p : List GridCoord) (m : Nat)
    (hm : m + 1 < (keptIdx p).length) :
    (keptIdx p)[m] < (keptIdx p)[m + 1] ∧
    ∀ k, (keptIdx p)[m] < k → k < (keptIdx p)[m + 1] →
      k ∈ pathIndexToRemove p := by
  have hs := keptIdx_sorted p
  have hpg := List.pairwise_iff_getElem.mp hs
  constructor
  · exact hpg m (m + 1) (by omega) hm (by omega)
  · intro k hk1 hk2
    by_contra hk
    have hkn : k < p.length := lt_trans hk2 (keptIdx_lt_length p (m + 1) hm)
    have hkmem : k ∈ keptIdx p := (mem_keptIdx p k).mpr ⟨hkn, hk⟩
    obtain ⟨j, hjlen, hj⟩ := List.mem_iff_getElem.mp hkmem
    rcases Nat.lt_trichotomy j m with hcase | hcase | hcase
    · have := hpg j m hjlen (by omega) hcase
      rw [hj] at this
      omega
    · subst hcase
      rw [hj] at hk1
      omega
    · rcases Nat.lt_trichotomy j (m + 1) with hcase2 | hcase2 | hcase2
      · omega
      · subst hcase2
        rw [hj] at hk2
        omega
      · have := hpg (m + 1) j hm hjlen hcase2
        rw [hj] at this
        omega

/-- Between two kept indices every original index is removed, so the whole
run has one direction class, and the combined step classifies the same. -/
theorem dir_chain (p : List GridCoord) :
    ∀ j i : Nat, i < j → j < p.length →
      (∀ k, i < k → k < j → k ∈ pathIndexToRemove p) →
      determineDirection (p.getD i ⟨0, 0⟩) (p.getD j ⟨0, 0⟩) = dirAt p (j - 1) ∧
      determineDirection (p.getD i ⟨0, 0⟩) (p.getD j ⟨0, 0⟩) = dirAt p i := by
  intro j
  induction j with
  | zero => omega
  | succ jm ih =>
    intro i hij hjlen hmid
    by_cases hcase : i = jm
    · subst hcase
      exact ⟨rfl, rfl⟩
    · have hij2 : i < jm := by omega
      have hjmem := hmid jm hij2 (by omega)
      rw [mem_pathIndexToRemove] at hjmem
      obtain ⟨h1, h2, h3⟩ := hjmem
      have hIH := ih i hij2 (by omega) fun k hk1 hk2 => hmid k hk1 (by omega)
      obtain ⟨hIH1, hIH2⟩ := hIH
      have hlink : determineDirection (p.getD i ⟨0, 0⟩) (p.getD jm ⟨0, 0⟩) =
          determineDirection (p.getD jm ⟨0, 0⟩) (p.getD (jm + 1) ⟨0, 0⟩) := by
        rw [hIH1]
        have : jm - 1 + 1 = jm := by omega
        calc dirAt p (jm - 1) = dirAt p jm := h3
          _ = _ := rfl
      have htrans := determineDirection_trans _ _ _ hlink
      constructor
      · rw [htrans, hIH1]
        have : jm + 1 - 1 = jm := by omega
        rw [this]
        exact h3
      · rw [htrans, hIH2]

theorem range_filterMap_getElem {α : Type} (l : List α) :
    (List.range l.length).filterMap (fun k => l[k]?) = l := by
  induction l with
  | nil => rfl
  | cons a t ih =>
    rw [List.length_cons, List.range_succ_eq_map, List.filterMap_cons]
    simp only [List.getElem?_cons_zero, List.filterMap_map]
    have hfun : ((fun k => (a :: t)[k]?) ∘ Nat.succ) = fun k => t[k]? := by
      funext k
      simp
    rw [hfun, ih]

theorem mergePath_of_no_removal (p : List GridCoord)
    (h : pathIndexToRemove p = []) : mergePath p = p := by
  by_cases hlen : p.length ≤ 2
  · exact mergePath_short p hlen
  · unfold mergePath
    rw [if_neg hlen]
    have hfun : (fun idx => if idx ∈ pathIndexToRemove p then none
        else p[idx]?) = fun idx => p[idx]? := by
      funext idx
      rw [h]
      simp
    rw [hfun, range_filterMap_getElem]

theorem kept_map_getD (p : List GridCoord) (m : Nat)
    (hm : m < (keptIdx p).length) :
    ((keptIdx p).map fun k => p.getD k ⟨0, 0⟩).getD m ⟨0, 0⟩ =
      p.getD ((keptIdx p)[m]) ⟨0, 0⟩ := by
  rw [List.getD_eq_getElem?_getD, List.getElem?_map,
    List.getElem?_eq_getElem hm]
  rfl

/-- The simplified path has no removable triple left: consecutive directions
always differ. -/
theorem mergePath_dirAt_ne (p : List GridCoord) (hlen : ¬p.length ≤ 2)
    (m : Nat) (hm : m + 2 < (mergePath p).length) :
    dirAt (mergePath p) m ≠ dirAt (mergePath p) (m + 1) := by
  have hK := mergePath_eq_kept p hlen
  have hKlen : (mergePath p).length = (keptIdx p).length := by
    rw [hK, List.length_map]
  have hmK : m + 1 + 1 < (keptIdx p).length := by
    rw [hKlen] at hm
    omega
  have hm0 : m < (keptIdx p).length := by omega
  have hm1 : m + 1 < (keptIdx p).length := by omega
  have hg1 := keptIdx_gap p m hm1
  have hg2 := keptIdx_gap p (m + 1) hmK
  have hb2 := keptIdx_lt_length p (m + 1 + 1) hmK
  have hchain1 := dir_chain p ((keptIdx p)[m + 1]) ((keptIdx p)[m]) hg1.1
    (lt_trans hg2.1 hb2) hg1.2
  have hchain2 := dir_chain p ((keptIdx p)[m + 1 + 1]) ((keptIdx p)[m + 1])
    hg2.1 hb2 hg2.2
  have hkept : (keptIdx p)[m + 1] ∉ pathIndexToRemove p :=
    ((mem_keptIdx p _).mp (List.getElem_mem hm1)).2
  rw [mem_pathIndexToRemove] at hkept
  have hq1 : (keptIdx p)[m] < (keptIdx p)[m + 1] := hg1.1
  have hq2 : (keptIdx p)[m + 1] < (keptIdx p)[m + 1 + 1] := hg2.1
  have hne : dirAt p ((keptIdx p)[m + 1] - 1) ≠
      dirAt p ((keptIdx p)[m + 1]) := by
    intro heq
    exact hkept ⟨by omega, by omega, heq⟩
  have g1 : (mergePath p).getD m ⟨0, 0⟩ = p.getD ((keptIdx p)[m]) ⟨0, 0⟩ := by
    rw [hK]
    exact kept_map_getD p m hm0
  have g2 : (mergePath p).getD (m + 1) ⟨0, 0⟩ =
      p.getD ((keptIdx p)[m + 1]) ⟨0, 0⟩ := by
    rw [hK]
    exact kept_map_getD p (m + 1) hm1
  have g3 : (mergePath p).getD (m + 1 + 1) ⟨0, 0⟩ =
      p.getD ((keptIdx p)[m + 1 + 1]) ⟨0, 0⟩ := by
    rw [hK]
    exact kept_map_getD p (m + 1 + 1) hmK
  have e1 : dirAt (mergePath p) m = dirAt p ((keptIdx p)[m + 1] - 1) := by
    unfold dirAt
    rw [g1, g2]
    exact hchain1.1
  have e2 : dirAt (mergePath p) (m + 1) = dirAt p ((keptIdx p)[m + 1]) := by
    unfold dirAt
    rw [g2, g3]
    exact hchain2.2
  rw [e1, e2]
  exact hne

theorem mergePath_length_le (p : List GridCoord) :
    (mergePath p).length ≤ p.length := by
  by_cases hlen : p.length ≤ 2
  · rw [mergePath_short p hlen]
  · rw [mergePath_eq_kept p hlen, List.length_map]
    calc (keptIdx p).length ≤ (List.range p.length).length :=
          List.length_filter_le _ _
      _ = p.length := List.length_range _

theorem mergePath_head? (p : List GridCoord) :
    (mergePath p).head? = p.head? := by
  by_cases hlen : p.length ≤ 2
  · rw [mergePath_short p hlen]
  · rw [mergePath_eq_kept p hlen]
    obtain ⟨n', hn⟩ : ∃ n', p.length = n' + 1 := ⟨p.length - 1, by omega⟩
    have hke : keptIdx p = 0 :: ((List.range n').map Nat.succ).filter
        fun k => decide (k ∉ pathIndexToRemove p) := by
      unfold keptIdx
      rw [hn, List.range_succ_eq_map, List.filter_cons]
      simp [zero_not_removed p]
    rw [hke]
    cases p with
    | nil => simp at hn
    | cons a t => simp

theorem mergePath_getLast? (p : List GridCoord) :
    (mergePath p).getLast? = p.getLast? := by
  by_cases hlen : p.length ≤ 2
  · rw [mergePath_short p hlen]
  · rw [mergePath_eq_kept p hlen]
    obtain ⟨n', hn⟩ : ∃ n', p.length = n' + 1 := ⟨p.length - 1, by omega⟩
    have hke : keptIdx p = ((List.range n').filter
        fun k => decide (k ∉ pathIndexToRemove p)) ++ [n'] := by
      unfold keptIdx
      rw [hn, List.range_succ, List.filter_append, List.filter_cons]
      have : n' ∉ pathIndexToRemove p := by
        have := last_not_removed p
        rw [hn] at this
        simpa using this
      simp [this]
    rw [hke, List.map_append]
    simp only [List.map_cons, List.map_nil]
    rw [List.getLast?_concat]
    have : p.getLast? = p[p.length - 1]? := List.getLast?_eq_getElem? p
    rw [this, hn]
    simp only [Nat.add_sub_cancel]
    rw [List.getD_eq_getElem?_getD, List.getElem?_eq_getElem (by omega)]
    rfl

/-- Claim C4: path simplification is idempotent, never lengthens a path,
keeps the first and last elements, and is the identity on paths of length at
most 2. -/
theorem C4_mergePath_idempotent_and_shape (p : List GridCoord) :
    mergePath (mergePath p) = mergePath p ∧
    (mergePath p).length ≤ p.length ∧
    (mergePath p).head? = p.head? ∧
    (mergePath p).getLast? = p.getLast? ∧
    (p.length ≤ 2 → mergePath p = p) := by
  refine ⟨?_, mergePath_length_le p, mergePath_head? p, mergePath_getLast? p,
    mergePath_short p⟩
  by_cases hlen : p.length ≤ 2
  · rw [mergePath_short p hlen]
    exact mergePath_short p hlen
  · by_cases hr : (mergePath p).length ≤ 2
    · exact mergePath_short _ hr
    · apply mergePath_of_no_removal
      rw [List.eq_nil_iff_forall_not_mem]
      intro k hk
      rw [mem_pathIndexToRemove] at hk
      obtain ⟨hk1, hk2, hk3⟩ := hk
      have hkk : k - 1 + 1 = k := by omega
      have := mergePath_dirAt_ne p hlen (k - 1) (by omega)
      rw [hkk] at this
      exact this hk3

/-- Claim C4 witness: the theorem applied to a concrete collinear 3-point
path, whose simplification drops the middle point and is then stable. -/
theorem C4_mergePath_idempotent_and_shape_witness :
    mergePath [(⟨0, 0⟩ : GridCoord), ⟨1, 0⟩] = [⟨0, 0⟩, ⟨1, 0⟩] ∧
    mergePath (mergePath [(⟨0, 0⟩ : GridCoord), ⟨1, 0⟩, ⟨2, 0⟩]) =
      mergePath [(⟨0, 0⟩ : GridCoord), ⟨1, 0⟩, ⟨2, 0⟩] :=
  ⟨(C4_mergePath_idempotent_and_shape [⟨0, 0⟩, ⟨1, 0⟩]).2.2.2.2 (by decide),
   (C4_mergePath_idempotent_and_shape [⟨0, 0⟩, ⟨1, 0⟩, ⟨2, 0⟩]).1⟩

/-! ## A* pathfinding (pathfinding.ts: getPath) -/

/-- Manhattan distance between grid coordinates. -/
def manhattan (a b : GridCoord) : Nat :=
  (a.x - b.x).natAbs + (a.y - b.y).natAbs

/-- `heuristic` of pathfinding.ts: Manhattan distance, plus 1 when the
remaining displacement is nonzero on both axes (corner penalty). -/
def heuristic (a b : GridCoord) : Nat :=
  let absX := (a.x - b.x).natAbs
  let absY := (a.y - b.y).natAbs
  if absX = 0 ∨ absY = 0 then absX + absY else absX + absY + 1

/-- Priority queue item of pathfinding.ts. -/
structure PQItem where
  coord : GridCoord
  priority : Nat
deriving DecidableEq

/-- `PriorityQueue.push`: append then re-sort with the stable JS sort on an
already sorted array, i.e. insert after all items of priority ≤ the new
item's priority. -/
def pqPush : List PQItem → PQItem → List PQItem
  | [], it => [it]
  | h :: rest, it =>
    if h.priority ≤ it.priority then h :: pqPush rest it else it :: h :: rest

/-- The four axis-aligned moves of pathfinding.ts, in source order. -/
def pathDirections : List GridCoord := [⟨1, 0⟩, ⟨-1, 0⟩, ⟨0, 1⟩, ⟨0, -1⟩]

/-- The mutable state of the `getPath` search loop.  `popped` records every
coordinate popped from the queue; it is write-only bookkeeping used by the
verification and never influences the algorithm. -/
structure AStarState where
  pq : List PQItem
  costSoFar : GridCoord → Option Nat
  cameFrom : GridCoord → Option (Option GridCoord)
  popped : List GridCoord

/-- The update performed when a neighbor relaxation succeeds: record the new
cost and predecessor and push a queue entry at `newCost + heuristic`. -/
def relaxUpdate (t : GridCoord) (st : AStarState) (next : GridCoord)
    (newCost : Nat) (current : GridCoord) : AStarState :=
  { pq := pqPush st.pq ⟨next, newCost + heuristic next t⟩,
    costSoFar := fun c => if c = next then some newCost else st.costSoFar c,
    cameFrom := fun c => if c = next then some (some current)
      else st.cameFrom c,
    popped := st.popped }

/-- One iteration of the `for (const dir of directions)` body: skip occupied
non-goal cells, otherwise relax the neighbor when no cost is recorded or the
new cost improves (`existingCost === undefined || newCost < existingCost`),
recording cost, queue entry and predecessor exactly as pathfinding.ts
does. -/
def relaxNeighbor (t : GridCoord) (free : GridCoord → Bool)
    (current : GridCoord) (curCost : Nat) (st : AStarState)
    (dir : GridCoord) : AStarState :=
  let next : GridCoord := ⟨current.x + dir.x, current.y + dir.y⟩
  if free next = false ∧ next ≠ t then st
  else
    let newCost := curCost + 1
    match st.costSoFar next with
    | none => relaxUpdate t st next newCost current
    | some existing =>
      if newCost < existing then relaxUpdate t st next newCost current else st

/-- Path reconstruction of pathfinding.ts: follow `cameFrom` links from the
goal, prepending each cell, and stop at a `null` (or absent) link.  Fuel
exhaustion yields `none` — the source loop would simply not have terminated
yet. -/
def reconstructPath (cf : GridCoord → Option (Option GridCoord)) :
    Nat → GridCoord → Option (List GridCoord)
  | 0, _ => none
  | fuel + 1, c =>
    match cf c with
    | some (some prev) => (reconstructPath cf fuel prev).map (· ++ [c])
    | _ => some [c]

/-- Result of `getPath`: a reconstructed path, the explicit "No path found"
failure when the frontier empties, or fuel exhaustion. -/
inductive PathResult where
  | found (path : List GridCoord)
  | noPath
  | outOfFuel
deriving DecidableEq

/-- The `while (pq.length() > 0)` loop of `getPath`: pop the head, return
the reconstructed path when it is the goal, otherwise relax the four
neighbors and continue. -/
def aStarLoop (t : GridCoord) (free : GridCoord → Bool) :
    Nat → AStarState → PathResult
  | 0, _ => .outOfFuel
  | fuel + 1, st =>
    match st.pq with
    | [] => .noPath
    | item :: rest =>
      let current := item.coord
      if current = t then
        match reconstructPath st.cameFrom (fuel + 1) current with
        | some p => .found p
        | none => .outOfFuel
      else
        let curCost := (st.costSoFar current).getD 0
        let st1 : AStarState :=
          { st with pq := rest, popped := current :: st.popped }
        aStarLoop t free fuel
          (pathDirections.foldl (relaxNeighbor t free current curCost) st1)

/-- The initial search state of `getPath`: the start enqueued at priority 0,
cost 0 recorded for it, and a `null` predecessor link. -/
def initState (f : GridCoord) : AStarState :=
  { pq := [⟨f, 0⟩],
    costSoFar := fun c => if c = f then some 0 else none,
    cameFrom := fun c => if c = f then some none else none,
    popped := [] }

/-- `getPath` of pathfinding.ts (fuel-indexed). -/
def getPath (fuel : Nat) (f t : GridCoord) (free : GridCoord → Bool) :
    PathResult :=
  aStarLoop t free fuel (initState f)

/-! ## A* supporting lemmas -/

theorem manhattan_self (a : GridCoord) : manhattan a a = 0 := by
  simp [manhattan]

theorem manhattan_comm (a b : GridCoord) : manhattan a b = manhattan b a := by
  unfold manhattan
  omega

theorem heuristic_ge_manhattan (a b : GridCoord) :
    manhattan a b ≤ heuristic a b := by
  simp only [heuristic, manhattan]
  split_ifs <;> omega

theorem heuristic_le_manhattan_succ (a b : GridCoord) :
    heuristic a b ≤ manhattan a b + 1 := by
  simp only [heuristic, manhattan]
  split_ifs <;> omega

theorem mem_pqPush (l : List PQItem) (x it : PQItem) :
    it ∈ pqPush l x ↔ it ∈ l ∨ it = x := by
  induction l with
  | nil => simp [pqPush]
  | cons h rest ih =>
    unfold pqPush
    split_ifs with hle
    · simp [ih]
      tauto
    · simp
      tauto

theorem pqPush_pairwise (l : List PQItem) (x : PQItem)
    (h : l.Pairwise fun a b => a.priority ≤ b.priority) :
    (pqPush l x).Pairwise fun a b => a.priority ≤ b.priority := by
  induction l with
  | nil => simp [pqPush]
  | cons hd rest ih =>
    rw [List.pairwise_cons] at h
    obtain ⟨hhd, hrest⟩ := h
    unfold pqPush
    split_ifs with hle
    · rw [List.pairwise_cons]
      refine ⟨?_, ih hrest⟩
      intro it hit
      rcases (mem_pqPush rest x it).mp hit with hmem | rfl
      · exact hhd it hmem
      · exact hle
    · rw [List.pairwise_cons]
      refine ⟨?_, List.pairwise_cons.mpr ⟨hhd, hrest⟩⟩
      intro it hit
      rcases List.mem_cons.mp hit with rfl | hmem
      · omega
      · have := hhd it hmem
        omega

theorem manhattan_dir (c : GridCoord) (dir : GridCoord)
    (h : dir ∈ pathDirections) :
    manhattan c ⟨c.x + dir.x, c.y + dir.y⟩ = 1 := by
  fin_cases h <;> (simp only [manhattan]; omega)

theorem neighbor_ne (c : GridCoord) (dir : GridCoord)
    (h : dir ∈ pathDirections) :
    (⟨c.x + dir.x, c.y + dir.y⟩ : GridCoord) ≠ c := by
  intro he
  have h1 := manhattan_dir c dir h
  rw [he, manhattan_self] at h1
  omega

theorem manhattan_step (f c : GridCoord) (dir : GridCoord)
    (h : dir ∈ pathDirections) :
    manhattan f ⟨c.x + dir.x, c.y + dir.y⟩ ≤ manhattan f c + 1 ∧
    (manhattan f ⟨c.x + dir.x, c.y + dir.y⟩ + manhattan f c) % 2 = 1 := by
  fin_cases h <;> (simp only [manhattan]; omega)

theorem adjacent_exists_dir (a b : GridCoord) (h : manhattan a b = 1) :
    ∃ dir ∈ pathDirections, b = ⟨a.x + dir.x, a.y + dir.y⟩ := by
  cases a with
  | mk ax ay =>
    cases b with
    | mk bx by' =>
      simp only [manhattan] at h
      have hcase : (bx = ax + 1 ∧ by' = ay) ∨ (bx = ax - 1 ∧ by' = ay) ∨
          (bx = ax ∧ by' = ay + 1) ∨ (bx = ax ∧ by' = ay - 1) := by
        omega
      rcases hcase with ⟨h1, h2⟩ | ⟨h1, h2⟩ | ⟨h1, h2⟩ | ⟨h1, h2⟩
      · exact ⟨⟨1, 0⟩, by simp [pathDirections], by simp [h1, h2]⟩
      · exact ⟨⟨-1, 0⟩, by simp [pathDirections], by simp [h1, h2]; omega⟩
      · exact ⟨⟨0, 1⟩, by simp [pathDirections], by simp [h1, h2]⟩
      · exact ⟨⟨0, -1⟩, by simp [pathDirections], by simp [h1, h2]; omega⟩

/-- A fixed Manhattan-shortest path from `f` to `t`: walk the x-axis first,
then the y-axis (used only in proofs about obstacle-free grids). -/
def optStep (f t : GridCoord) (i : Nat) : GridCoord :=
  let dxn := (t.x - f.x).natAbs
  if i ≤ dxn then
    ⟨if f.x ≤ t.x then f.x + i else f.x - i, f.y⟩
  else
    ⟨t.x, if f.y ≤ t.y then f.y + (i - dxn : Nat) else f.y - (i - dxn : Nat)⟩

theorem optStep_zero (f t : GridCoord) : optStep f t 0 = f := by
  cases f with
  | mk fx fy =>
    simp only [optStep]
    split_ifs <;> simp only [GridCoord.mk.injEq, and_true, true_and] <;>
      first
        | trivial
        | omega

theorem optStep_dist_from (f t : GridCoord) (i : Nat) :
    manhattan f (optStep f t i) = i := by
  simp only [manhattan, optStep]
  split_ifs <;> dsimp only <;> omega

theorem optStep_dist_to (f t : GridCoord) (i : Nat)
    (h : i ≤ manhattan f t) :
    manhattan (optStep f t i) t = manhattan f t - i := by
  simp only [manhattan, optStep] at h ⊢
  split_ifs <;> dsimp only <;> omega

theorem optStep_last (f t : GridCoord) :
    optStep f t (manhattan f t) = t := by
  cases t with
  | mk tx ty =>
    simp only [manhattan, optStep]
    split_ifs <;> simp only [GridCoord.mk.injEq, and_true, true_and] <;>
      first
        | trivial
        | omega

theorem optStep_adj (f t : GridCoord) (i : Nat) :
    manhattan (optStep f t i) (optStep f t (i + 1)) = 1 := by
  simp only [manhattan, optStep]
  split_ifs <;> dsimp only <;> omega

/-! ## A* search invariant -/

/-- Invariant of the `getPath` search loop, relative to start `f`, goal `t`
and the freeness predicate.  Recorded costs are lower-bounded by (and share
parity with) the Manhattan distance from the start; the queue is sorted by
priority and every queued entry has a recorded cost below its priority;
every recorded cost either still has a live queue entry (priced at most
cost + heuristic) or its cell has been popped; predecessor links are
strictly cost-decreasing adjacent steps into free (or goal) cells; the start
is the unique cell with a `null` link. -/
structure AInv (f t : GridCoord) (free : GridCoord → Bool)
    (st : AStarState) : Prop where
  cs_start : st.costSoFar f = some 0
  cf_start : st.cameFrom f = some none
  cf_null : ∀ c, st.cameFrom c = some none → c = f
  cs_lb : ∀ c v, st.costSoFar c = some v → manhattan f c ≤ v
  cs_parity : ∀ c v, st.costSoFar c = some v → v % 2 = manhattan f c % 2
  pq_sorted : st.pq.Pairwise fun a b => a.priority ≤ b.priority
  pq_cost : ∀ it ∈ st.pq, ∃ v, st.costSoFar it.coord = some v ∧
    v ≤ it.priority
  cs_entry : ∀ c v, st.costSoFar c = some v →
    (∃ it ∈ st.pq, it.coord = c ∧ it.priority ≤ v + heuristic c t) ∨
      c ∈ st.popped
  cf_chain : ∀ c prev, st.cameFrom c = some (some prev) →
    ∃ v w, st.costSoFar c = some v ∧ st.costSoFar prev = some w ∧ w < v ∧
      manhattan prev c = 1 ∧ (free c = true ∨ c = t)
  cf_def : ∀ c v, st.costSoFar c = some v → st.cameFrom c ≠ none

theorem AInv_init (f t : GridCoord) (free : GridCoord → Bool) :
    AInv f t free (initState f) := by
  constructor
  · simp [initState]
  · simp [initState]
  · intro c h
    by_cases hc : c = f
    · exact hc
    · simp [initState, hc] at h
  · intro c v h
    by_cases hc : c = f
    · subst hc
      simp [initState] at h
      subst h
      simp [manhattan_self]
    · simp [initState, hc] at h
  · intro c v h
    by_cases hc : c = f
    · subst hc
      simp [initState] at h
      subst h
      simp [manhattan_self]
    · simp [initState, hc] at h
  · simp [initState]
  · intro it hit
    simp [initState] at hit
    subst hit
    simp [initState]
  · intro c v h
    by_cases hc : c = f
    · rw [hc] at h ⊢
      simp [initState] at h
      subst h
      left
      exact ⟨⟨f, 0⟩, by simp [initState], rfl, by simp⟩
    · simp [initState, hc] at h
  · intro c prev h
    by_cases hc : c = f
    · subst hc
      simp [initState] at h
    · simp [initState, hc] at h
  · intro c v h
    by_cases hc : c = f
    · subst hc
      simp [initState]
    · simp [initState, hc] at h

/-- Case analysis for one relaxation: either the state is unchanged, or the
neighbor is free-or-goal, any previously recorded cost there exceeds the new
cost, and the state receives exactly the `relaxUpdate`. -/
theorem relaxNeighbor_cases (t : GridCoord) (free : GridCoord → Bool)
    (current : GridCoord) (curCost : Nat) (st : AStarState)
    (dir : GridCoord) :
    relaxNeighbor t free current curCost st dir = st ∨
    ((free ⟨current.x + dir.x, current.y + dir.y⟩ = true ∨
        (⟨current.x + dir.x, current.y + dir.y⟩ : GridCoord) = t) ∧
     (∀ o, st.costSoFar ⟨current.x + dir.x, current.y + dir.y⟩ = some o →
        curCost + 1 < o) ∧
     relaxNeighbor t free current curCost st dir =
       relaxUpdate t st ⟨current.x + dir.x, current.y + dir.y⟩
         (curCost + 1) current) := by
  by_cases hguard : free (⟨current.x + dir.x, current.y + dir.y⟩ :
      GridCoord) = false ∧
      (⟨current.x + dir.x, current.y + dir.y⟩ : GridCoord) ≠ t
  · left
    simp only [relaxNeighbor]
    rw [if_pos hguard]
  · have hfree_or : free ⟨current.x + dir.x, current.y + dir.y⟩ = true ∨
        (⟨current.x + dir.x, current.y + dir.y⟩ : GridCoord) = t := by
      by_cases hf : free ⟨current.x + dir.x, current.y + dir.y⟩ = true
      · exact Or.inl hf
      · right
        by_contra hne
        exact hguard ⟨by simpa using hf, hne⟩
    rcases hcs : st.costSoFar ⟨current.x + dir.x, current.y + dir.y⟩ with
      _ | existing
    · right
      refine ⟨hfree_or, ?_, ?_⟩
      · intro o ho
        simp at ho
      · simp only [relaxNeighbor]
        rw [if_neg hguard]
        rw [hcs]
    · by_cases hlt : curCost + 1 < existing
      · right
        refine ⟨hfree_or, ?_, ?_⟩
        · intro o ho
          injection ho with ho
          omega
        · simp only [relaxNeighbor]
          rw [if_neg hguard]
          rw [hcs]
          simp [hlt]
      · left
        simp only [relaxNeighbor]
        rw [if_neg hguard]
        rw [hcs]
        simp [hlt]

theorem relax_popped (t : GridCoord) (free : GridCoord → Bool)
    (current : GridCoord) (curCost : Nat) (st : AStarState) (dir : GridCoord) :
    (relaxNeighbor t free current curCost st dir).popped = st.popped := by
  rcases relaxNeighbor_cases t free current curCost st dir with h | ⟨_, _, h⟩ <;>
    rw [h]
  rfl

theorem relax_pq_superset (t : GridCoord) (free : GridCoord → Bool)
    (current : GridCoord) (curCost : Nat) (st : AStarState) (dir : GridCoord) :
    ∀ it ∈ st.pq, it ∈ (relaxNeighbor t free current curCost st dir).pq := by
  intro it hit
  rcases relaxNeighbor_cases t free current curCost st dir with h | ⟨_, _, h⟩ <;>
    rw [h]
  · exact hit
  · exact (mem_pqPush _ _ _).mpr (Or.inl hit)

theorem relax_cs_mono (t : GridCoord) (free : GridCoord → Bool)
    (current : GridCoord) (curCost : Nat) (st : AStarState) (dir : GridCoord) :
    ∀ c w, st.costSoFar c = some w →
      ∃ v, (relaxNeighbor t free current curCost st dir).costSoFar c = some v ∧
        v ≤ w := by
  intro c w hw
  rcases relaxNeighbor_cases t free current curCost st dir with h | ⟨_, hold, h⟩ <;>
    rw [h]
  · exact ⟨w, hw, le_refl w⟩
  · simp only [relaxUpdate]
    by_cases hc : c = ⟨current.x + dir.x, current.y + dir.y⟩
    · have := hold w (hc ▸ hw)
      exact ⟨curCost + 1, by rw [if_pos hc], by omega⟩
    · exact ⟨w, by rw [if_neg hc]; exact hw, le_refl w⟩

theorem relax_cs_other (t : GridCoord) (free : GridCoord → Bool)
    (current : GridCoord) (curCost : Nat) (st : AStarState) (dir : GridCoord)
    (c : GridCoord) (hne : c ≠ ⟨current.x + dir.x, current.y + dir.y⟩) :
    (relaxNeighbor t free current curCost st dir).costSoFar c =
      st.costSoFar c := by
  rcases relaxNeighbor_cases t free current curCost st dir with h | ⟨_, _, h⟩ <;>
    rw [h]
  simp only [relaxUpdate]
  rw [if_neg hne]

theorem relax_push_on_change (t : GridCoord) (free : GridCoord → Bool)
    (current : GridCoord) (curCost : Nat) (st : AStarState) (dir : GridCoord) :
    ∀ c w, (relaxNeighbor t free current curCost st dir).costSoFar c = some w →
      st.costSoFar c = some w ∨
      (⟨c, w + heuristic c t⟩ : PQItem) ∈
        (relaxNeighbor t free current curCost st dir).pq := by
  intro c w hw
  rcases relaxNeighbor_cases t free current curCost st dir with h | ⟨_, _, h⟩ <;>
    rw [h] at hw ⊢
  · exact Or.inl hw
  · simp only [relaxUpdate] at hw ⊢
    by_cases hc : c = ⟨current.x + dir.x, current.y + dir.y⟩
    · rw [if_pos hc] at hw
      injection hw with hw
      right
      subst hc
      subst hw
      exact (mem_pqPush _ _ _).mpr (Or.inr rfl)
    · rw [if_neg hc] at hw
      exact Or.inl hw

theorem relax_free_bound (t : GridCoord) (free : GridCoord → Bool)
    (current : GridCoord) (curCost : Nat) (st : AStarState) (dir : GridCoord)
    (hfree : free ⟨current.x + dir.x, current.y + dir.y⟩ = true) :
    ∃ w, (relaxNeighbor t free current curCost st dir).costSoFar
        ⟨current.x + dir.x, current.y + dir.y⟩ = some w ∧ w ≤ curCost + 1 := by
  have hguard : ¬(free (⟨current.x + dir.x, current.y + dir.y⟩ :
      GridCoord) = false ∧
      (⟨current.x + dir.x, current.y + dir.y⟩ : GridCoord) ≠ t) := by
    intro hg
    rw [hfree] at hg
    simp at hg
  simp only [relaxNeighbor]
  rw [if_neg hguard]
  rcases hcs : st.costSoFar ⟨current.x + dir.x, current.y + dir.y⟩ with
    _ | existing
  · exact ⟨curCost + 1, by simp [relaxUpdate], le_refl _⟩
  · dsimp only
    by_cases hlt : curCost + 1 < existing
    · rw [if_pos hlt]
      exact ⟨curCost + 1, by simp [relaxUpdate], le_refl _⟩
    · rw [if_neg hlt]
      exact ⟨existing, hcs, by omega⟩

theorem relax_AInv (f t : GridCoord) (free : GridCoord → Bool)
    (current : GridCoord) (curCost : Nat) (st : AStarState) (dir : GridCoord)
    (hdir : dir ∈ pathDirections) (hInv : AInv f t free st)
    (hcur : st.costSoFar current = some curCost) :
    AInv f t free (relaxNeighbor t free current curCost st dir) := by
  rcases relaxNeighbor_cases t free current curCost st dir with
    h | ⟨hfree_or, hold, h⟩
  · rw [h]
    exact hInv
  · rw [h]
    have hne_cur : (⟨current.x + dir.x, current.y + dir.y⟩ : GridCoord) ≠
        current := neighbor_ne current dir hdir
    have hne_f : f ≠ (⟨current.x + dir.x, current.y + dir.y⟩ : GridCoord) := by
      intro he
      have := hold 0 (by rw [← he]; exact hInv.cs_start)
      omega
    constructor
    · simp only [relaxUpdate]
      rw [if_neg hne_f]
      exact hInv.cs_start
    · simp only [relaxUpdate]
      rw [if_neg hne_f]
      exact hInv.cf_start
    · intro c hc
      simp only [relaxUpdate] at hc
      by_cases h2 : c = ⟨current.x + dir.x, current.y + dir.y⟩
      · rw [if_pos h2] at hc
        simp at hc
      · rw [if_neg h2] at hc
        exact hInv.cf_null c hc
    · intro c v hv
      simp only [relaxUpdate] at hv
      by_cases h2 : c = ⟨current.x + dir.x, current.y + dir.y⟩
      · rw [if_pos h2] at hv
        injection hv with hv
        subst h2
        have h3 := hInv.cs_lb current curCost hcur
        have h4 := (manhattan_step f current dir hdir).1
        omega
      · rw [if_neg h2] at hv
        exact hInv.cs_lb c v hv
    · intro c v hv
      simp only [relaxUpdate] at hv
      by_cases h2 : c = ⟨current.x + dir.x, current.y + dir.y⟩
      · rw [if_pos h2] at hv
        injection hv with hv
        subst h2
        have h3 := hInv.cs_parity current curCost hcur
        have h4 := (manhattan_step f current dir hdir).2
        omega
      · rw [if_neg h2] at hv
        exact hInv.cs_parity c v hv
    · simp only [relaxUpdate]
      exact pqPush_pairwise _ _ hInv.pq_sorted
    · intro it hit
      simp only [relaxUpdate] at hit ⊢
      rcases (mem_pqPush _ _ _).mp hit with hmem | rfl
      · obtain ⟨v, hv, hle⟩ := hInv.pq_cost it hmem
        by_cases h2 : it.coord = ⟨current.x + dir.x, current.y + dir.y⟩
        · have h3 := hold v (h2 ▸ hv)
          refine ⟨curCost + 1, ?_, by omega⟩
          rw [if_pos h2]
        · refine ⟨v, ?_, hle⟩
          rw [if_neg h2]
          exact hv
      · refine ⟨curCost + 1, ?_, ?_⟩
        · simp
        · exact Nat.le_add_right _ _
    · intro c v hv
      simp only [relaxUpdate] at hv ⊢
      by_cases h2 : c = ⟨current.x + dir.x, current.y + dir.y⟩
      · rw [if_pos h2] at hv
        injection hv with hv
        left
        refine ⟨⟨⟨current.x + dir.x, current.y + dir.y⟩,
          curCost + 1 + heuristic ⟨current.x + dir.x, current.y + dir.y⟩ t⟩,
          (mem_pqPush _ _ _).mpr (Or.inr rfl), by rw [h2], ?_⟩
        rw [h2, ← hv]
      · rw [if_neg h2] at hv
        rcases hInv.cs_entry c v hv with ⟨it, hmem, hco, hpr⟩ | hpop
        · exact Or.inl ⟨it, (mem_pqPush _ _ _).mpr (Or.inl hmem), hco, hpr⟩
        · exact Or.inr hpop
    · intro c prev hc
      simp only [relaxUpdate] at hc ⊢
      by_cases h2 : c = ⟨current.x + dir.x, current.y + dir.y⟩
      · rw [if_pos h2] at hc
        injection hc with hc
        injection hc with hc
        subst hc
        subst h2
        refine ⟨curCost + 1, curCost, by rw [if_pos rfl], ?_, by omega,
          manhattan_dir current dir hdir, hfree_or⟩
        rw [if_neg fun he => hne_cur he.symm]
        exact hcur
      · rw [if_neg h2] at hc
        obtain ⟨v, w, hv, hw, hlt, hadj, hfg⟩ := hInv.cf_chain c prev hc
        by_cases h3 : prev = ⟨current.x + dir.x, current.y + dir.y⟩
        · have h4 := hold w (h3 ▸ hw)
          refine ⟨v, curCost + 1, ?_, ?_, by omega, hadj, hfg⟩
          · rw [if_neg h2]
            exact hv
          · rw [if_pos h3]
        · refine ⟨v, w, ?_, ?_, hlt, hadj, hfg⟩
          · rw [if_neg h2]
            exact hv
          · rw [if_neg h3]
            exact hw
    · intro c v hv
      simp only [relaxUpdate] at hv ⊢
      by_cases h2 : c = ⟨current.x + dir.x, current.y + dir.y⟩
      · rw [if_pos h2]
        simp
      · rw [if_neg h2] at hv ⊢
        exact hInv.cf_def c v hv

theorem foldl_relax_main (f t : GridCoord) (free : GridCoord → Bool)
    (current : GridCoord) (curCost : Nat) :
    ∀ l : List GridCoord, (∀ d ∈ l, d ∈ pathDirections) →
    ∀ st : AStarState, AInv f t free st →
    st.costSoFar current = some curCost →
    AInv f t free (l.foldl (relaxNeighbor t free current curCost) st) ∧
    (l.foldl (relaxNeighbor t free current curCost) st).costSoFar current =
      some curCost ∧
    (l.foldl (relaxNeighbor t free current curCost) st).popped = st.popped ∧
    (∀ it ∈ st.pq,
      it ∈ (l.foldl (relaxNeighbor t free current curCost) st).pq) ∧
    (∀ c w, st.costSoFar c = some w →
      ∃ v, (l.foldl (relaxNeighbor t free current curCost) st).costSoFar c =
        some v ∧ v ≤ w) ∧
    (∀ c w, (l.foldl (relaxNeighbor t free current curCost) st).costSoFar c =
        some w →
      st.costSoFar c = some w ∨
      (⟨c, w + heuristic c t⟩ : PQItem) ∈
        (l.foldl (relaxNeighbor t free current curCost) st).pq) := by
  intro l
  induction l with
  | nil =>
    intro _ st hInv hcur
    exact ⟨hInv, hcur, rfl, fun it h => h, fun c w h => ⟨w, h, le_refl w⟩,
      fun c w h => Or.inl h⟩
  | cons d rest ih =>
    intro hsub st hInv hcur
    have hd : d ∈ pathDirections := hsub d (by simp)
    have hrest : ∀ x ∈ rest, x ∈ pathDirections :=
      fun x hx => hsub x (by simp [hx])
    have hInv2 : AInv f t free (relaxNeighbor t free current curCost st d) :=
      relax_AInv f t free current curCost st d hd hInv hcur
    have hcur2 : (relaxNeighbor t free current curCost st d).costSoFar
        current = some curCost := by
      rw [relax_cs_other t free current curCost st d current
        (neighbor_ne current d hd).symm]
      exact hcur
    rw [List.foldl_cons]
    obtain ⟨h1, h2, h3, h4, h5, h6⟩ := ih hrest _ hInv2 hcur2
    refine ⟨h1, h2, ?_, ?_, ?_, ?_⟩
    · rw [h3, relax_popped]
    · intro it hit
      exact h4 it (relax_pq_superset t free current curCost st d it hit)
    · intro c w hw
      obtain ⟨v1, hv1, hle1⟩ :=
        relax_cs_mono t free current curCost st d c w hw
      obtain ⟨v, hv, hle⟩ := h5 c v1 hv1
      exact ⟨v, hv, by omega⟩
    · intro c w hw
      rcases h6 c w hw with h | h
      · rcases relax_push_on_change t free current curCost st d c w h with
          h2 | h2
        · exact Or.inl h2
        · exact Or.inr (h4 _ h2)
      · exact Or.inr h

theorem foldl_relax_bound (f t : GridCoord) (free : GridCoord → Bool)
    (hfree : ∀ c, free c = true) (current : GridCoord) (curCost : Nat) :
    ∀ l : List GridCoord, (∀ d ∈ l, d ∈ pathDirections) →
    ∀ st : AStarState, AInv f t free st →
    st.costSoFar current = some curCost →
    ∀ dir ∈ l, ∃ w,
      (l.foldl (relaxNeighbor t free current curCost) st).costSoFar
        ⟨current.x + dir.x, current.y + dir.y⟩ = some w ∧ w ≤ curCost + 1 := by
  intro l
  induction l with
  | nil =>
    intro _ st _ _ dir hdir
    simp at hdir
  | cons d rest ih =>
    intro hsub st hInv hcur dir hdir
    have hd : d ∈ pathDirections := hsub d (by simp)
    have hrest : ∀ x ∈ rest, x ∈ pathDirections :=
      fun x hx => hsub x (by simp [hx])
    have hInv2 : AInv f t free (relaxNeighbor t free current curCost st d) :=
      relax_AInv f t free current curCost st d hd hInv hcur
    have hcur2 : (relaxNeighbor t free current curCost st d).costSoFar
        current = some curCost := by
      rw [relax_cs_other t free current curCost st d current
        (neighbor_ne current d hd).symm]
      exact hcur
    rw [List.foldl_cons]
    rcases List.mem_cons.mp hdir with rfl | hmem
    · obtain ⟨w0, hw0, hle0⟩ :=
        relax_free_bound t free current curCost st dir (hfree _)
      obtain ⟨_, _, _, _, h5, _⟩ :=
        foldl_relax_main f t free current curCost rest hrest _ hInv2 hcur2
      obtain ⟨v, hv, hvle⟩ := h5 _ w0 hw0
      exact ⟨v, hv, by omega⟩
    · exact ih hrest _ hInv2 hcur2 dir hmem

/-- Optimality bookkeeping on the fixed shortest path `optStep f t`: once a
path cell with optimal recorded cost has been popped, either its successor
on the path has been relaxed to within one step of optimal, or a live queue
entry for the cell (priced at most cost + heuristic) still exists. -/
def PoppedRelax (f t : GridCoord) (st : AStarState) : Prop :=
  ∀ i : Nat, i < manhattan f t → optStep f t i ∈ st.popped →
    st.costSoFar (optStep f t i) = some i →
    (∃ w, st.costSoFar (optStep f t (i + 1)) = some w ∧ w ≤ i + 1) ∨
    (∃ it ∈ st.pq, it.coord = optStep f t i ∧
      it.priority ≤ i + heuristic (optStep f t i) t)

theorem popstep_AInv (f t : GridCoord) (free : GridCoord → Bool)
    (st : AStarState) (item : PQItem) (rest : List PQItem)
    (hpq : st.pq = item :: rest) (hInv : AInv f t free st) :
    AInv f t free { st with pq := rest, popped := item.coord :: st.popped } := by
  constructor
  · exact hInv.cs_start
  · exact hInv.cf_start
  · exact hInv.cf_null
  · exact hInv.cs_lb
  · exact hInv.cs_parity
  · have := hInv.pq_sorted
    rw [hpq] at this
    exact (List.pairwise_cons.mp this).2
  · intro it hit
    exact hInv.pq_cost it (by rw [hpq]; exact List.mem_cons_of_mem _ hit)
  · intro c v hv
    rcases hInv.cs_entry c v hv with ⟨it, hmem, hco, hpr⟩ | hpop
    · rw [hpq] at hmem
      rcases List.mem_cons.mp hmem with rfl | hmem2
      · right
        rw [← hco]
        exact List.mem_cons_self _ _
      · exact Or.inl ⟨it, hmem2, hco, hpr⟩
    · exact Or.inr (List.mem_cons_of_mem _ hpop)
  · exact hInv.cf_chain
  · exact hInv.cf_def

theorem popstep_PoppedRelax (f t : GridCoord) (free : GridCoord → Bool)
    (hfree : ∀ c, free c = true)
    (st : AStarState) (item : PQItem) (rest : List PQItem) (vcur : Nat)
    (hpq : st.pq = item :: rest)
    (hvcur : st.costSoFar item.coord = some vcur)
    (hInv : AInv f t free st) (hPR : PoppedRelax f t st) :
    PoppedRelax f t
      (pathDirections.foldl (relaxNeighbor t free item.coord vcur)
        { st with pq := rest, popped := item.coord :: st.popped }) := by
  have hInv1 := popstep_AInv f t free st item rest hpq hInv
  have hcur1 : ({ st with pq := rest, popped := item.coord :: st.popped } :
      AStarState).costSoFar item.coord = some vcur := hvcur
  obtain ⟨hInv2, hcur2, hpop2, hsup2, hmono2, hpush2⟩ :=
    foldl_relax_main f t free item.coord vcur pathDirections
      (fun d hd => hd) _ hInv1 hcur1
  intro i hiM hpop hcs
  rw [hpop2] at hpop
  by_cases hPi : optStep f t i = item.coord
  · have hvi : vcur = i := by
      rw [hPi] at hcs
      rw [hcs] at hcur2
      injection hcur2 with h2
      omega
    obtain ⟨dir, hdirmem, heq⟩ := adjacent_exists_dir (optStep f t i)
      (optStep f t (i + 1)) (optStep_adj f t i)
    obtain ⟨w, hw, hwle⟩ := foldl_relax_bound f t free hfree item.coord vcur
      pathDirections (fun d hd => hd) _ hInv1 hcur1 dir hdirmem
    left
    refine ⟨w, ?_, by omega⟩
    rw [heq, hPi]
    exact hw
  · have hold : optStep f t i ∈ st.popped := by
      rcases List.mem_cons.mp hpop with h | h
      · exact absurd h hPi
      · exact h
    rcases hpush2 (optStep f t i) i hcs with hsame | hentry
    · rcases hPR i hiM hold hsame with ⟨w, hw, hwle⟩ | ⟨it2, hmem2, hco2, hpr2⟩
      · obtain ⟨v, hv, hvle⟩ := hmono2 _ w hw
        exact Or.inl ⟨v, hv, by omega⟩
      · rw [hpq] at hmem2
        rcases List.mem_cons.mp hmem2 with rfl | hmem3
        · exact absurd hco2.symm hPi
        · exact Or.inr ⟨it2, hsup2 it2 hmem3, hco2, hpr2⟩
    · exact Or.inr ⟨⟨optStep f t i, i + heuristic (optStep f t i) t⟩,
        hentry, rfl, le_refl _⟩

theorem manhattan_triangle (a b c : GridCoord) :
    manhattan a c ≤ manhattan a b + manhattan b c := by
  unfold manhattan
  omega


/-- The cell `i` steps along the fixed shortest path has recorded cost
exactly `i`. -/
def csOpt (st : AStarState) (f t : GridCoord) (i : Nat) : Prop :=
  st.costSoFar (optStep f t i) = some i

instance (st : AStarState) (f t : GridCoord) : DecidablePred (csOpt st f t) :=
  fun i => inferInstanceAs (Decidable (st.costSoFar (optStep f t i) = some i))

/-- When the popped queue head is the goal, the recorded cost of the goal is
exactly the Manhattan distance from the start (obstacle-free grid). -/
theorem pop_goal_cs (f t : GridCoord) (free : GridCoord → Bool)
    (st : AStarState) (item : PQItem) (rest : List PQItem)
    (hpq : st.pq = item :: rest) (hgoal : item.coord = t)
    (hInv : AInv f t free st) (hPR : PoppedRelax f t st) :
    st.costSoFar t = some (manhattan f t) := by
  have hq0 : csOpt st f t 0 := by
    unfold csOpt
    rw [optStep_zero]
    exact hInv.cs_start
  have histar_le : Nat.findGreatest (csOpt st f t) (manhattan f t) ≤
      manhattan f t := Nat.findGreatest_le _
  have histar : csOpt st f t
      (Nat.findGreatest (csOpt st f t) (manhattan f t)) :=
    Nat.findGreatest_spec (Nat.zero_le _) hq0
  have hfinish : ∀ it2 ∈ st.pq, it2.priority ≤ manhattan f t + 1 →
      st.costSoFar t = some (manhattan f t) := by
    intro it2 hmem hprle
    have hheadmin : item.priority ≤ it2.priority := by
      have hs := hInv.pq_sorted
      rw [hpq] at hs hmem
      rcases List.mem_cons.mp hmem with rfl | hmem2
      · exact le_refl _
      · exact (List.pairwise_cons.mp hs).1 it2 hmem2
    obtain ⟨v, hv, hvle⟩ := hInv.pq_cost item (by rw [hpq]; simp)
    rw [hgoal] at hv
    have hlb := hInv.cs_lb t v hv
    have hpar := hInv.cs_parity t v hv
    have hveq : v = manhattan f t := by omega
    rw [← hveq]
    exact hv
  by_cases hM : Nat.findGreatest (csOpt st f t) (manhattan f t) =
      manhattan f t
  · rw [hM] at histar
    have h2 : st.costSoFar (optStep f t (manhattan f t)) =
        some (manhattan f t) := histar
    rw [optStep_last] at h2
    exact h2
  · have histar_lt : Nat.findGreatest (csOpt st f t) (manhattan f t) <
        manhattan f t := by omega
    have histar2 : st.costSoFar (optStep f t
        (Nat.findGreatest (csOpt st f t) (manhattan f t))) =
        some (Nat.findGreatest (csOpt st f t) (manhattan f t)) := histar
    rcases hInv.cs_entry _ _ histar2 with ⟨it2, hmem, hco, hpr⟩ | hpop
    · have hh := heuristic_le_manhattan_succ
        (optStep f t (Nat.findGreatest (csOpt st f t) (manhattan f t))) t
      have hdist := optStep_dist_to f t _ histar_le
      exact hfinish it2 hmem (by omega)
    · rcases hPR _ histar_lt hpop histar2 with ⟨w, hw, hwle⟩ |
        ⟨it2, hmem, hco, hpr⟩
      · have hlb2 := hInv.cs_lb _ w hw
        have hdf := optStep_dist_from f t
          (Nat.findGreatest (csOpt st f t) (manhattan f t) + 1)
        have hweq : w = Nat.findGreatest (csOpt st f t) (manhattan f t) + 1 :=
          by omega
        rw [hweq] at hw
        have hnot := Nat.findGreatest_is_greatest
          (lt_add_one (Nat.findGreatest (csOpt st f t) (manhattan f t)))
          (Nat.succ_le_of_lt histar_lt)
        exact absurd hw hnot
      · have hh := heuristic_le_manhattan_succ
          (optStep f t (Nat.findGreatest (csOpt st f t) (manhattan f t))) t
        have hdist := optStep_dist_to f t _ histar_le
        exact hfinish it2 hmem (by omega)

/-- A successfully reconstructed chain runs from the start to the queried
cell, has at most cost + 1 cells, visits only free (or goal) cells after the
start, and moves one grid step at a time. -/
theorem reconstruct_spec (f t : GridCoord) (free : GridCoord → Bool)
    (st : AStarState) (hInv : AInv f t free st) :
    ∀ fuel (c : GridCoord) (v : Nat) (p : List GridCoord),
      st.costSoFar c = some v →
      reconstructPath st.cameFrom fuel c = some p →
      p.head? = some f ∧ p.getLast? = some c ∧ p.length ≤ v + 1 ∧
      (∀ x ∈ p, x ≠ f → free x = true ∨ x = t) ∧
      p.Chain' fun a b => manhattan a b = 1 := by
  intro fuel
  induction fuel with
  | zero =>
    intro c v p _ hrec
    simp [reconstructPath] at hrec
  | succ n ih =>
    intro c v p hv hrec
    simp only [reconstructPath] at hrec
    rcases hcf : st.cameFrom c with _ | oc
    · exact absurd hcf (hInv.cf_def c v hv)
    · rcases oc with _ | prev
      · rw [hcf] at hrec
        injection hrec with hrec
        subst hrec
        have hcf2 := hInv.cf_null c hcf
        refine ⟨by rw [hcf2]; rfl, rfl, by simp, ?_, by simp⟩
        intro x hx hxf
        simp at hx
        rw [hx, hcf2] at hxf
        exact absurd rfl hxf
      · rw [hcf] at hrec
        dsimp only at hrec
        rcases hrp : reconstructPath st.cameFrom n prev with _ | p2
        · rw [hrp] at hrec
          simp at hrec
        · rw [hrp] at hrec
          simp only [Option.map_some'] at hrec
          injection hrec with hrec
          subst hrec
          obtain ⟨v2, w, hv2, hw, hlt, hadj, hfg⟩ := hInv.cf_chain c prev hcf
          have hvv : v2 = v := by
            rw [hv] at hv2
            injection hv2 with h3
            omega
          obtain ⟨ih1, ih2, ih3, ih4, ih5⟩ := ih prev w p2 hw hrp
          refine ⟨?_, ?_, ?_, ?_, ?_⟩
          · cases p2 with
            | nil => simp at ih1
            | cons a l =>
              simp only [List.head?_cons] at ih1
              simpa using ih1
          · rw [List.getLast?_concat]
          · simp only [List.length_append, List.length_cons, List.length_nil]
            omega
          · intro x hx hxf
            rcases List.mem_append.mp hx with hx2 | hx2
            · exact ih4 x hx2 hxf
            · simp at hx2
              subst hx2
              exact hfg
          · refine List.Chain'.append ih5 (by simp) ?_
            intro a ha b hb
            rw [ih2] at ha
            simp at ha hb
            rw [← ha, ← hb]
            exact hadj

theorem chain_manhattan_le :
    ∀ p : List GridCoord, (p.Chain' fun a b => manhattan a b = 1) →
      ∀ a b, p.head? = some a → p.getLast? = some b →
      manhattan a b + 1 ≤ p.length := by
  intro p
  induction p with
  | nil =>
    intro _ a b h
    simp at h
  | cons x rest ih =>
    intro hchain a b hhead hlast
    simp only [List.head?_cons] at hhead
    injection hhead with hhead
    subst hhead
    cases rest with
    | nil =>
      simp at hlast
      subst hlast
      simp [manhattan_self]
    | cons y rest2 =>
      rw [List.chain'_cons] at hchain
      obtain ⟨h1, h2⟩ := hchain
      have hlast2 : (y :: rest2).getLast? = some b := by
        rw [← hlast]
        rw [List.getLast?_cons_cons]
      have hih := ih h2 y b (by simp) hlast2
      have htri := manhattan_triangle x y b
      simp only [List.length_cons] at hih ⊢
      omega

/-- Any path returned by the search loop under the invariant runs from the
start to the goal and visits only free cells in between. -/
theorem aStarLoop_found_spec (f t : GridCoord) (free : GridCoord → Bool) :
    ∀ fuel (st : AStarState) (p : List GridCoord), AInv f t free st →
      aStarLoop t free fuel st = .found p →
      p.head? = some f ∧ p.getLast? = some t ∧ p ≠ [] ∧
      (∀ x ∈ p, x ≠ f → x ≠ t → free x = true) := by
  intro fuel
  induction fuel with
  | zero =>
    intro st p _ h
    simp [aStarLoop] at h
  | succ n ih =>
    intro st p hInv hloop
    simp only [aStarLoop] at hloop
    rcases hpq : st.pq with _ | ⟨item, rest⟩
    · rw [hpq] at hloop
      simp at hloop
    · rw [hpq] at hloop
      dsimp only at hloop
      by_cases hgoal : item.coord = t
      · rw [if_pos hgoal] at hloop
        rcases hrec : reconstructPath st.cameFrom (n + 1) item.coord with
          _ | p2
        · rw [hrec] at hloop
          simp at hloop
        · rw [hrec] at hloop
          dsimp only at hloop
          injection hloop with hloop
          subst hloop
          obtain ⟨v, hv, _⟩ := hInv.pq_cost item (by rw [hpq]; simp)
          obtain ⟨s1, s2, s3, s4, s5⟩ :=
            reconstruct_spec f t free st hInv (n + 1) item.coord v p2 hv hrec
          refine ⟨s1, by rw [← hgoal]; exact s2, ?_, ?_⟩
          · intro hnil
            rw [hnil] at s1
            simp at s1
          · intro x hx hxf hxt
            rcases s4 x hx hxf with h | h
            · exact h
            · exact absurd h hxt
      · rw [if_neg hgoal] at hloop
        obtain ⟨v, hv, _⟩ := hInv.pq_cost item (by rw [hpq]; simp)
        have hgd : (st.costSoFar item.coord).getD 0 = v := by
          rw [hv]
          rfl
        rw [hgd] at hloop
        have hInv1 := popstep_AInv f t free st item rest hpq hInv
        have hInv2 := (foldl_relax_main f t free item.coord v pathDirections
          (fun d hd => hd) _ hInv1 hv).1
        exact ih _ p hInv2 hloop

/-- On an obstacle-free grid, any returned path has exactly Manhattan-many
steps and moves one grid cell at a time. -/
theorem aStarLoop_found_opt (f t : GridCoord) (free : GridCoord → Bool)
    (hfree : ∀ c, free c = true) :
    ∀ fuel (st : AStarState) (p : List GridCoord), AInv f t free st →
      PoppedRelax f t st → aStarLoop t free fuel st = .found p →
      p.length = manhattan f t + 1 ∧
      p.Chain' fun a b => manhattan a b = 1 := by
  intro fuel
  induction fuel with
  | zero =>
    intro st p _ _ h
    simp [aStarLoop] at h
  | succ n ih =>
    intro st p hInv hPR hloop
    simp only [aStarLoop] at hloop
    rcases hpq : st.pq with _ | ⟨item, rest⟩
    · rw [hpq] at hloop
      simp at hloop
    · rw [hpq] at hloop
      dsimp only at hloop
      by_cases hgoal : item.coord = t
      · rw [if_pos hgoal] at hloop
        rcases hrec : reconstructPath st.cameFrom (n + 1) item.coord with
          _ | p2
        · rw [hrec] at hloop
          simp at hloop
        · rw [hrec] at hloop
          dsimp only at hloop
          injection hloop with hloop
          subst hloop
          have hcs := pop_goal_cs f t free st item rest hpq hgoal hInv hPR
          have hcs2 : st.costSoFar item.coord = some (manhattan f t) := by
            rw [hgoal]
            exact hcs
          obtain ⟨s1, s2, s3, s4, s5⟩ := reconstruct_spec f t free st hInv
            (n + 1) item.coord (manhattan f t) p2 hcs2 hrec
          have hlow := chain_manhattan_le p2 s5 f item.coord s1 s2
          rw [hgoal] at hlow
          exact ⟨by omega, s5⟩
      · rw [if_neg hgoal] at hloop
        obtain ⟨v, hv, _⟩ := hInv.pq_cost item (by rw [hpq]; simp)
        have hgd : (st.costSoFar item.coord).getD 0 = v := by
          rw [hv]
          rfl
        rw [hgd] at hloop
        have hInv1 := popstep_AInv f t free st item rest hpq hInv
        have hInv2 := (foldl_relax_main f t free item.coord v pathDirections
          (fun d hd => hd) _ hInv1 hv).1
        have hPR2 := popstep_PoppedRelax f t free hfree st item rest v hpq hv
          hInv hPR
        exact ih _ p hInv2 hPR2 hloop

/-- Claim C2: whenever `getPath` returns a path, its first cell is the
start, its last cell is the goal, and every other cell satisfies the
freeness predicate (the goal is accepted even if occupied); it never returns
a partial path. -/
theorem C2_getPath_endpoints_and_freeness (fuel : Nat) (f t : GridCoord)
    (free : GridCoord → Bool) (p : List GridCoord)
    (h : getPath fuel f t free = .found p) :
    p ≠ [] ∧ p.head? = some f ∧ p.getLast? = some t ∧
    ∀ c ∈ p, c ≠ f → c ≠ t → free c = true := by
  obtain ⟨s1, s2, s3, s4⟩ := aStarLoop_found_spec f t free fuel (initState f)
    p (AInv_init f t free) h
  exact ⟨s3, s1, s2, s4⟩

/-- Claim C2 witness: a concrete search whose goal cell is itself occupied
still ends exactly at the goal. -/
theorem C2_getPath_endpoints_and_freeness_witness :
    getPath 6 ⟨0, 0⟩ ⟨2, 0⟩ (fun c => decide (c ≠ ⟨2, 0⟩)) =
      .found [⟨0, 0⟩, ⟨1, 0⟩, ⟨2, 0⟩] ∧
    ([(⟨0, 0⟩ : GridCoord), ⟨1, 0⟩, ⟨2, 0⟩].getLast? = some ⟨2, 0⟩) :=
  ⟨by decide,
   (C2_getPath_endpoints_and_freeness 6 ⟨0, 0⟩ ⟨2, 0⟩
     (fun c => decide (c ≠ ⟨2, 0⟩)) [⟨0, 0⟩, ⟨1, 0⟩, ⟨2, 0⟩]
     (by decide)).2.2.1⟩

/-- Two cells differ by exactly one in exactly one coordinate precisely when
their Manhattan distance is 1. -/
theorem manhattan_eq_one_iff (a b : GridCoord) :
    manhattan a b = 1 ↔
      (a.x = b.x ∧ (a.y - b.y).natAbs = 1) ∨
      (a.y = b.y ∧ (a.x - b.x).natAbs = 1) := by
  unfold manhattan
  omega

/-- Claim C3: on an obstacle-free grid, the path returned by `getPath`
between two distinct cells takes exactly Manhattan-distance many steps, and
every consecutive pair of path cells differs by exactly one in exactly one
coordinate, despite the corner penalty in the heuristic. -/
theorem C3_getPath_manhattan_optimal (fuel : Nat) (f t : GridCoord)
    (free : GridCoord → Bool) (p : List GridCoord)
    (hfree : ∀ c, free c = true) (_hne : f ≠ t)
    (h : getPath fuel f t free = .found p) :
    p.length - 1 = manhattan f t ∧
    p.Chain' fun a b =>
      (a.x = b.x ∧ (a.y - b.y).natAbs = 1) ∨
      (a.y = b.y ∧ (a.x - b.x).natAbs = 1) := by
  have hPR0 : PoppedRelax f t (initState f) := by
    intro i _ hmem _
    simp [initState] at hmem
  obtain ⟨l1, l2⟩ := aStarLoop_found_opt f t free hfree fuel (initState f) p
    (AInv_init f t free) hPR0 h
  constructor
  · omega
  · exact l2.imp fun a b hab => (manhattan_eq_one_iff a b).mp hab

/-- Claim C3 witness: a concrete obstacle-free search between distinct cells
takes exactly one step for adjacent cells. -/
theorem C3_getPath_manhattan_optimal_witness :
    getPath 3 ⟨0, 0⟩ ⟨1, 0⟩ (fun _ => true) = .found [⟨0, 0⟩, ⟨1, 0⟩] ∧
    ([(⟨0, 0⟩ : GridCoord), ⟨1, 0⟩].length - 1 = manhattan ⟨0, 0⟩ ⟨1, 0⟩) :=
  ⟨by decide,
   (C3_getPath_manhattan_optimal 3 ⟨0, 0⟩ ⟨1, 0⟩ (fun _ => true)
     [⟨0, 0⟩, ⟨1, 0⟩] (fun _ => rfl) (by decide) (by decide)).1⟩

/-! ## Edge routing (types/direction.ts, types/graph.ts: EdgeImpl.determinePath) -/

/-- `Direction.getOpposite` of types/direction.ts.  The source throws
"Unknown direction" after the nine-constant chain; that branch is modelled by
returning the input unchanged — it is unreachable at the one call site below,
where the argument is always a `determineDirection` result. -/
def Direction.getOpposite (d : Direction) : Direction :=
  if d = Direction.Up then Direction.Down
  else if d = Direction.Down then Direction.Up
  else if d = Direction.Left then Direction.Right
  else if d = Direction.Right then Direction.Left
  else if d = Direction.UpperRight then Direction.LowerLeft
  else if d = Direction.UpperLeft then Direction.LowerRight
  else if d = Direction.LowerRight then Direction.UpperLeft
  else if d = Direction.LowerLeft then Direction.UpperRight
  else if d = Direction.Middle then Direction.Middle
  else d

/-- The global `graphDirection` of types/common.ts: "LR" or "TD". -/
inductive GraphDir where
  | LR : GraphDir
  | TD : GraphDir
deriving DecidableEq

/-- `selfReferenceDirection` of types/direction.ts, with the global
`graphDirection` passed explicitly. -/
def selfReferenceDirection (gd : GraphDir) :
    Direction × Direction × Direction × Direction :=
  match gd with
  | .LR => (Direction.Right, Direction.Down, Direction.Down, Direction.Right)
  | .TD => (Direction.Down, Direction.Right, Direction.Right, Direction.Down)

/-- `determineStartAndEndDir` of types/direction.ts: the tuple is
(preferredDir, preferredOppositeDir, alternativeDir, alternativeOppositeDir). -/
def determineStartAndEndDir (gd : GraphDir) (fromCoord toCoord : GridCoord)
    (isSelfReference : Bool) : Direction × Direction × Direction × Direction :=
  if isSelfReference then selfReferenceDirection gd
  else
    let d := determineDirection fromCoord toCoord
    if d = Direction.LowerRight then
      match gd with
      | .LR => (Direction.Down, Direction.Left, Direction.Right, Direction.Up)
      | .TD => (Direction.Right, Direction.Up, Direction.Down, Direction.Left)
    else if d = Direction.UpperRight then
      match gd with
      | .LR => (Direction.Up, Direction.Left, Direction.Right, Direction.Down)
      | .TD => (Direction.Right, Direction.Down, Direction.Up, Direction.Left)
    else if d = Direction.LowerLeft then
      match gd with
      | .LR => (Direction.Down, Direction.Right, Direction.Left, Direction.Up)
      | .TD => (Direction.Left, Direction.Up, Direction.Down, Direction.Right)
    else if d = Direction.UpperLeft then
      match gd with
      | .LR => (Direction.Up, Direction.Right, Direction.Left, Direction.Down)
      | .TD => (Direction.Left, Direction.Down, Direction.Up, Direction.Right)
    else
      (d, d.getOpposite, d, d.getOpposite)

/-- The fields of `EdgeImpl` assigned by `determinePath`: `startDir` and
`endDir` start out undefined (`none`), `path` starts out `[]`. -/
structure EdgePathResult where
  startDir : Option Direction
  endDir : Option Direction
  path : List GridCoord
deriving DecidableEq

/-- `EdgeImpl.determinePath` of types/graph.ts (lines 146-216), for an edge
whose endpoints both have grid coordinates.  A thrown "No path found" from
`getPath` is the `.noPath` result, landing in the corresponding catch block;
`.outOfFuel` (the search still running) yields `none`.  In the first catch
block the source assigns `this.path = alternativePath` while
`alternativePath` still holds its initial value `[]` — the alternative
search has not been attempted at that point. -/
def determinePath (gd : GraphDir) (fromCoord toCoord : GridCoord)
    (isSelfReference : Bool) (free : GridCoord → Bool) (fuel : Nat) :
    Option EdgePathResult :=
  let dirs := determineStartAndEndDir gd fromCoord toCoord isSelfReference
  let preferredDir := dirs.1
  let preferredOppositeDir := dirs.2.1
  let alternativeDir := dirs.2.2.1
  let alternativeOppositeDir := dirs.2.2.2
  match getPath fuel (fromCoord.direction preferredDir)
      (toCoord.direction preferredOppositeDir) free with
  | .outOfFuel => none
  | .noPath => some ⟨some alternativeDir, some alternativeOppositeDir, []⟩
  | .found p0 =>
    let preferredPath := mergePath p0
    match getPath fuel (fromCoord.direction alternativeDir)
        (toCoord.direction alternativeOppositeDir) free with
    | .outOfFuel => none
    | .noPath => some ⟨some preferredDir, some preferredOppositeDir, preferredPath⟩
    | .found q0 =>
      let alternativePath := mergePath q0
      if preferredPath.length ≤ alternativePath.length then
        some ⟨some preferredDir, some preferredOppositeDir, preferredPath⟩
      else
        some ⟨some alternativeDir, some alternativeOppositeDir, alternativePath⟩

/-- Obstacle set for the C1 counterexample: the free grid cells. -/
def c1Free : GridCoord → Bool := fun c =>
  [(⟨2, 1⟩ : GridCoord), ⟨3, 1⟩, ⟨4, 1⟩, ⟨5, 1⟩, ⟨5, 2⟩, ⟨5, 3⟩].contains c

/-- Claim C1 counterexample: with graph direction LR, endpoints anchored at
(0,0) and (4,4) and the free cells of `c1Free`, the preferred candidate
(start Down, end Left) finds no path while the alternative candidate
(start Right, end Up) finds one that simplifies to three cells — yet
`determinePath` returns the empty path with the alternative directions: the
alternative search is never attempted after a preferred-path failure, its
path is not "used unconditionally", and no failure propagates. -/
theorem C1_determinePath_preferred_failure_counterexample :
    determineStartAndEndDir GraphDir.LR ⟨0, 0⟩ ⟨4, 4⟩ false =
      (Direction.Down, Direction.Left, Direction.Right, Direction.Up) ∧
    getPath 30 (GridCoord.direction ⟨0, 0⟩ Direction.Down)
      (GridCoord.direction ⟨4, 4⟩ Direction.Left) c1Free = .noPath ∧
    getPath 30 (GridCoord.direction ⟨0, 0⟩ Direction.Right)
      (GridCoord.direction ⟨4, 4⟩ Direction.Up) c1Free =
      .found [⟨2, 1⟩, ⟨3, 1⟩, ⟨4, 1⟩, ⟨5, 1⟩, ⟨5, 2⟩, ⟨5, 3⟩, ⟨5, 4⟩] ∧
    mergePath [(⟨2, 1⟩ : GridCoord), ⟨3, 1⟩, ⟨4, 1⟩, ⟨5, 1⟩, ⟨5, 2⟩, ⟨5, 3⟩,
      ⟨5, 4⟩] = [⟨2, 1⟩, ⟨5, 1⟩, ⟨5, 4⟩] ∧
    determinePath GraphDir.LR ⟨0, 0⟩ ⟨4, 4⟩ false c1Free 30 =
      some ⟨some Direction.Right, some Direction.Up, []⟩ := by
  decide

/-- Claim C1 (amended): when both candidate direction pairs of an edge yield
a path, the kept path is the shorter simplified one with ties going to the
preferred candidate; when only the alternative candidate fails, the
preferred path is kept; but when the preferred candidate fails, the
alternative search is never attempted: the edge's directions are set to the
alternative pair, its path to the empty list, and no failure propagates. -/
theorem C1_determinePath_selection (gd : GraphDir) (fc tc : GridCoord)
    (selfRef : Bool) (free : GridCoord → Bool) (fuel : Nat)
    (pd pod ad aod : Direction)
    (hdirs : determineStartAndEndDir gd fc tc selfRef = (pd, pod, ad, aod)) :
    (getPath fuel (fc.direction pd) (tc.direction pod) free = .noPath →
      determinePath gd fc tc selfRef free fuel =
        some ⟨some ad, some aod, []⟩) ∧
    (∀ p, getPath fuel (fc.direction pd) (tc.direction pod) free = .found p →
      getPath fuel (fc.direction ad) (tc.direction aod) free = .noPath →
      determinePath gd fc tc selfRef free fuel =
        some ⟨some pd, some pod, mergePath p⟩) ∧
    (∀ p q, getPath fuel (fc.direction pd) (tc.direction pod) free = .found p →
      getPath fuel (fc.direction ad) (tc.direction aod) free = .found q →
      determinePath gd fc tc selfRef free fuel =
        if (mergePath p).length ≤ (mergePath q).length then
          some ⟨some pd, some pod, mergePath p⟩
        else
          some ⟨some ad, some aod, mergePath q⟩) := by
  refine ⟨?_, ?_, ?_⟩
  · intro hpre
    simp only [determinePath, hdirs]
    rw [hpre]
  · intro p hpre halt
    simp only [determinePath, hdirs]
    rw [hpre]
    dsimp only
    rw [halt]
  · intro p q hpre halt
    simp only [determinePath, hdirs]
    rw [hpre]
    dsimp only
    rw [halt]

/-- Claim C1 witness: a concrete both-candidates-succeed edge (LR, anchors
(0,0) and (0,4), empty grid) where the selection rule yields the preferred
directions and the simplified preferred path. -/
theorem C1_determinePath_selection_witness :
    determineStartAndEndDir GraphDir.LR ⟨0, 0⟩ ⟨0, 4⟩ false =
      (Direction.Down, Direction.Up, Direction.Down, Direction.Up) ∧
    determinePath GraphDir.LR ⟨0, 0⟩ ⟨0, 4⟩ false (fun _ => true) 5 =
      some ⟨some Direction.Down, some Direction.Up, [⟨1, 2⟩, ⟨1, 4⟩]⟩ := by
  constructor
  · decide
  · have h := (C1_determinePath_selection GraphDir.LR ⟨0, 0⟩ ⟨0, 4⟩ false
      (fun _ => true) 5 Direction.Down Direction.Up Direction.Down Direction.Up
      (by decide)).2.2 [⟨1, 2⟩, ⟨1, 3⟩, ⟨1, 4⟩] [⟨1, 2⟩, ⟨1, 3⟩, ⟨1, 4⟩]
      (by decide) (by decide)
    rw [h]
    decide

/-! ## Layout (types/graph.ts: GraphImpl.createMapping and helpers)

Node names are unique (parseGraph only creates a node after `getNode`
returns null), so name identity coincides with node index and only the
name's length enters layout; a graph is therefore modelled as the list of
its nodes' name lengths plus its edge list.  The JS `Map` keyed by the
string `x,y` is a function on `GridCoord` (the key is injective on integer
coordinates), and the `highestPositionPerLevel` array is a total function
defaulting to 0 (the source allocates 100 slots; graphs nested deeply
enough to pass level 99 crash placement in the source and are outside the
modelled scope).  The two ghost fields `cwTrace` and `rhTrace` record every
write to `columnWidth` and `rowHeight` as (index, previous value, written
value); they are write-only bookkeeping and influence nothing. -/

def BOX_BORDER_PADDING : Nat := 1

def PADDING_BETWEEN_X : Nat := 5

def PADDING_BETWEEN_Y : Nat := 5

/-- An edge of the parsed graph: endpoint node indices and the label text. -/
structure LEdge where
  fromIdx : Nat
  toIdx : Nat
  text : String
deriving DecidableEq

/-- A parsed graph: the name length of each node (by index) and the edges. -/
structure LGraph where
  nameLens : List Nat
  edges : List LEdge
deriving DecidableEq

/-- The mutable layout state of `GraphImpl` during `createMapping`. -/
structure LayoutState where
  grid : GridCoord → Option Nat
  columnWidth : Int → Option Nat
  rowHeight : Int → Option Nat
  gridCoord : Nat → Option GridCoord
  highestPositionPerLevel : Int → Nat
  cwTrace : List (Int × Option Nat × Nat)
  rhTrace : List (Int × Option Nat × Nat)

/-- The state of a fresh `GraphImpl`: empty maps, all levels at 0. -/
def emptyLayout : LayoutState :=
  ⟨fun _ => none, fun _ => none, fun _ => none, fun _ => none, fun _ => 0, [], []⟩

/-- `this.columnWidth.set(i, v)`, recording the write in the ghost trace. -/
def setCW (st : LayoutState) (i : Int) (v : Nat) : LayoutState :=
  { st with columnWidth := fun j => if j = i then some v else st.columnWidth j, cwTrace := st.cwTrace ++ [(i, st.columnWidth i, v)] }

/-- `this.rowHeight.set(i, v)`, recording the write in the ghost trace. -/
def setRH (st : LayoutState) (i : Int) (v : Nat) : LayoutState :=
  { st with rowHeight := fun j => if j = i then some v else st.rowHeight j, rhTrace := st.rhTrace ++ [(i, st.rowHeight i, v)] }

/-- `GraphImpl.setColumnWidth` for a node with name length `nameLen` placed
at `c`: max-merge the three column widths and three row heights of the
node's block, then unconditionally set the padding column and row before
the block. -/
def setColumnWidth (nameLen : Nat) (c : GridCoord) (st : LayoutState) :
    LayoutState :=
  let st := setCW st c.x (max ((st.columnWidth c.x).getD 0) 1)
  let st := setCW st (c.x + 1)
    (max ((st.columnWidth (c.x + 1)).getD 0) (2 * BOX_BORDER_PADDING + nameLen))
  let st := setCW st (c.x + 2) (max ((st.columnWidth (c.x + 2)).getD 0) 1)
  let st := setRH st c.y (max ((st.rowHeight c.y).getD 0) 1)
  let st := setRH st (c.y + 1)
    (max ((st.rowHeight (c.y + 1)).getD 0) (1 + 2 * BOX_BORDER_PADDING))
  let st := setRH st (c.y + 2) (max ((st.rowHeight (c.y + 2)).getD 0) 1)
  let st := if 0 < c.x then setCW st (c.x - 1) PADDING_BETWEEN_X else st
  if 0 < c.y then setRH st (c.y - 1) PADDING_BETWEEN_Y else st

/-- One cell of `GraphImpl.increaseGridSizeForPath`: give the cell's column
and row a default size, only where the map has no entry yet. -/
def igsStep (st : LayoutState) (c : GridCoord) : LayoutState :=
  let st2 := if (st.columnWidth c.x).isNone then setCW st c.x (PADDING_BETWEEN_X / 2) else st
  if (st2.rowHeight c.y).isNone then setRH st2 c.y (PADDING_BETWEEN_Y / 2) else st2

/-- `GraphImpl.increaseGridSizeForPath` over all path cells. -/
def increaseGridSizeForPath (path : List GridCoord) (st : LayoutState) :
    LayoutState :=
  path.foldl igsStep st

/-- `GraphImpl.calculateLineWidth`: total column width over the line's cells. -/
def calculateLineWidth (cw : Int → Option Nat) (line : List GridCoord) : Nat :=
  line.foldl (fun acc c => acc + (cw c.x).getD 0) 0

/-- The scan loop of `EdgeImpl.determineLabelLine`: walk consecutive path
segments, stop at the first one at least as wide as the label, otherwise
remember the widest one seen. -/
def pickLabelLine (cw : Int → Option Nat) (lenLabel : Nat) :
    List (GridCoord × GridCoord) → Nat → GridCoord × GridCoord →
    GridCoord × GridCoord
  | [], _, best => best
  | (a, b) :: rest, bestSize, best =>
    let w := calculateLineWidth cw [a, b]
    if lenLabel ≤ w then (a, b)
    else if bestSize < w then pickLabelLine cw lenLabel rest w (a, b)
    else pickLabelLine cw lenLabel rest bestSize best

/-- `EdgeImpl.determineLabelLine`: widen the column under the middle of the
chosen segment to fit the label.  With a non-empty label and a path of
fewer than two cells the source dereferences `undefined` (`largestLine[0].x`
or `largestLine[1].x`) and throws, modelled as `none`. -/
def determineLabelLine (lenLabel : Nat) (path : List GridCoord)
    (st : LayoutState) : Option LayoutState :=
  if lenLabel = 0 then some st
  else
    match path with
    | a :: b :: _ =>
      let best := pickLabelLine st.columnWidth lenLabel (path.zip path.tail) 0 (a, b)
      let maxX := max best.1.x best.2.x
      let minX := min best.1.x best.2.x
      let middleX := minX + (maxX - minX) / 2
      some (setCW st middleX (max ((st.columnWidth middleX).getD 0) (lenLabel + 2)))
    | _ => none

/-- `GraphImpl.isFreeInGrid`: negative coordinates are never free; otherwise
free means unoccupied. -/
def isFreeInGrid (st : LayoutState) (c : GridCoord) : Bool :=
  if c.x < 0 ∨ c.y < 0 then false else (st.grid c).isNone

/-- Membership of a cell in the 3×3 block anchored at `a`. -/
def inBlock (a p : GridCoord) : Prop :=
  a.x ≤ p.x ∧ p.x ≤ a.x + 2 ∧ a.y ≤ p.y ∧ p.y ≤ a.y + 2

instance (a p : GridCoord) : Decidable (inBlock a p) :=
  inferInstanceAs (Decidable (_ ∧ _))

/-- `GraphImpl.reserveSpotInGrid`: if the anchor cell is taken, retry 4
further down (LR) or right (TD); otherwise occupy the 3×3 block at the
anchor and assign the node's grid coordinate.  The source recursion is
bounded here by `fuel` (`none` = still retrying). -/
def reserveSpotInGrid (gd : GraphDir) (st : LayoutState) (n : Nat)
    (requestedCoord : GridCoord) : Nat → Option (LayoutState × GridCoord)
  | 0 => none
  | fuel + 1 =>
    if (st.grid requestedCoord).isSome then
      match gd with
      | .LR => reserveSpotInGrid gd st n ⟨requestedCoord.x, requestedCoord.y + 4⟩ fuel
      | .TD => reserveSpotInGrid gd st n ⟨requestedCoord.x + 4, requestedCoord.y⟩ fuel
    else
      some ({ st with grid := fun c => if inBlock requestedCoord c then some n else st.grid c, gridCoord := fun i => if i = n then some requestedCoord else st.gridCoord i }, requestedCoord)

/-- `GraphImpl.getChildren`: targets of the edges leaving node `i`, in edge
order (name equality is index equality for parsed graphs). -/
def getChildren (g : LGraph) (i : Nat) : List Nat :=
  (g.edges.filter fun e => e.fromIdx = i).map (·.toIdx)

/-- One step of the root scan of `createMapping`: state is (namesFound,
rootNodes); a node is a root when its name has not been seen when its turn
comes, and it marks itself and all its children as seen. -/
def rootScanStep (g : LGraph) (acc : List Nat × List Nat) (i : Nat) :
    List Nat × List Nat :=
  let roots := if i ∈ acc.1 then acc.2 else acc.2 ++ [i]
  ((i :: acc.1) ++ getChildren g i, roots)

/-- The root nodes of the graph, as scanned by `createMapping`. -/
def rootNodes (g : LGraph) : List Nat :=
  ((List.range g.nameLens.length).foldl (rootScanStep g) ([], [])).2

/-- One iteration of the root-placement loop of `createMapping`: the root is
reserved a spot at level 0, and level 0's next position advances by 4. -/
def placeRootStep (gd : GraphDir) (fuel : Nat) (st : LayoutState) (i : Nat) :
    Option LayoutState :=
  let req : GridCoord := match gd with
    | .LR => ⟨0, (st.highestPositionPerLevel 0 : Int)⟩
    | .TD => ⟨(st.highestPositionPerLevel 0 : Int), 0⟩
  match reserveSpotInGrid gd st i req fuel with
  | none => none
  | some (st2, _) =>
    some { st2 with highestPositionPerLevel := fun l => if l = 0 then st2.highestPositionPerLevel 0 + 4 else st2.highestPositionPerLevel l }

/-- The root-placement loop of `createMapping`. -/
def placeRoots (gd : GraphDir) (fuel : Nat) (roots : List Nat)
    (st : LayoutState) : Option LayoutState :=
  roots.foldlM (placeRootStep gd fuel) st

/-- Placement of one child at the parent's child level: children are placed
at the parent's level plus 4.  The source reads `highestPosition` once per
parent and requests that same spot `(childLevel, hp)` for every child
(collisions are resolved by `reserveSpotInGrid`'s retry), and resets the
level's next position to `hp + 4` after each placement. -/
def placeChildStep (gd : GraphDir) (fuel : Nat) (childLevel : Int) (hp : Nat)
    (st : LayoutState) (child : Nat) : Option LayoutState :=
  match st.gridCoord child with
  | some _ => some st
  | none =>
    let req : GridCoord := match gd with
      | .LR => ⟨childLevel, (hp : Int)⟩
      | .TD => ⟨(hp : Int), childLevel⟩
    match reserveSpotInGrid gd st child req fuel with
    | none => none
    | some (st2, _) =>
      some { st2 with highestPositionPerLevel := fun l => if l = childLevel then hp + 4 else st2.highestPositionPerLevel l }

/-- The full child-placement step of `createMapping` for one parent node:
unplaced parents are skipped, a placed parent places each of its not yet
placed children via `placeChildStep`. -/
def placeChildrenOf (gd : GraphDir) (fuel : Nat) (g : LGraph)
    (st : LayoutState) (i : Nat) : Option LayoutState :=
  match st.gridCoord i with
  | none => some st
  | some c =>
    let childLevel : Int := match gd with | .LR => c.x + 4 | .TD => c.y + 4
    (getChildren g i).foldlM
      (placeChildStep gd fuel childLevel (st.highestPositionPerLevel childLevel)) st

/-- The node-sizing loop of `createMapping`: `setColumnWidth` for every
node, skipping unplaced ones. -/
def sizeStep (g : LGraph) (st : LayoutState) (i : Nat) : LayoutState :=
  match st.gridCoord i with
  | none => st
  | some c => setColumnWidth (g.nameLens.getD i 0) c st

/-- The node-sizing loop over all node indices. -/
def sizePhase (g : LGraph) (st : LayoutState) : LayoutState :=
  (List.range g.nameLens.length).foldl (sizeStep g) st

/-- One iteration of the edge loop of `createMapping`: route the edge
(`EdgeImpl.determinePath`; with an unplaced endpoint it returns at once and
the edge's path stays empty), then `increaseGridSizeForPath` and
`determineLabelLine` on the resulting path. -/
def edgePhaseStep (gd : GraphDir) (fuel : Nat) (st : LayoutState)
    (e : LEdge) : Option LayoutState :=
  match st.gridCoord e.fromIdx, st.gridCoord e.toIdx with
  | some fc, some tc =>
    match determinePath gd fc tc (decide (e.fromIdx = e.toIdx))
        (isFreeInGrid st) fuel with
    | none => none
    | some r =>
      determineLabelLine e.text.length r.path (increaseGridSizeForPath r.path st)
  | _, _ => determineLabelLine e.text.length [] (increaseGridSizeForPath [] st)

/-- `GraphImpl.createMapping` up to the end of the edge loop: root scan and
placement, child placement, node sizing, edge routing with grid-size and
label-line updates.  The remaining statements of the source method only
read `columnWidth`/`rowHeight` and write the nodes' drawing coordinates and
drawings (`gridToDrawingCoord`, `setDrawing`,
`setDrawingSizeToGridConstraints`); they modify none of the state verified
here and are omitted. -/
def createMapping (gd : GraphDir) (g : LGraph) (fuel : Nat) :
    Option LayoutState := do
  let st1 ← placeRoots gd fuel (rootNodes g) emptyLayout
  let st2 ← (List.range g.nameLens.length).foldlM (placeChildrenOf gd fuel g) st1
  g.edges.foldlM (edgePhaseStep gd fuel) (sizePhase g st2)

/-- 3×3 blocks anchored at distinct 4-aligned coordinates are disjoint. -/
theorem block_disjoint (a b : GridCoord) (hax : a.x % 4 = 0)
    (hay : a.y % 4 = 0) (hbx : b.x % 4 = 0) (hby : b.y % 4 = 0)
    (hne : a ≠ b) (p : GridCoord) : inBlock a p → inBlock b p → False := by
  intro h1 h2
  have hcomp : ¬(a.x = b.x ∧ a.y = b.y) := by
    rintro ⟨u, v⟩
    exact hne (by cases a; cases b; simp_all)
  unfold inBlock at h1 h2
  omega

/-- The placement invariant of `createMapping`: every assigned anchor is
4-aligned, every placed node's 3×3 block is registered to it in the grid,
every occupied cell lies in its occupant's block, and every level position
is a multiple of 4. -/
structure PlaceInv (st : LayoutState) : Prop where
  aligned : ∀ i c, st.gridCoord i = some c → c.x % 4 = 0 ∧ c.y % 4 = 0
  covers : ∀ i c, st.gridCoord i = some c → ∀ p, inBlock c p → st.grid p = some i
  owner : ∀ p j, st.grid p = some j → ∃ c, st.gridCoord j = some c ∧ inBlock c p
  levels : ∀ l, st.highestPositionPerLevel l % 4 = 0

/-- The empty layout satisfies the placement invariant. -/
theorem PlaceInv_empty : PlaceInv emptyLayout := by
  constructor
  · intro i c hc
    simp [emptyLayout] at hc
  · intro i c hc
    simp [emptyLayout] at hc
  · intro p j hj
    simp [emptyLayout] at hj
  · intro l
    simp [emptyLayout]

/-- What one successful `reserveSpotInGrid` call does: starting from an
invariant state with a 4-aligned request for an unplaced node, it preserves
the invariant, assigns the node a 4-aligned anchor, and changes no other
node's anchor and none of the size maps, traces, or level positions. -/
theorem reserveSpotInGrid_spec (gd : GraphDir) (n : Nat) (fuel : Nat) :
    ∀ (st : LayoutState) (req : GridCoord), PlaceInv st →
      req.x % 4 = 0 → req.y % 4 = 0 → st.gridCoord n = none →
      ∀ st2 c, reserveSpotInGrid gd st n req fuel = some (st2, c) →
      PlaceInv st2 ∧ st2.gridCoord n = some c ∧ c.x % 4 = 0 ∧ c.y % 4 = 0 ∧
      (∀ j, j ≠ n → st2.gridCoord j = st.gridCoord j) ∧
      st2.columnWidth = st.columnWidth ∧ st2.rowHeight = st.rowHeight ∧
      st2.cwTrace = st.cwTrace ∧ st2.rhTrace = st.rhTrace ∧
      st2.highestPositionPerLevel = st.highestPositionPerLevel := by
  induction fuel with
  | zero =>
    intro st req _ _ _ _ st2 c h
    simp [reserveSpotInGrid] at h
  | succ fuel ih =>
    intro st req hInv hrx hry hn st2 c h
    rw [reserveSpotInGrid.eq_def] at h
    dsimp only at h
    by_cases hocc : (st.grid req).isSome
    · rw [if_pos hocc] at h
      cases gd with
      | LR => exact ih st ⟨req.x, req.y + 4⟩ hInv hrx (by show (req.y + 4) % 4 = 0; omega) hn st2 c h
      | TD => exact ih st ⟨req.x + 4, req.y⟩ hInv (by show (req.x + 4) % 4 = 0; omega) hry hn st2 c h
    · rw [if_neg hocc] at h
      have hfree : st.grid req = none := Option.not_isSome_iff_eq_none.mp hocc
      injection h with h
      rw [Prod.mk.injEq] at h
      obtain ⟨h1, h2⟩ := h
      subst h2
      subst h1
      refine ⟨?_, ?_, hrx, hry, ?_, rfl, rfl, rfl, rfl, rfl⟩
      · constructor
        · intro i c' hic
          dsimp only at hic
          by_cases hin : i = n
          · rw [if_pos hin] at hic
            injection hic with hic
            subst hic
            exact ⟨hrx, hry⟩
          · rw [if_neg hin] at hic
            exact hInv.aligned i c' hic
        · intro i c' hic p hp
          dsimp only at hic ⊢
          by_cases hin : i = n
          · rw [if_pos hin] at hic
            injection hic with hic
            subst hic
            rw [if_pos]
            · rw [hin]
            · exact hp
          · rw [if_neg hin] at hic
            have hcov := hInv.covers i c' hic p hp
            have hne : c' ≠ req := by
              intro heq
              have : st.grid req = some i := by
                apply hInv.covers i c' hic
                rw [heq]
                exact ⟨le_refl _, by omega, le_refl _, by omega⟩
              rw [this] at hfree
              exact Option.noConfusion hfree
            by_cases hpb : inBlock req p
            · exact absurd hpb fun hpb =>
                block_disjoint c' req (hInv.aligned i c' hic).1
                  (hInv.aligned i c' hic).2 hrx hry hne p hp hpb
            · rw [if_neg hpb]
              exact hcov
        · intro p j hgj
          dsimp only at hgj ⊢
          by_cases hpb : inBlock req p
          · rw [if_pos hpb] at hgj
            injection hgj with hgj
            subst hgj
            exact ⟨req, by rw [if_pos rfl], hpb⟩
          · rw [if_neg hpb] at hgj
            obtain ⟨c', hc', hb⟩ := hInv.owner p j hgj
            have hjn : j ≠ n := by
              intro hjn
              rw [hjn, hn] at hc'
              exact Option.noConfusion hc'
            exact ⟨c', by rw [if_neg hjn]; exact hc', hb⟩
        · exact hInv.levels
      · dsimp only
        rw [if_pos rfl]
      · intro j hj
        dsimp only
        rw [if_neg hj]

/-- The size maps and their ghost traces of two states agree. -/
def SameMaps (st2 st : LayoutState) : Prop :=
  st2.columnWidth = st.columnWidth ∧ st2.rowHeight = st.rowHeight ∧
  st2.cwTrace = st.cwTrace ∧ st2.rhTrace = st.rhTrace

theorem SameMaps_refl (st : LayoutState) : SameMaps st st := ⟨rfl, rfl, rfl, rfl⟩

theorem SameMaps_trans {a b c : LayoutState} (h1 : SameMaps a b)
    (h2 : SameMaps b c) : SameMaps a c := by
  obtain ⟨u1, u2, u3, u4⟩ := h1
  obtain ⟨v1, v2, v3, v4⟩ := h2
  exact ⟨u1.trans v1, u2.trans v2, u3.trans v3, u4.trans v4⟩

/-- The root scan keeps its root list duplicate-free, with every root
recorded among the names found. -/
theorem rootScan_fold_nodup (g : LGraph) :
    ∀ (l : List Nat) (found roots : List Nat), roots.Nodup →
      (∀ r ∈ roots, r ∈ found) →
      (l.foldl (rootScanStep g) (found, roots)).2.Nodup ∧
      ∀ r ∈ (l.foldl (rootScanStep g) (found, roots)).2,
        r ∈ (l.foldl (rootScanStep g) (found, roots)).1 := by
  intro l
  induction l with
  | nil =>
    intro found roots h1 h2
    exact ⟨h1, h2⟩
  | cons i l ih =>
    intro found roots h1 h2
    simp only [List.foldl_cons, rootScanStep]
    by_cases hi : i ∈ found
    · rw [if_pos hi]
      apply ih
      · exact h1
      · intro r hr
        simp only [List.mem_append, List.mem_cons]
        exact Or.inl (Or.inr (h2 r hr))
    · rw [if_neg hi]
      apply ih
      · simp only [List.nodup_append, List.nodup_cons]
        refine ⟨h1, by simp, ?_⟩
        intro r hr hri
        simp only [List.mem_singleton] at hri
        exact hi (hri ▸ h2 r hr)
      · intro r hr
        simp only [List.mem_append, List.mem_cons, List.not_mem_nil,
          or_false] at hr ⊢
        rcases hr with hr | hr
        · exact Or.inl (Or.inr (h2 r hr))
        · exact Or.inl (Or.inl hr)

/-- The scanned root list has no duplicates. -/
theorem rootNodes_nodup (g : LGraph) : (rootNodes g).Nodup := by
  unfold rootNodes
  exact (rootScan_fold_nodup g (List.range g.nameLens.length) [] []
    (by simp) (by simp)).1

/-- One root placement preserves the invariant and the size maps, and
assigns no other node's anchor. -/
theorem placeRootStep_spec (gd : GraphDir) (fuel : Nat) (st : LayoutState)
    (i : Nat) (hInv : PlaceInv st) (hni : st.gridCoord i = none) :
    ∀ st3, placeRootStep gd fuel st i = some st3 →
    PlaceInv st3 ∧ (∀ j, j ≠ i → st3.gridCoord j = st.gridCoord j) ∧
    SameMaps st3 st := by
  intro st3 hstep
  rw [placeRootStep.eq_def] at hstep
  cases gd with
  | LR =>
    dsimp only at hstep
    rcases hres : reserveSpotInGrid GraphDir.LR st i
        ⟨0, (st.highestPositionPerLevel 0 : Int)⟩ fuel with _ | p
    · rw [hres] at hstep
      exact Option.noConfusion hstep
    · rw [hres] at hstep
      dsimp only at hstep
      injection hstep with hstep
      obtain ⟨hInv4, hplaced, hcx, hcy, hother, hcw, hrh, hct, hrt, hlev⟩ :=
        reserveSpotInGrid_spec GraphDir.LR i fuel st
          ⟨0, (st.highestPositionPerLevel 0 : Int)⟩ hInv (by show (0:Int) % 4 = 0; decide)
          (by have := hInv.levels 0; show ((st.highestPositionPerLevel 0 : Int)) % 4 = 0; omega)
          hni p.1 p.2 hres
      subst hstep
      refine ⟨?_, ?_, hcw, hrh, hct, hrt⟩
      · constructor
        · exact hInv4.aligned
        · exact hInv4.covers
        · exact hInv4.owner
        · intro l
          dsimp only
          by_cases hl : l = 0
          · rw [if_pos hl]
            have := hInv.levels 0
            rw [hlev]
            omega
          · rw [if_neg hl, hlev]
            exact hInv.levels l
      · intro j hj
        exact hother j hj
  | TD =>
    dsimp only at hstep
    rcases hres : reserveSpotInGrid GraphDir.TD st i
        ⟨(st.highestPositionPerLevel 0 : Int), 0⟩ fuel with _ | p
    · rw [hres] at hstep
      exact Option.noConfusion hstep
    · rw [hres] at hstep
      dsimp only at hstep
      injection hstep with hstep
      obtain ⟨hInv4, hplaced, hcx, hcy, hother, hcw, hrh, hct, hrt, hlev⟩ :=
        reserveSpotInGrid_spec GraphDir.TD i fuel st
          ⟨(st.highestPositionPerLevel 0 : Int), 0⟩ hInv
          (by have := hInv.levels 0; show ((st.highestPositionPerLevel 0 : Int)) % 4 = 0; omega)
          (by show (0:Int) % 4 = 0; decide) hni p.1 p.2 hres
      subst hstep
      refine ⟨?_, ?_, hcw, hrh, hct, hrt⟩
      · constructor
        · exact hInv4.aligned
        · exact hInv4.covers
        · exact hInv4.owner
        · intro l
          dsimp only
          by_cases hl : l = 0
          · rw [if_pos hl]
            have := hInv.levels 0
            rw [hlev]
            omega
          · rw [if_neg hl, hlev]
            exact hInv.levels l
      · intro j hj
        exact hother j hj

/-- The root-placement loop preserves the invariant and the size maps. -/
theorem placeRoots_spec (gd : GraphDir) (fuel : Nat) :
    ∀ (roots : List Nat) (st : LayoutState), PlaceInv st → roots.Nodup →
      (∀ j c, st.gridCoord j = some c → j ∉ roots) →
      ∀ st2, placeRoots gd fuel roots st = some st2 →
      PlaceInv st2 ∧ SameMaps st2 st := by
  intro roots
  induction roots with
  | nil =>
    intro st hInv _ _ st2 h
    simp only [placeRoots, List.foldlM_nil] at h
    injection h with h
    subst h
    exact ⟨hInv, SameMaps_refl st⟩
  | cons i l ih =>
    intro st hInv hnd hdom st2 h
    simp only [placeRoots, List.foldlM_cons] at h
    rcases hstep : placeRootStep gd fuel st i with _ | st3
    · rw [hstep] at h
      exact Option.noConfusion h
    · rw [hstep] at h
      simp only [Option.bind_eq_bind, Option.some_bind] at h
      have hni : st.gridCoord i = none := by
        cases hgi : st.gridCoord i with
        | none => rfl
        | some c => exact absurd (List.mem_cons_self i l) (hdom i c hgi)
      obtain ⟨hInv3, hother, hmaps⟩ := placeRootStep_spec gd fuel st i hInv hni st3 hstep
      have hdom3 : ∀ j c, st3.gridCoord j = some c → j ∉ l := by
        intro j c hjc
        by_cases hji : j = i
        · subst hji
          exact (List.nodup_cons.mp hnd).1
        · rw [hother j hji] at hjc
          intro hjl
          exact hdom j c hjc (List.mem_cons_of_mem i hjl)
      obtain ⟨hInv2, hmaps2⟩ := ih st3 hInv3 (List.nodup_cons.mp hnd).2 hdom3 st2
        (by simpa [placeRoots] using h)
      exact ⟨hInv2, SameMaps_trans hmaps2 hmaps⟩

/-- One child placement preserves the invariant and size maps when the
child level and requested position are 4-aligned. -/
theorem placeChildStep_spec (gd : GraphDir) (fuel : Nat) (childLevel : Int)
    (hp : Nat) (hcl : childLevel % 4 = 0) (hhp : hp % 4 = 0)
    (st : LayoutState) (child : Nat) (hInv : PlaceInv st) :
    ∀ st3, placeChildStep gd fuel childLevel hp st child = some st3 →
    PlaceInv st3 ∧ SameMaps st3 st := by
  intro st3 hstep
  rw [placeChildStep.eq_def] at hstep
  rcases hgc : st.gridCoord child with _ | c0
  · rw [hgc] at hstep
    dsimp only at hstep
    cases gd with
    | LR =>
      rcases hres : reserveSpotInGrid GraphDir.LR st child
          ⟨childLevel, (hp : Int)⟩ fuel with _ | p
      · rw [hres] at hstep
        exact Option.noConfusion hstep
      · rw [hres] at hstep
        dsimp only at hstep
        injection hstep with hstep
        obtain ⟨hInv4, hplaced, hcx, hcy, hother, hcw, hrh, hct, hrt, hlev⟩ :=
          reserveSpotInGrid_spec GraphDir.LR child fuel st
            ⟨childLevel, (hp : Int)⟩ hInv hcl
            (by show ((hp : Nat) : Int) % 4 = 0; omega) hgc p.1 p.2 hres
        subst hstep
        refine ⟨?_, hcw, hrh, hct, hrt⟩
        constructor
        · exact hInv4.aligned
        · exact hInv4.covers
        · exact hInv4.owner
        · intro l
          dsimp only
          by_cases hl : l = childLevel
          · rw [if_pos hl]
            omega
          · rw [if_neg hl, hlev]
            exact hInv.levels l
    | TD =>
      rcases hres : reserveSpotInGrid GraphDir.TD st child
          ⟨(hp : Int), childLevel⟩ fuel with _ | p
      · rw [hres] at hstep
        exact Option.noConfusion hstep
      · rw [hres] at hstep
        dsimp only at hstep
        injection hstep with hstep
        obtain ⟨hInv4, hplaced, hcx, hcy, hother, hcw, hrh, hct, hrt, hlev⟩ :=
          reserveSpotInGrid_spec GraphDir.TD child fuel st
            ⟨(hp : Int), childLevel⟩ hInv
            (by show ((hp : Nat) : Int) % 4 = 0; omega) hcl hgc p.1 p.2 hres
        subst hstep
        refine ⟨?_, hcw, hrh, hct, hrt⟩
        constructor
        · exact hInv4.aligned
        · exact hInv4.covers
        · exact hInv4.owner
        · intro l
          dsimp only
          by_cases hl : l = childLevel
          · rw [if_pos hl]
            omega
          · rw [if_neg hl, hlev]
            exact hInv.levels l
  · rw [hgc] at hstep
    dsimp only at hstep
    injection hstep with hstep
    subst hstep
    exact ⟨hInv, SameMaps_refl st⟩

/-- The child-placement fold over a parent's children preserves the
invariant and size maps. -/
theorem placeChildren_fold (gd : GraphDir) (fuel : Nat) (childLevel : Int)
    (hp : Nat) (hcl : childLevel % 4 = 0) (hhp : hp % 4 = 0) :
    ∀ (children : List Nat) (st : LayoutState), PlaceInv st →
      ∀ st2, children.foldlM (placeChildStep gd fuel childLevel hp) st = some st2 →
      PlaceInv st2 ∧ SameMaps st2 st := by
  intro children
  induction children with
  | nil =>
    intro st hInv st2 h
    simp only [List.foldlM_nil] at h
    injection h with h
    subst h
    exact ⟨hInv, SameMaps_refl st⟩
  | cons child l ih =>
    intro st hInv st2 h
    simp only [List.foldlM_cons] at h
    rcases hstep : placeChildStep gd fuel childLevel hp st child with _ | st3
    · rw [hstep] at h
      exact Option.noConfusion h
    · rw [hstep] at h
      simp only [Option.bind_eq_bind, Option.some_bind] at h
      obtain ⟨hInv3, hmaps⟩ :=
        placeChildStep_spec gd fuel childLevel hp hcl hhp st child hInv st3 hstep
      obtain ⟨hInv2, hmaps2⟩ := ih st3 hInv3 st2 h
      exact ⟨hInv2, SameMaps_trans hmaps2 hmaps⟩

/-- Child placement for one parent preserves the invariant and size maps. -/
theorem placeChildrenOf_spec (gd : GraphDir) (fuel : Nat) (g : LGraph)
    (st : LayoutState) (i : Nat) (hInv : PlaceInv st) :
    ∀ st2, placeChildrenOf gd fuel g st i = some st2 →
    PlaceInv st2 ∧ SameMaps st2 st := by
  intro st2 h
  rw [placeChildrenOf.eq_def] at h
  rcases hgi : st.gridCoord i with _ | c
  · rw [hgi] at h
    dsimp only at h
    injection h with h
    subst h
    exact ⟨hInv, SameMaps_refl st⟩
  · rw [hgi] at h
    dsimp only at h
    have haligned := hInv.aligned i c hgi
    cases gd with
    | LR =>
      exact placeChildren_fold GraphDir.LR fuel (c.x + 4)
        (st.highestPositionPerLevel (c.x + 4)) (by omega)
        (hInv.levels (c.x + 4)) (getChildren g i) st hInv st2 h
    | TD =>
      exact placeChildren_fold GraphDir.TD fuel (c.y + 4)
        (st.highestPositionPerLevel (c.y + 4)) (by omega)
        (hInv.levels (c.y + 4)) (getChildren g i) st hInv st2 h

/-- The whole child-placement phase preserves the invariant and size maps. -/
theorem childPhase_fold (gd : GraphDir) (fuel : Nat) (g : LGraph) :
    ∀ (l : List Nat) (st : LayoutState), PlaceInv st →
      ∀ st2, l.foldlM (placeChildrenOf gd fuel g) st = some st2 →
      PlaceInv st2 ∧ SameMaps st2 st := by
  intro l
  induction l with
  | nil =>
    intro st hInv st2 h
    simp only [List.foldlM_nil] at h
    injection h with h
    subst h
    exact ⟨hInv, SameMaps_refl st⟩
  | cons i l ih =>
    intro st hInv st2 h
    simp only [List.foldlM_cons] at h
    rcases hstep : placeChildrenOf gd fuel g st i with _ | st3
    · rw [hstep] at h
      exact Option.noConfusion h
    · rw [hstep] at h
      simp only [Option.bind_eq_bind, Option.some_bind] at h
      obtain ⟨hInv3, hmaps⟩ := placeChildrenOf_spec gd fuel g st i hInv st3 hstep
      obtain ⟨hInv2, hmaps2⟩ := ih st3 hInv3 st2 h
      exact ⟨hInv2, SameMaps_trans hmaps2 hmaps⟩

/-- Monotonicity of a write trace: every recorded write to an index that
already held a value wrote a value at least as large. -/
def TraceMono (tr : List (Int × Option Nat × Nat)) : Prop :=
  ∀ rec ∈ tr, ∀ v, rec.2.1 = some v → v ≤ rec.2.2

/-- During the node-sizing phase, a column at an index ≡ 3 (mod 4) can only
hold the padding width. -/
def PadOnlyCW (st : LayoutState) : Prop :=
  ∀ j v, st.columnWidth j = some v → j % 4 = 3 → v = PADDING_BETWEEN_X

/-- During the node-sizing phase, a row at an index ≡ 3 (mod 4) can only
hold the padding height. -/
def PadOnlyRH (st : LayoutState) : Prop :=
  ∀ j v, st.rowHeight j = some v → j % 4 = 3 → v = PADDING_BETWEEN_Y

/-- The invariant of the node-sizing phase. -/
def SizeInv (st : LayoutState) : Prop :=
  TraceMono st.cwTrace ∧ TraceMono st.rhTrace ∧ PadOnlyCW st ∧ PadOnlyRH st

/-- Appending a monotone write keeps a trace monotone. -/
theorem TraceMono_snoc (tr : List (Int × Option Nat × Nat)) (i : Int)
    (o : Option Nat) (v : Nat) (h : TraceMono tr)
    (hm : ∀ w, o = some w → w ≤ v) : TraceMono (tr ++ [(i, o, v)]) := by
  intro rec hrec w hw
  rcases List.mem_append.mp hrec with h' | h'
  · exact h rec h' w hw
  · simp only [List.mem_singleton] at h'
    subst h'
    exact hm w hw

/-- A max-merge against the current entry never decreases it. -/
theorem mm_bound (o : Option Nat) (k : Nat) :
    ∀ w, o = some w → w ≤ max (o.getD 0) k := by
  intro w hw
  subst hw
  simp

theorem SizeInv_setCW {st : LayoutState} {i : Int} {v : Nat} (h : SizeInv st)
    (hm : ∀ w, st.columnWidth i = some w → w ≤ v)
    (hp : i % 4 = 3 → v = PADDING_BETWEEN_X) : SizeInv (setCW st i v) := by
  obtain ⟨h1, h2, h3, h4⟩ := h
  refine ⟨TraceMono_snoc _ _ _ _ h1 hm, h2, ?_, h4⟩
  intro j w hj hj4
  dsimp only [setCW] at hj
  by_cases hji : j = i
  · rw [if_pos hji] at hj
    injection hj with hj
    subst hj
    exact hp (hji ▸ hj4)
  · rw [if_neg hji] at hj
    exact h3 j w hj hj4

theorem SizeInv_setRH {st : LayoutState} {i : Int} {v : Nat} (h : SizeInv st)
    (hm : ∀ w, st.rowHeight i = some w → w ≤ v)
    (hp : i % 4 = 3 → v = PADDING_BETWEEN_Y) : SizeInv (setRH st i v) := by
  obtain ⟨h1, h2, h3, h4⟩ := h
  refine ⟨h1, TraceMono_snoc _ _ _ _ h2 hm, h3, ?_⟩
  intro j w hj hj4
  dsimp only [setRH] at hj
  by_cases hji : j = i
  · rw [if_pos hji] at hj
    injection hj with hj
    subst hj
    exact hp (hji ▸ hj4)
  · rw [if_neg hji] at hj
    exact h4 j w hj hj4

theorem SizeInv_mmCW {st : LayoutState} {i : Int} {k : Nat} (h : SizeInv st)
    (hi : i % 4 ≠ 3) : SizeInv (setCW st i (max ((st.columnWidth i).getD 0) k)) :=
  SizeInv_setCW h (mm_bound _ _) (fun h3 => absurd h3 hi)

theorem SizeInv_mmRH {st : LayoutState} {i : Int} {k : Nat} (h : SizeInv st)
    (hi : i % 4 ≠ 3) : SizeInv (setRH st i (max ((st.rowHeight i).getD 0) k)) :=
  SizeInv_setRH h (mm_bound _ _) (fun h3 => absurd h3 hi)

theorem SizeInv_padCW {st : LayoutState} {i : Int} (h : SizeInv st)
    (hi : i % 4 = 3) : SizeInv (setCW st i PADDING_BETWEEN_X) :=
  SizeInv_setCW h (fun w hw => le_of_eq (h.2.2.1 i w hw hi)) (fun _ => rfl)

theorem SizeInv_padRH {st : LayoutState} {i : Int} (h : SizeInv st)
    (hi : i % 4 = 3) : SizeInv (setRH st i PADDING_BETWEEN_Y) :=
  SizeInv_setRH h (fun w hw => le_of_eq (h.2.2.2 i w hw hi)) (fun _ => rfl)

/-- `setColumnWidth` for a 4-aligned node keeps the sizing invariant: the
six block writes max-merge at indices ≢ 3 (mod 4), and the unconditional
padding writes target indices ≡ 3 (mod 4) which can only hold the padding
value already. -/
theorem setColumnWidth_SizeInv (nameLen : Nat) (c : GridCoord)
    (st : LayoutState) (hcx : c.x % 4 = 0) (hcy : c.y % 4 = 0)
    (h : SizeInv st) : SizeInv (setColumnWidth nameLen c st) := by
  simp only [setColumnWidth]
  split_ifs with hy hx hx
  · exact SizeInv_padRH (SizeInv_padCW (SizeInv_mmRH (SizeInv_mmRH (SizeInv_mmRH
      (SizeInv_mmCW (SizeInv_mmCW (SizeInv_mmCW h (by omega)) (by omega))
      (by omega)) (by omega)) (by omega)) (by omega)) (by omega)) (by omega)
  · exact SizeInv_padRH (SizeInv_mmRH (SizeInv_mmRH (SizeInv_mmRH
      (SizeInv_mmCW (SizeInv_mmCW (SizeInv_mmCW h (by omega)) (by omega))
      (by omega)) (by omega)) (by omega)) (by omega)) (by omega)
  · exact SizeInv_padCW (SizeInv_mmRH (SizeInv_mmRH (SizeInv_mmRH
      (SizeInv_mmCW (SizeInv_mmCW (SizeInv_mmCW h (by omega)) (by omega))
      (by omega)) (by omega)) (by omega)) (by omega)) (by omega)
  · exact SizeInv_mmRH (SizeInv_mmRH (SizeInv_mmRH
      (SizeInv_mmCW (SizeInv_mmCW (SizeInv_mmCW h (by omega)) (by omega))
      (by omega)) (by omega)) (by omega)) (by omega)

/-- `setColumnWidth` leaves the grid and the anchors untouched. -/
theorem setColumnWidth_placement (nameLen : Nat) (c : GridCoord)
    (st : LayoutState) :
    (setColumnWidth nameLen c st).grid = st.grid ∧
    (setColumnWidth nameLen c st).gridCoord = st.gridCoord := by
  simp only [setColumnWidth]
  split_ifs <;> exact ⟨rfl, rfl⟩

/-- The node-sizing loop keeps the sizing invariant and placement, provided
all anchors are 4-aligned. -/
theorem sizePhase_spec (g : LGraph) :
    ∀ (l : List Nat) (st : LayoutState), SizeInv st →
      (∀ i c, st.gridCoord i = some c → c.x % 4 = 0 ∧ c.y % 4 = 0) →
      SizeInv (l.foldl (sizeStep g) st) ∧
      (l.foldl (sizeStep g) st).grid = st.grid ∧
      (l.foldl (sizeStep g) st).gridCoord = st.gridCoord := by
  intro l
  induction l with
  | nil =>
    intro st h _
    exact ⟨h, rfl, rfl⟩
  | cons i l ih =>
    intro st h haligned
    simp only [List.foldl_cons]
    rcases hgi : st.gridCoord i with _ | c
    · have hstep : sizeStep g st i = st := by rw [sizeStep, hgi]
      rw [hstep]
      exact ih st h haligned
    · have hstep : sizeStep g st i = setColumnWidth (g.nameLens.getD i 0) c st := by
        rw [sizeStep, hgi]
      rw [hstep]
      obtain ⟨hcx, hcy⟩ := haligned i c hgi
      obtain ⟨hg, hgc⟩ := setColumnWidth_placement (g.nameLens.getD i 0) c st
      obtain ⟨hs, hg2, hgc2⟩ := ih (setColumnWidth (g.nameLens.getD i 0) c st)
        (setColumnWidth_SizeInv (g.nameLens.getD i 0) c st hcx hcy h)
        (by rw [hgc]; exact haligned)
      exact ⟨hs, hg2.trans hg, hgc2.trans hgc⟩

/-- After the node-sizing phase only trace monotonicity is needed. -/
def TracesMono (st : LayoutState) : Prop :=
  TraceMono st.cwTrace ∧ TraceMono st.rhTrace

theorem TracesMono_mmCW {st : LayoutState} {i : Int} {k : Nat}
    (h : TracesMono st) :
    TracesMono (setCW st i (max ((st.columnWidth i).getD 0) k)) :=
  ⟨TraceMono_snoc _ _ _ _ h.1 (mm_bound _ _), h.2⟩

theorem TracesMono_absentCW {st : LayoutState} {i : Int} {v : Nat}
    (h : TracesMono st) (hnone : st.columnWidth i = none) :
    TracesMono (setCW st i v) :=
  ⟨TraceMono_snoc _ _ _ _ h.1
    (fun w hw => absurd (hnone ▸ hw) (by simp)), h.2⟩

theorem TracesMono_absentRH {st : LayoutState} {i : Int} {v : Nat}
    (h : TracesMono st) (hnone : st.rowHeight i = none) :
    TracesMono (setRH st i v) :=
  ⟨h.1, TraceMono_snoc _ _ _ _ h.2
    (fun w hw => absurd (hnone ▸ hw) (by simp))⟩

/-- One default-sizing step only writes to absent entries, so it keeps
traces monotone and leaves placement untouched. -/
theorem igsStep_spec (st : LayoutState) (c : GridCoord) (h : TracesMono st) :
    TracesMono (igsStep st c) ∧ (igsStep st c).grid = st.grid ∧
    (igsStep st c).gridCoord = st.gridCoord := by
  simp only [igsStep]
  split_ifs with h1 h2 h2
  · exact ⟨TracesMono_absentRH (TracesMono_absentCW h
      (Option.isNone_iff_eq_none.mp h1)) (Option.isNone_iff_eq_none.mp h2),
      rfl, rfl⟩
  · exact ⟨TracesMono_absentCW h (Option.isNone_iff_eq_none.mp h1), rfl, rfl⟩
  · exact ⟨TracesMono_absentRH h (Option.isNone_iff_eq_none.mp h2), rfl, rfl⟩
  · exact ⟨h, rfl, rfl⟩

/-- The per-path default sizing keeps traces monotone and placement. -/
theorem increaseGridSizeForPath_spec :
    ∀ (path : List GridCoord) (st : LayoutState), TracesMono st →
      TracesMono (increaseGridSizeForPath path st) ∧
      (increaseGridSizeForPath path st).grid = st.grid ∧
      (increaseGridSizeForPath path st).gridCoord = st.gridCoord := by
  intro path
  induction path with
  | nil =>
    intro st h
    exact ⟨h, rfl, rfl⟩
  | cons c l ih =>
    intro st h
    simp only [increaseGridSizeForPath, List.foldl_cons] at ih ⊢
    obtain ⟨h1, h2, h3⟩ := igsStep_spec st c h
    obtain ⟨g1, g2, g3⟩ := ih (igsStep st c) h1
    exact ⟨g1, g2.trans h2, g3.trans h3⟩

/-- Label widening is a single max-merge, so it keeps traces monotone and
leaves placement untouched. -/
theorem determineLabelLine_spec (lenLabel : Nat) (path : List GridCoord)
    (st : LayoutState) (h : TracesMono st) :
    ∀ st2, determineLabelLine lenLabel path st = some st2 →
    TracesMono st2 ∧ st2.grid = st.grid ∧ st2.gridCoord = st.gridCoord := by
  intro st2 hd
  rw [determineLabelLine.eq_def] at hd
  by_cases hl : lenLabel = 0
  · rw [if_pos hl] at hd
    injection hd with hd
    subst hd
    exact ⟨h, rfl, rfl⟩
  · rw [if_neg hl] at hd
    split at hd
    · injection hd with hd
      subst hd
      exact ⟨TracesMono_mmCW h, rfl, rfl⟩
    · exact Option.noConfusion hd

/-- One edge-loop iteration keeps traces monotone and placement. -/
theorem edgePhaseStep_spec (gd : GraphDir) (fuel : Nat) (st : LayoutState)
    (e : LEdge) (h : TracesMono st) :
    ∀ st2, edgePhaseStep gd fuel st e = some st2 →
    TracesMono st2 ∧ st2.grid = st.grid ∧ st2.gridCoord = st.gridCoord := by
  intro st2 hstep
  rw [edgePhaseStep.eq_def] at hstep
  rcases hf : st.gridCoord e.fromIdx with _ | fc
  · rw [hf] at hstep
    rcases ht : st.gridCoord e.toIdx with _ | tc
    all_goals rw [ht] at hstep
    all_goals dsimp only at hstep
    all_goals {
      obtain ⟨h1, h2, h3⟩ := increaseGridSizeForPath_spec [] st h
      obtain ⟨g1, g2, g3⟩ := determineLabelLine_spec e.text.length []
        (increaseGridSizeForPath [] st) h1 st2 hstep
      exact ⟨g1, g2.trans h2, g3.trans h3⟩
    }
  · rw [hf] at hstep
    rcases ht : st.gridCoord e.toIdx with _ | tc
    · rw [ht] at hstep
      dsimp only at hstep
      obtain ⟨h1, h2, h3⟩ := increaseGridSizeForPath_spec [] st h
      obtain ⟨g1, g2, g3⟩ := determineLabelLine_spec e.text.length []
        (increaseGridSizeForPath [] st) h1 st2 hstep
      exact ⟨g1, g2.trans h2, g3.trans h3⟩
    · rw [ht] at hstep
      dsimp only at hstep
      rcases hdp : determinePath gd fc tc (decide (e.fromIdx = e.toIdx))
          (isFreeInGrid st) fuel with _ | r
      · rw [hdp] at hstep
        exact Option.noConfusion hstep
      · rw [hdp] at hstep
        dsimp only at hstep
        obtain ⟨h1, h2, h3⟩ := increaseGridSizeForPath_spec r.path st h
        obtain ⟨g1, g2, g3⟩ := determineLabelLine_spec e.text.length r.path
          (increaseGridSizeForPath r.path st) h1 st2 hstep
        exact ⟨g1, g2.trans h2, g3.trans h3⟩

/-- The edge loop keeps traces monotone and placement. -/
theorem edgePhase_fold (gd : GraphDir) (fuel : Nat) :
    ∀ (es : List LEdge) (st : LayoutState), TracesMono st →
      ∀ st2, es.foldlM (edgePhaseStep gd fuel) st = some st2 →
      TracesMono st2 ∧ st2.grid = st.grid ∧ st2.gridCoord = st.gridCoord := by
  intro es
  induction es with
  | nil =>
    intro st h st2 he
    simp only [List.foldlM_nil] at he
    injection he with he
    subst he
    exact ⟨h, rfl, rfl⟩
  | cons e l ih =>
    intro st h st2 he
    simp only [List.foldlM_cons] at he
    rcases hstep : edgePhaseStep gd fuel st e with _ | st3
    · rw [hstep] at he
      exact Option.noConfusion he
    · rw [hstep] at he
      simp only [Option.bind_eq_bind, Option.some_bind] at he
      obtain ⟨h1, h2, h3⟩ := edgePhaseStep_spec gd fuel st e h st3 hstep
      obtain ⟨g1, g2, g3⟩ := ih st3 h1 st2 he
      exact ⟨g1, g2.trans h2, g3.trans h3⟩

/-- Every completed `createMapping` run yields monotone write traces and a
grid in which every placed node owns its full 3×3 block. -/
theorem createMapping_spec (gd : GraphDir) (g : LGraph) (fuel : Nat) :
    ∀ st, createMapping gd g fuel = some st →
    TraceMono st.cwTrace ∧ TraceMono st.rhTrace ∧
    (∀ i c, st.gridCoord i = some c → ∀ p, inBlock c p → st.grid p = some i) := by
  intro st h
  rw [createMapping] at h
  rcases h1 : placeRoots gd fuel (rootNodes g) emptyLayout with _ | st1
  · rw [h1] at h
    exact Option.noConfusion h
  rw [h1] at h
  simp only [Option.bind_eq_bind, Option.some_bind] at h
  rcases h2 : (List.range g.nameLens.length).foldlM (placeChildrenOf gd fuel g) st1
      with _ | st2
  · rw [h2] at h
    exact Option.noConfusion h
  rw [h2] at h
  simp only [Option.bind_eq_bind, Option.some_bind] at h
  obtain ⟨hInv1, hmaps1⟩ := placeRoots_spec gd fuel (rootNodes g) emptyLayout
    PlaceInv_empty (rootNodes_nodup g)
    (by intro j c hj; simp [emptyLayout] at hj) st1 h1
  obtain ⟨hInv2, hmaps2⟩ := childPhase_fold gd fuel g
    (List.range g.nameLens.length) st1 hInv1 st2 h2
  have hsize2 : SizeInv st2 := by
    obtain ⟨a1, a2, a3, a4⟩ := SameMaps_trans hmaps2 hmaps1
    refine ⟨?_, ?_, ?_, ?_⟩
    · rw [a3]
      intro rec hrec
      simp [emptyLayout] at hrec
    · rw [a4]
      intro rec hrec
      simp [emptyLayout] at hrec
    · intro j v hj
      rw [a1] at hj
      simp [emptyLayout] at hj
    · intro j v hj
      rw [a2] at hj
      simp [emptyLayout] at hj
  obtain ⟨hsize3, hg3, hgc3⟩ := sizePhase_spec g (List.range g.nameLens.length)
    st2 hsize2 hInv2.aligned
  obtain ⟨hmono, hg4, hgc4⟩ := edgePhase_fold gd fuel g.edges
    ((List.range g.nameLens.length).foldl (sizeStep g) st2)
    ⟨hsize3.1, hsize3.2.1⟩ st (by simpa [sizePhase] using h)
  refine ⟨hmono.1, hmono.2, ?_⟩
  intro i c hic p hp
  rw [hg4, hg3]
  apply hInv2.covers i c _ p hp
  rw [← hgc3, ← hgc4]
  exact hic

/-- Claim C5: throughout one completed layout run, the column-width and
row-height maps never shrink: every recorded write to an already-present
index (across node sizing, per-path default sizing, and label widening)
wrote a value at least as large as the one it replaced. -/
theorem C5_size_maps_monotone (gd : GraphDir) (g : LGraph) (fuel : Nat)
    (st : LayoutState) (h : createMapping gd g fuel = some st) :
    (∀ rec ∈ st.cwTrace, ∀ v, rec.2.1 = some v → v ≤ rec.2.2) ∧
    (∀ rec ∈ st.rhTrace, ∀ v, rec.2.1 = some v → v ≤ rec.2.2) := by
  obtain ⟨h1, h2, _⟩ := createMapping_spec gd g fuel st h
  exact ⟨h1, h2⟩

/-- A two-node graph with one edge, used to instantiate the layout claims. -/
def wGraph : LGraph := ⟨[1, 1], [⟨0, 1, ""⟩]⟩

/-- The layout state of a concrete completed run. -/
def wLayout : LayoutState := (createMapping GraphDir.LR wGraph 20).getD emptyLayout

/-- Claim C5 witness: in a concrete run, the second node's first row write
found the first node's entry already present and kept it. -/
theorem C5_size_maps_monotone_witness :
    ((0 : Int), some 1, 1) ∈ wLayout.rhTrace ∧ 1 ≤ 1 := by
  constructor
  · decide
  · exact (C5_size_maps_monotone GraphDir.LR wGraph 20 wLayout rfl).2
      ((0 : Int), some 1, 1) (by decide) 1 rfl

/-- Claim C6: after a completed layout run, every placed node occupies its
full 3×3 block in the occupancy grid, and the blocks of distinct placed
nodes are disjoint — the single-anchor collision check suffices because all
anchors are 4-aligned. -/
theorem C6_block_reservation (gd : GraphDir) (g : LGraph) (fuel : Nat)
    (st : LayoutState) (h : createMapping gd g fuel = some st) :
    (∀ i c, st.gridCoord i = some c → ∀ p, inBlock c p → st.grid p = some i) ∧
    (∀ i j ci cj p, i ≠ j → st.gridCoord i = some ci →
      st.gridCoord j = some cj → inBlock ci p → inBlock cj p → False) := by
  obtain ⟨_, _, hcov⟩ := createMapping_spec gd g fuel st h
  refine ⟨hcov, ?_⟩
  intro i j ci cj p hij hi hj hpi hpj
  have e1 := hcov i ci hi p hpi
  have e2 := hcov j cj hj p hpj
  rw [e1] at e2
  injection e2 with e2
  exact hij e2

/-- Claim C6 witness: in a concrete run the first node is anchored at the
origin and owns the centre of its 3×3 block. -/
theorem C6_block_reservation_witness :
    wLayout.gridCoord 0 = some ⟨0, 0⟩ ∧ wLayout.grid ⟨1, 1⟩ = some 0 := by
  constructor
  · decide
  · exact (C6_block_reservation GraphDir.LR wGraph 20 wLayout rfl).1 0 ⟨0, 0⟩
      (by decide) ⟨1, 1⟩ (by decide)

/-! ## Render stage (drawing.ts, types/graph.ts: draw pipeline)

The render stage consumes the layout results (anchors, drawing coordinates,
size maps, edge paths and directions) which never depend on the ASCII flag,
so it is modelled as a family of functions over that data with the mode
`ascii : Bool` passed explicitly (the global `useAscii`).  A canvas write
`canvas[x][y] = c` is `setCell`, which ignores out-of-range coordinates:
every reachable source write is preceded by an `increaseSize` or an explicit
range guard that keeps it in range, and the source would throw on a negative
column index, which no reachable write produces. -/

/-- `canvas[x][y] = c`, a no-op out of range. -/
def setCell (d : List (List Char)) (x y : Int) (c : Char) :
    List (List Char) :=
  if 0 ≤ x ∧ 0 ≤ y then d.set x.toNat ((d.getD x.toNat []).set y.toNat c)
  else d

/-- The column lengths of a canvas; two canvases of equal shape have equal
output dimensions. -/
def shape (d : List (List Char)) : List Nat :=
  d.map List.length

/-- `ceilDiv` of types/common.ts. -/
def ceilDiv (x y : Nat) : Nat :=
  if x % y = 0 then x / y else x / y + 1

/-- The integers `a, a+1, …, b` (empty when `b < a`). -/
def intRangeAsc (a b : Int) : List Int :=
  (List.range (b - a + 1).toNat).map (fun k => a + k)

/-- The integers `a, a-1, …, b` (empty when `a < b`). -/
def intRangeDesc (a b : Int) : List Int :=
  (List.range (a - b + 1).toNat).map (fun k => a - k)

/-- The glyph drawn for a line segment: `drawUnicodeLine` and
`drawAsciiLine` differ only here. -/
def lineChar (ascii : Bool) (dir : Direction) : Char :=
  if dir = Direction.Up ∨ dir = Direction.Down then
    if ascii then '|' else '│'
  else if dir = Direction.Left ∨ dir = Direction.Right then
    if ascii then '-' else '─'
  else if dir = Direction.UpperLeft ∨ dir = Direction.LowerRight then
    if ascii then '\\' else '╲'
  else
    if ascii then '/' else '╱'

/-- The cells a line's loop visits, in order: the straight loops of
`drawUnicodeLine`/`drawAsciiLine` walk one coordinate between the offset
endpoints, the diagonal while-loops step both coordinates while both stay
within the `offsetTo`-adjusted bounds.  A direction outside the eight cases
draws nothing (`determineDirection` never returns `Middle`). -/
def lineCoords (f t : DrawingCoord) (oF oT : Int) : List DrawingCoord :=
  let dir := determineDirection f t
  if dir = Direction.Up then
    (intRangeDesc (f.y - oF) (t.y - oT)).map (fun y => ⟨f.x, y⟩)
  else if dir = Direction.Down then
    (intRangeAsc (f.y + oF) (t.y + oT)).map (fun y => ⟨f.x, y⟩)
  else if dir = Direction.Left then
    (intRangeDesc (f.x - oF) (t.x - oT)).map (fun x => ⟨x, f.y⟩)
  else if dir = Direction.Right then
    (intRangeAsc (f.x + oF) (t.x + oT)).map (fun x => ⟨x, f.y⟩)
  else if dir = Direction.UpperLeft then
    (List.range (min (f.x - (t.x - oT)) ((f.y - oF) - (t.y - oT)) + 1).toNat).map
      (fun k => ⟨f.x - k, f.y - oF - k⟩)
  else if dir = Direction.UpperRight then
    (List.range (min ((t.x + oT) - f.x) ((f.y - oF) - (t.y - oT)) + 1).toNat).map
      (fun k => ⟨f.x + k, f.y - oF - k⟩)
  else if dir = Direction.LowerLeft then
    (List.range (min (f.x - (t.x - oT)) ((t.y + oT) - (f.y + oF)) + 1).toNat).map
      (fun k => ⟨f.x - k, f.y + oF + k⟩)
  else
    (List.range (min ((t.x + oT) - f.x) ((t.y + oT) - (f.y + oF)) + 1).toNat).map
      (fun k => ⟨f.x + k, f.y + oF + k⟩)

/-- `DrawingEngine.drawLine`: grow the canvas to cover both endpoints, then
draw the mode's glyph over the line cells; returns the drawn cells. -/
def drawLine (ascii : Bool) (d : List (List Char)) (f t : DrawingCoord)
    (oF oT : Int) : List (List Char) × List DrawingCoord :=
  let dir := determineDirection f t
  let d2 := increaseSize d (max f.x t.x).toNat (max f.y t.y).toNat
  let coords := lineCoords f t oF oT
  (coords.foldl (fun d c => setCell d c.x c.y (lineChar ascii dir)) d2, coords)

/-- `DrawingEngine.drawText`. -/
def drawText (d : List (List Char)) (start : DrawingCoord)
    (text : List Char) : List (List Char) :=
  let d2 := increaseSize d (start.x + text.length).toNat start.y.toNat
  (List.range text.length).foldl
    (fun d (x : Nat) => setCell d (start.x + x) start.y (text.getD x ' ')) d2

/-- `drawingToString` (types/drawing.ts, also `DrawingEngine.toString`):
row-major serialization with a newline between rows. -/
def drawingToString (d : List (List Char)) : List Char :=
  let sz := getDrawingSize d
  (List.range (sz.2 + 1)).foldl (fun acc y =>
    acc ++ ((List.range (sz.1 + 1)).map fun x => getCell d x y) ++
      (if y ≠ sz.2 then ['\n'] else [])) []

/-- `drawBox`: the node box canvas.  `w`/`h` sum the two defined column
widths/row heights that the box spans (`setDrawing` passes the maps
restricted to indices 0–99); borders and corners use the mode's glyphs, and
the name is written centered, each character guarded to the canvas range. -/
def drawBox (ascii : Bool) (gridCoord : Option GridCoord) (name : List Char)
    (columnWidths rowHeights : Int → Option Nat) : List (List Char) :=
  match gridCoord with
  | none => makeDrawing 0 0
  | some gc =>
    let w := (columnWidths gc.x).getD 0 + (columnWidths (gc.x + 1)).getD 0
    let h := (rowHeights gc.y).getD 0 + (rowHeights (gc.y + 1)).getD 0
    let hch : Char := if ascii then '-' else '─'
    let vch : Char := if ascii then '|' else '│'
    let d0 := makeDrawing w h
    let d1 := (intRangeAsc 1 (w - 1)).foldl (fun d x => setCell d x 0 hch) d0
    let d2 := (intRangeAsc 1 (w - 1)).foldl (fun d x => setCell d x h hch) d1
    let d3 := (intRangeAsc 1 (h - 1)).foldl (fun d y => setCell d 0 y vch) d2
    let d4 := (intRangeAsc 1 (h - 1)).foldl (fun d y => setCell d w y vch) d3
    let d5 := setCell d4 0 0 (if ascii then '+' else '┌')
    let d6 := setCell d5 w 0 (if ascii then '+' else '┐')
    let d7 := setCell d6 0 h (if ascii then '+' else '└')
    let d8 := setCell d7 w h (if ascii then '+' else '┘')
    let textY : Int := (h : Int) / 2
    let textX : Int := (w : Int) / 2 - ceilDiv name.length 2 + 1
    (List.range name.length).foldl
      (fun d (x : Nat) => setCell d (textX + x) textY (name.getD x ' ')) d8

/-- The loop body of `drawPath`: segments between consecutive path cells
whose drawing coordinates differ are drawn with offsets 1 and -1; on a
skipped (coincident) segment the previous cell is kept as is in the source
(`continue` skips the update). -/
def drawPathAux (ascii : Bool) (g2d : GridCoord → Option Direction → DrawingCoord) :
    List GridCoord → GridCoord → List (List Char) → List (List DrawingCoord) →
    List (List Char) × List (List DrawingCoord)
  | [], _, d, lines => (d, lines)
  | next :: rest, prev, d, lines =>
    let pdc := g2d prev none
    let ndc := g2d next none
    if pdc = ndc then drawPathAux ascii g2d rest prev d lines
    else
      let r := drawLine ascii d pdc ndc 1 (-1)
      drawPathAux ascii g2d rest next r.1 (lines ++ [r.2])

/-- `drawPath`: a base-sized blank canvas with all path segments drawn. -/
def drawPath (ascii : Bool) (path : List GridCoord)
    (g2d : GridCoord → Option Direction → DrawingCoord) (baseSize : Nat × Nat) :
    List (List Char) × List (List DrawingCoord) :=
  let d0 := increaseSize (makeDrawing 0 0) baseSize.1 baseSize.2
  match path with
  | [] => (d0, [])
  | p0 :: rest => drawPathAux ascii g2d rest p0 d0 []

/-- `drawBoxStart`: in ASCII mode nothing is drawn (early return with the
base-sized blank canvas); in Unicode mode one junction glyph is placed next
to the first drawn cell for the four straight start directions. -/
def drawBoxStart (ascii : Bool) (path : List GridCoord)
    (firstLine : List DrawingCoord) (baseSize : Nat × Nat) :
    List (List Char) :=
  let d := increaseSize (makeDrawing 0 0) baseSize.1 baseSize.2
  if firstLine.length = 0 ∨ path.length < 2 then d
  else if ascii then d
  else
    let fromC := firstLine.headD ⟨0, 0⟩
    let dir := determineDirection (path.getD 0 ⟨0, 0⟩) (path.getD 1 ⟨0, 0⟩)
    if dir = Direction.Up then setCell d fromC.x (fromC.y + 1) '┴'
    else if dir = Direction.Down then setCell d fromC.x (fromC.y - 1) '┬'
    else if dir = Direction.Left then setCell d (fromC.x + 1) fromC.y '┤'
    else if dir = Direction.Right then setCell d (fromC.x - 1) fromC.y '├'
    else d

/-- The arrow-head glyph per mode and direction. -/
def arrowHeadChar (ascii : Bool) (dir : Direction) : Char :=
  if ascii then
    if dir = Direction.Up then '^'
    else if dir = Direction.Down then 'v'
    else if dir = Direction.Left then '<'
    else if dir = Direction.Right then '>'
    else '*'
  else
    if dir = Direction.Up then '▲'
    else if dir = Direction.Down then '▼'
    else if dir = Direction.Left then '◄'
    else if dir = Direction.Right then '►'
    else if dir = Direction.UpperRight then '◥'
    else if dir = Direction.UpperLeft then '◤'
    else if dir = Direction.LowerRight then '◢'
    else if dir = Direction.LowerLeft then '◣'
    else '●'

/-- `drawArrowHead`: place the arrow head on the last cell of the last
drawn line (upward for a single-cell line). -/
def drawArrowHead (ascii : Bool) (line : List DrawingCoord)
    (baseSize : Nat × Nat) : List (List Char) :=
  let d := increaseSize (makeDrawing 0 0) baseSize.1 baseSize.2
  if line.length < 1 then d
  else
    let lastPos := line.getLastD ⟨0, 0⟩
    let dir := if 2 ≤ line.length then
        determineDirection (line.headD ⟨0, 0⟩) lastPos
      else Direction.Up
    let d2 := increaseSize d lastPos.x.toNat lastPos.y.toNat
    setCell d2 lastPos.x lastPos.y (arrowHeadChar ascii dir)

/-- The corner glyph for a direction change (always `+` in ASCII mode). -/
def cornerChar (ascii : Bool) (prevDir nextDir : Direction) : Char :=
  if ascii then '+'
  else if (prevDir = Direction.Right ∧ nextDir = Direction.Down) ∨
      (prevDir = Direction.Up ∧ nextDir = Direction.Left) then '┐'
  else if (prevDir = Direction.Right ∧ nextDir = Direction.Up) ∨
      (prevDir = Direction.Down ∧ nextDir = Direction.Left) then '┘'
  else if (prevDir = Direction.Left ∧ nextDir = Direction.Down) ∨
      (prevDir = Direction.Up ∧ nextDir = Direction.Right) then '┌'
  else if (prevDir = Direction.Left ∧ nextDir = Direction.Up) ∨
      (prevDir = Direction.Down ∧ nextDir = Direction.Right) then '└'
  else '+'

/-- The interior loop of `drawCorners`. -/
def drawCornersAux (ascii : Bool)
    (g2d : GridCoord → Option Direction → DrawingCoord) :
    List (List Char) → GridCoord → GridCoord → List GridCoord →
    List (List Char)
  | d, _, _, [] => d
  | d, p0, p1, p2 :: rest =>
    let dc := g2d p1 none
    let corner := cornerChar ascii (determineDirection p0 p1)
      (determineDirection p1 p2)
    let d2 := setCell (increaseSize d dc.x.toNat dc.y.toNat) dc.x dc.y corner
    drawCornersAux ascii g2d d2 p1 p2 rest

/-- `drawCorners`: one corner glyph at each interior path cell. -/
def drawCorners (ascii : Bool) (path : List GridCoord)
    (g2d : GridCoord → Option Direction → DrawingCoord) (baseSize : Nat × Nat) :
    List (List Char) :=
  let d0 := increaseSize (makeDrawing 0 0) baseSize.1 baseSize.2
  match path with
  | p0 :: p1 :: rest => drawCornersAux ascii g2d d0 p0 p1 rest
  | _ => d0

/-- `drawTextOnLine`: write the label centered on the segment. -/
def drawTextOnLine (d : List (List Char)) (line : List DrawingCoord)
    (label : List Char) : List (List Char) :=
  if line.length < 2 then d
  else
    let a := line.getD 0 ⟨0, 0⟩
    let b := line.getD 1 ⟨0, 0⟩
    let middleX := min a.x b.x + (max a.x b.x - min a.x b.x) / 2
    let middleY := min a.y b.y + (max a.y b.y - min a.y b.y) / 2
    drawText d ⟨middleX - label.length / 2, middleY⟩ label

/-- An edge as the render stage sees it after layout. -/
structure RenderEdge where
  startDir : Option Direction
  endDir : Option Direction
  path : List GridCoord
  labelLine : List GridCoord
  text : List Char
  fromCoord : Option GridCoord
  toCoord : Option GridCoord

/-- `drawArrowLabel`: the label canvas of an edge. -/
def drawArrowLabel (e : RenderEdge)
    (g2d : GridCoord → Option Direction → DrawingCoord) (baseSize : Nat × Nat) :
    List (List Char) :=
  let d := increaseSize (makeDrawing 0 0) baseSize.1 baseSize.2
  if e.text.length = 0 then d
  else if 2 ≤ e.labelLine.length then
    drawTextOnLine d (e.labelLine.map (fun c => g2d c none)) e.text
  else d

/-- The module-level `drawEdge` of drawing.ts: the five edge canvases
(path, box start, arrow head, corners, label), or five fresh 1×1 canvases
for an empty path. -/
def drawEdge (ascii : Bool) (e : RenderEdge)
    (g2d : GridCoord → Option Direction → DrawingCoord) (baseSize : Nat × Nat) :
    List (List Char) × List (List Char) × List (List Char) ×
      List (List Char) × List (List Char) :=
  if e.path.length = 0 then
    (makeDrawing 0 0, makeDrawing 0 0, makeDrawing 0 0, makeDrawing 0 0,
      makeDrawing 0 0)
  else
    let dLabel := drawArrowLabel e g2d baseSize
    let pr := drawPath ascii e.path g2d baseSize
    let dBoxStart := drawBoxStart ascii e.path (pr.2.headD []) baseSize
    let dArrowHead := drawArrowHead ascii (pr.2.getLastD []) baseSize
    let dCorners := drawCorners ascii e.path g2d baseSize
    (pr.1, dBoxStart, dArrowHead, dCorners, dLabel)

/-- `GraphImpl.drawEdge`: five fresh 1×1 canvases when a direction or an
endpoint anchor is missing, otherwise the module-level `drawEdge`. -/
def graphDrawEdge (ascii : Bool) (e : RenderEdge)
    (g2d : GridCoord → Option Direction → DrawingCoord) (baseSize : Nat × Nat) :
    List (List Char) × List (List Char) × List (List Char) ×
      List (List Char) × List (List Char) :=
  match e.startDir, e.endDir, e.fromCoord, e.toCoord with
  | some _, some _, some _, some _ => drawEdge ascii e g2d baseSize
  | _, _, _, _ =>
    (makeDrawing 0 0, makeDrawing 0 0, makeDrawing 0 0, makeDrawing 0 0,
      makeDrawing 0 0)

/-- One cell of the overlay loop of `mergeDrawings`. -/
def mergeCell (ascii : Bool) (dcanvas : List (List Char)) (mc : DrawingCoord)
    (merged : List (List Char)) (xy : Nat × Nat) : List (List Char) :=
  let c := getCell dcanvas xy.1 xy.2
  if c = ' ' then merged
  else
    let mergeX : Int := (xy.1 : Int) + mc.x
    let mergeY : Int := (xy.2 : Int) + mc.y
    if 0 ≤ mergeX ∧ mergeX < merged.length ∧ 0 ≤ mergeY ∧
        mergeY < (merged.headD []).length then
      let currentChar := getCell merged mergeX.toNat mergeY.toNat
      let newChar := if ascii = false ∧ isJunctionChar c ∧
          isJunctionChar currentChar then mergeJunctions currentChar c
        else c
      setCell merged mergeX mergeY newChar
    else merged

/-- The overlay of one drawing onto the merged canvas. -/
def mergeOne (ascii : Bool) (mc : DrawingCoord) (merged d : List (List Char)) :
    List (List Char) :=
  (List.range d.length).foldl (fun m x =>
    (List.range (d.headD []).length).foldl
      (fun m y => mergeCell ascii d mc m (x, y)) m) merged

/-- `mergeDrawings`: grow to the maximum dimensions, copy the base, then
overlay every drawing at the merge offset; junction fusion applies only in
Unicode mode.  The guarded base copy onto the fresh blank canvas is written
as a direct construction. -/
def mergeDrawings (ascii : Bool) (base : List (List Char)) (mc : DrawingCoord)
    (ds : List (List (List Char))) : List (List Char) :=
  let sz := getDrawingSize base
  let maxs := ds.foldl (fun acc d =>
    let dsz := getDrawingSize d
    (max acc.1 ((dsz.1 : Int) + mc.x), max acc.2 ((dsz.2 : Int) + mc.y)))
    ((sz.1 : Int), (sz.2 : Int))
  let copied := (List.range (maxs.1.toNat + 1)).map fun x =>
    (List.range (maxs.2.toNat + 1)).map fun y =>
      if x < base.length ∧ y < (base.headD []).length then getCell base x y
      else ' '
  ds.foldl (mergeOne ascii mc) copied

/-- A node as the render stage sees it after layout. -/
structure RenderNode where
  gridCoord : Option GridCoord
  drawingCoord : Option DrawingCoord
  name : List Char

/-- The layout results feeding the render stage: nodes, edges, the two size
maps, the grid-to-drawing conversion and the base canvas size that
`setDrawingSizeToGridConstraints` established — all independent of the
ASCII flag. -/
structure RenderInput where
  nodes : List RenderNode
  edges : List RenderEdge
  columnWidths : Int → Option Nat
  rowHeights : Int → Option Nat
  g2d : GridCoord → Option Direction → DrawingCoord
  baseSize : Nat × Nat

/-- `GraphImpl.draw`: draw every placed node's box into the base canvas,
render the five canvases of every edge against the node-complete base, then
merge them in order: lines, corners, arrow heads, box starts, labels. -/
def drawNodeStep (ascii : Bool) (cws rhs : Int → Option Nat)
    (b : List (List Char)) (n : RenderNode) : List (List Char) :=
  match n.drawingCoord, n.gridCoord with
  | some dc, some _ =>
    mergeDrawings ascii b dc [drawBox ascii n.gridCoord n.name cws rhs]
  | _, _ => b

def drawGraph (ascii : Bool) (inp : RenderInput) : List (List Char) :=
  let base0 := increaseSize (makeDrawing 0 0) inp.baseSize.1 inp.baseSize.2
  let base1 := inp.nodes.foldl
    (drawNodeStep ascii inp.columnWidths inp.rowHeights) base0
  let edgeResults := inp.edges.map
    (fun e => graphDrawEdge ascii e inp.g2d (getDrawingSize base1))
  let base2 := mergeDrawings ascii base1 ⟨0, 0⟩ (edgeResults.map (·.1))
  let base3 := mergeDrawings ascii base2 ⟨0, 0⟩ (edgeResults.map (·.2.2.2.1))
  let base4 := mergeDrawings ascii base3 ⟨0, 0⟩ (edgeResults.map (·.2.2.1))
  let base5 := mergeDrawings ascii base4 ⟨0, 0⟩ (edgeResults.map (·.2.1))
  mergeDrawings ascii base5 ⟨0, 0⟩ (edgeResults.map (·.2.2.2.2))

/-! ### Shape layer: canvas dimensions are mode-independent -/

/-- The drawing size as a function of the shape. -/
def sizeOfShape (s : List Nat) : Nat × Nat :=
  if s.length = 0 then (0, 0) else (s.length - 1, s.headD 0 - 1)

theorem getDrawingSize_shape (d : List (List Char)) :
    getDrawingSize d = sizeOfShape (shape d) := by
  unfold getDrawingSize sizeOfShape shape
  cases d with
  | nil => rfl
  | cons col rest => simp

theorem setD_self (l : List Nat) (n : Nat) : l.set n (l.getD n 0) = l := by
  induction l generalizing n with
  | nil => rfl
  | cons a t ih =>
    cases n with
    | zero => rfl
    | succ m => simpa using ih m

theorem shape_getD (d : List (List Char)) (n : Nat) :
    (d.getD n []).length = (shape d).getD n 0 := by
  induction d generalizing n with
  | nil => rfl
  | cons col rest ih =>
    cases n with
    | zero => rfl
    | succ m => simpa [shape] using ih m

theorem shape_setCell (d : List (List Char)) (x y : Int) (c : Char) :
    shape (setCell d x y c) = shape d := by
  unfold setCell
  split_ifs with h
  · show (d.set x.toNat ((d.getD x.toNat []).set y.toNat c)).map List.length = _
    rw [List.map_set]
    have hlen : ((d.getD x.toNat []).set y.toNat c).length =
        (shape d).getD x.toNat 0 := by
      rw [List.length_set]
      exact shape_getD d x.toNat
    rw [hlen]
    exact setD_self (shape d) x.toNat
  · rfl

theorem shape_foldl {α : Type} (g : List (List Char) → α → List (List Char))
    (hg : ∀ d a, shape (g d a) = shape d) (l : List α) :
    ∀ d, shape (List.foldl g d l) = shape d := by
  induction l with
  | nil => intro d; rfl
  | cons a t ih =>
    intro d
    rw [List.foldl_cons, ih (g d a), hg d a]

theorem shape_makeDrawing (x y : Nat) :
    shape (makeDrawing x y) = List.replicate (x + 1) (y + 1) := by
  unfold shape makeDrawing
  rw [List.map_replicate]
  simp

theorem shape_increaseSize (d : List (List Char)) (x y : Nat) :
    shape (increaseSize d x y) =
      List.replicate (max x (getDrawingSize d).1 + 1)
        (max y (getDrawingSize d).2 + 1) := by
  unfold shape increaseSize
  rw [List.map_map]
  have : (List.length ∘ fun i => (List.range (max y (getDrawingSize d).2 + 1)).map
      fun j => getCell d i j) = fun _ => max y (getDrawingSize d).2 + 1 := by
    funext i
    simp
  rw [this]
  rw [List.map_const']
  simp

theorem gds_congr {d1 d2 : List (List Char)} (h : shape d1 = shape d2) :
    getDrawingSize d1 = getDrawingSize d2 := by
  rw [getDrawingSize_shape, getDrawingSize_shape, h]

theorem drawLine_fst_shape (a : Bool) (d : List (List Char))
    (f t : DrawingCoord) (oF oT : Int) :
    shape (drawLine a d f t oF oT).1 =
      List.replicate (max (max f.x t.x).toNat (getDrawingSize d).1 + 1)
        (max (max f.y t.y).toNat (getDrawingSize d).2 + 1) := by
  simp only [drawLine]
  rw [shape_foldl]
  · exact shape_increaseSize d _ _
  · intro d c
    exact shape_setCell _ _ _ _

theorem drawLine_snd (a : Bool) (d : List (List Char)) (f t : DrawingCoord)
    (oF oT : Int) : (drawLine a d f t oF oT).2 = lineCoords f t oF oT := rfl

theorem drawText_shape (d : List (List Char)) (s : DrawingCoord)
    (text : List Char) :
    shape (drawText d s text) =
      List.replicate (max (s.x + text.length).toNat (getDrawingSize d).1 + 1)
        (max s.y.toNat (getDrawingSize d).2 + 1) := by
  simp only [drawText]
  rw [shape_foldl]
  · exact shape_increaseSize d _ _
  · intro d x
    exact shape_setCell _ _ _ _

theorem drawBox_shape (a : Bool) (gc : Option GridCoord) (name : List Char)
    (cws rhs : Int → Option Nat) :
    shape (drawBox a gc name cws rhs) =
      match gc with
      | none => [1]
      | some c => List.replicate
          ((cws c.x).getD 0 + (cws (c.x + 1)).getD 0 + 1)
          ((rhs c.y).getD 0 + (rhs (c.y + 1)).getD 0 + 1) := by
  cases gc with
  | none => rfl
  | some c =>
    simp only [drawBox]
    rw [shape_foldl]
    · rw [shape_setCell, shape_setCell, shape_setCell, shape_setCell]
      rw [shape_foldl]
      · rw [shape_foldl]
        · rw [shape_foldl]
          · rw [shape_foldl]
            · exact shape_makeDrawing _ _
            · intro d x
              exact shape_setCell _ _ _ _
          · intro d x
            exact shape_setCell _ _ _ _
        · intro d y
          exact shape_setCell _ _ _ _
      · intro d y
        exact shape_setCell _ _ _ _
    · intro d x
      exact shape_setCell _ _ _ _

theorem drawPathAux_mode (g2d : GridCoord → Option Direction → DrawingCoord) :
    ∀ (rest : List GridCoord) (prev : GridCoord) (d1 d2 : List (List Char))
      (lines : List (List DrawingCoord)), shape d1 = shape d2 →
      shape (drawPathAux true g2d rest prev d1 lines).1 =
        shape (drawPathAux false g2d rest prev d2 lines).1 ∧
      (drawPathAux true g2d rest prev d1 lines).2 =
        (drawPathAux false g2d rest prev d2 lines).2 := by
  intro rest
  induction rest with
  | nil =>
    intro prev d1 d2 lines h
    exact ⟨h, rfl⟩
  | cons next rest ih =>
    intro prev d1 d2 lines h
    simp only [drawPathAux]
    by_cases hc : g2d prev none = g2d next none
    · rw [if_pos hc, if_pos hc]
      exact ih prev d1 d2 lines h
    · rw [if_neg hc, if_neg hc]
      have hshape : shape (drawLine true d1 (g2d prev none) (g2d next none) 1 (-1)).1 =
          shape (drawLine false d2 (g2d prev none) (g2d next none) 1 (-1)).1 := by
        rw [drawLine_fst_shape, drawLine_fst_shape, gds_congr h]
      rw [drawLine_snd, drawLine_snd]
      exact ih next _ _ _ hshape

theorem drawPath_mode (path : List GridCoord)
    (g2d : GridCoord → Option Direction → DrawingCoord) (bs : Nat × Nat) :
    shape (drawPath true path g2d bs).1 = shape (drawPath false path g2d bs).1 ∧
    (drawPath true path g2d bs).2 = (drawPath false path g2d bs).2 := by
  cases path with
  | nil => exact ⟨rfl, rfl⟩
  | cons p0 rest =>
    simp only [drawPath]
    exact drawPathAux_mode g2d rest p0 _ _ [] rfl

theorem drawBoxStart_shape (a : Bool) (path : List GridCoord)
    (fl : List DrawingCoord) (bs : Nat × Nat) :
    shape (drawBoxStart a path fl bs) =
      shape (increaseSize (makeDrawing 0 0) bs.1 bs.2) := by
  simp only [drawBoxStart]
  split_ifs <;> first
    | rfl
    | rw [shape_setCell]

theorem drawArrowHead_shape_mode (line : List DrawingCoord) (bs : Nat × Nat) :
    shape (drawArrowHead true line bs) = shape (drawArrowHead false line bs) := by
  simp only [drawArrowHead]
  split_ifs with h h2 <;> first
    | rfl
    | rw [shape_setCell, shape_setCell]

theorem drawCornersAux_mode (g2d : GridCoord → Option Direction → DrawingCoord) :
    ∀ (rest : List GridCoord) (p0 p1 : GridCoord) (d1 d2 : List (List Char)),
      shape d1 = shape d2 →
      shape (drawCornersAux true g2d d1 p0 p1 rest) =
        shape (drawCornersAux false g2d d2 p0 p1 rest) := by
  intro rest
  induction rest with
  | nil =>
    intro p0 p1 d1 d2 h
    exact h
  | cons p2 rest ih =>
    intro p0 p1 d1 d2 h
    simp only [drawCornersAux]
    apply ih
    rw [shape_setCell, shape_setCell, shape_increaseSize, shape_increaseSize,
      gds_congr h]

theorem drawCorners_mode (path : List GridCoord)
    (g2d : GridCoord → Option Direction → DrawingCoord) (bs : Nat × Nat) :
    shape (drawCorners true path g2d bs) = shape (drawCorners false path g2d bs) := by
  rcases path with _ | ⟨p0, _ | ⟨p1, rest⟩⟩
  · rfl
  · rfl
  · simp only [drawCorners]
    exact drawCornersAux_mode g2d rest p0 p1 _ _ rfl

/-- The dimension fold of `mergeDrawings` as a function of the sizes. -/
def mergeMax (szb : Nat × Nat) (mc : DrawingCoord) (szs : List (Nat × Nat)) :
    Int × Int :=
  szs.foldl (fun acc dsz =>
    (max acc.1 ((dsz.1 : Int) + mc.x), max acc.2 ((dsz.2 : Int) + mc.y)))
    ((szb.1 : Int), (szb.2 : Int))

theorem mergeCell_shape (a : Bool) (dc : List (List Char)) (mc : DrawingCoord)
    (m : List (List Char)) (xy : Nat × Nat) :
    shape (mergeCell a dc mc m xy) = shape m := by
  simp only [mergeCell]
  split_ifs <;> first
    | rfl
    | exact shape_setCell _ _ _ _

theorem mergeOne_shape (a : Bool) (mc : DrawingCoord) (m d : List (List Char)) :
    shape (mergeOne a mc m d) = shape m := by
  simp only [mergeOne]
  rw [shape_foldl]
  intro m x
  rw [shape_foldl]
  intro m y
  exact mergeCell_shape _ _ _ _ _

theorem shape_grid_map (m n : Nat) (f : Nat → Nat → Char) :
    shape ((List.range m).map fun x => (List.range n).map fun y => f x y) =
      List.replicate m n := by
  unfold shape
  rw [List.map_map]
  have h : (List.length ∘ fun x => (List.range n).map fun y => f x y) =
      fun _ => n := by
    funext x
    simp
  rw [h, List.map_const']
  simp

theorem foldl_mergeMax (mc : DrawingCoord) :
    ∀ (ds : List (List (List Char))) (init : Int × Int),
      ds.foldl (fun acc d =>
        (max acc.1 (((getDrawingSize d).1 : Int) + mc.x),
         max acc.2 (((getDrawingSize d).2 : Int) + mc.y))) init =
      (ds.map getDrawingSize).foldl (fun acc dsz =>
        (max acc.1 ((dsz.1 : Int) + mc.x), max acc.2 ((dsz.2 : Int) + mc.y)))
        init := by
  intro ds
  induction ds with
  | nil => intro init; rfl
  | cons d t ih =>
    intro init
    simp only [List.foldl_cons, List.map_cons]
    exact ih _

theorem mergeDrawings_shape (a : Bool) (base : List (List Char))
    (mc : DrawingCoord) (ds : List (List (List Char))) :
    shape (mergeDrawings a base mc ds) =
      List.replicate
        ((mergeMax (getDrawingSize base) mc (ds.map getDrawingSize)).1.toNat + 1)
        ((mergeMax (getDrawingSize base) mc (ds.map getDrawingSize)).2.toNat + 1) := by
  simp only [mergeDrawings, mergeMax]
  rw [shape_foldl]
  · rw [foldl_mergeMax]
    exact shape_grid_map _ _ _
  · intro m d
    exact mergeOne_shape _ _ _ _

theorem map_gds_congr {ds1 ds2 : List (List (List Char))}
    (h : ds1.map shape = ds2.map shape) :
    ds1.map getDrawingSize = ds2.map getDrawingSize := by
  have key : ∀ ds : List (List (List Char)),
      ds.map getDrawingSize = (ds.map shape).map sizeOfShape := by
    intro ds
    rw [List.map_map]
    apply List.map_congr_left
    intro d _
    exact getDrawingSize_shape d
  rw [key, key, h]

theorem mergeDrawings_shape_congr (a1 a2 : Bool)
    {b1 b2 : List (List Char)} (mc : DrawingCoord)
    {ds1 ds2 : List (List (List Char))} (hb : shape b1 = shape b2)
    (hds : ds1.map shape = ds2.map shape) :
    shape (mergeDrawings a1 b1 mc ds1) = shape (mergeDrawings a2 b2 mc ds2) := by
  rw [mergeDrawings_shape, mergeDrawings_shape, gds_congr hb, map_gds_congr hds]

theorem drawEdge_mode (e : RenderEdge)
    (g2d : GridCoord → Option Direction → DrawingCoord) (bs : Nat × Nat) :
    shape (drawEdge true e g2d bs).1 = shape (drawEdge false e g2d bs).1 ∧
    shape (drawEdge true e g2d bs).2.1 = shape (drawEdge false e g2d bs).2.1 ∧
    shape (drawEdge true e g2d bs).2.2.1 =
      shape (drawEdge false e g2d bs).2.2.1 ∧
    shape (drawEdge true e g2d bs).2.2.2.1 =
      shape (drawEdge false e g2d bs).2.2.2.1 ∧
    (drawEdge true e g2d bs).2.2.2.2 = (drawEdge false e g2d bs).2.2.2.2 := by
  simp only [drawEdge]
  by_cases hp : e.path.length = 0
  · rw [if_pos hp, if_pos hp]
    exact ⟨rfl, rfl, rfl, rfl, rfl⟩
  · rw [if_neg hp, if_neg hp]
    dsimp only
    obtain ⟨hshape, hlines⟩ := drawPath_mode e.path g2d bs
    refine ⟨hshape, ?_, ?_, drawCorners_mode _ _ _, rfl⟩
    · rw [hlines, drawBoxStart_shape, drawBoxStart_shape]
    · rw [hlines]
      exact drawArrowHead_shape_mode _ _

theorem graphDrawEdge_mode (e : RenderEdge)
    (g2d : GridCoord → Option Direction → DrawingCoord) (bs : Nat × Nat) :
    shape (graphDrawEdge true e g2d bs).1 =
      shape (graphDrawEdge false e g2d bs).1 ∧
    shape (graphDrawEdge true e g2d bs).2.1 =
      shape (graphDrawEdge false e g2d bs).2.1 ∧
    shape (graphDrawEdge true e g2d bs).2.2.1 =
      shape (graphDrawEdge false e g2d bs).2.2.1 ∧
    shape (graphDrawEdge true e g2d bs).2.2.2.1 =
      shape (graphDrawEdge false e g2d bs).2.2.2.1 ∧
    (graphDrawEdge true e g2d bs).2.2.2.2 =
      (graphDrawEdge false e g2d bs).2.2.2.2 := by
  rw [graphDrawEdge.eq_def, graphDrawEdge.eq_def]
  rcases e.startDir with _ | sd <;> rcases e.endDir with _ | ed <;>
    rcases e.fromCoord with _ | fc <;> rcases e.toCoord with _ | tc <;>
    dsimp only <;> first
      | exact ⟨rfl, rfl, rfl, rfl, rfl⟩
      | exact drawEdge_mode e g2d bs

theorem drawNodeStep_mode (cws rhs : Int → Option Nat)
    {b1 b2 : List (List Char)} (n : RenderNode) (h : shape b1 = shape b2) :
    shape (drawNodeStep true cws rhs b1 n) =
      shape (drawNodeStep false cws rhs b2 n) := by
  rw [drawNodeStep.eq_def, drawNodeStep.eq_def]
  rcases n.drawingCoord with _ | dc <;> rcases n.gridCoord with _ | gc <;>
    dsimp only
  · exact h
  · exact h
  · exact h
  · apply mergeDrawings_shape_congr _ _ _ h
    simp only [List.map_cons, List.map_nil]
    rw [drawBox_shape, drawBox_shape]

theorem nodeFold_mode (cws rhs : Int → Option Nat) :
    ∀ (nodes : List RenderNode) (b1 b2 : List (List Char)),
      shape b1 = shape b2 →
      shape (nodes.foldl (drawNodeStep true cws rhs) b1) =
        shape (nodes.foldl (drawNodeStep false cws rhs) b2) := by
  intro nodes
  induction nodes with
  | nil =>
    intro b1 b2 h
    exact h
  | cons n t ih =>
    intro b1 b2 h
    simp only [List.foldl_cons]
    exact ih _ _ (drawNodeStep_mode cws rhs n h)

/-- The whole render of a graph has mode-independent dimensions. -/
theorem drawGraph_shape_mode (inp : RenderInput) :
    shape (drawGraph true inp) = shape (drawGraph false inp) := by
  simp only [drawGraph]
  have hb1 := nodeFold_mode inp.columnWidths inp.rowHeights inp.nodes
    (increaseSize (makeDrawing 0 0) inp.baseSize.1 inp.baseSize.2)
    (increaseSize (makeDrawing 0 0) inp.baseSize.1 inp.baseSize.2) rfl
  rw [gds_congr hb1]
  apply mergeDrawings_shape_congr
  · apply mergeDrawings_shape_congr
    · apply mergeDrawings_shape_congr
      · apply mergeDrawings_shape_congr
        · apply mergeDrawings_shape_congr
          · exact hb1
          · simp only [List.map_map]
            apply List.map_congr_left
            intro e _
            exact (graphDrawEdge_mode e inp.g2d _).1
        · simp only [List.map_map]
          apply List.map_congr_left
          intro e _
          exact (graphDrawEdge_mode e inp.g2d _).2.2.2.1
      · simp only [List.map_map]
        apply List.map_congr_left
        intro e _
        exact (graphDrawEdge_mode e inp.g2d _).2.2.1
    · simp only [List.map_map]
      apply List.map_congr_left
      intro e _
      exact (graphDrawEdge_mode e inp.g2d _).2.1
  · simp only [List.map_map]
    apply List.map_congr_left
    intro e _
    have := (graphDrawEdge_mode e inp.g2d
      (getDrawingSize (inp.nodes.foldl
        (drawNodeStep false inp.columnWidths inp.rowHeights)
        (increaseSize (makeDrawing 0 0) inp.baseSize.1 inp.baseSize.2)))).2.2.2.2
    exact congrArg shape this

/-! ### Junction-glyph layer: ASCII mode draws no junction glyphs itself -/

/-- No cell of the canvas holds a junction glyph. -/
def JunctionFree (d : List (List Char)) : Prop :=
  ∀ col ∈ d, ∀ ch ∈ col, isJunctionChar ch = false

theorem JF_getD_col {d : List (List Char)} (h : JunctionFree d) (n : Nat) :
    ∀ ch ∈ d.getD n [], isJunctionChar ch = false := by
  rcases hn : d[n]? with _ | col
  · rw [List.getD_eq_getElem?_getD, hn]
    intro ch hch
    simp at hch
  · rw [List.getD_eq_getElem?_getD, hn]
    intro ch hch
    exact h col (List.getElem?_mem hn) ch hch

theorem JF_getCell {d : List (List Char)} (h : JunctionFree d) (x y : Nat) :
    isJunctionChar (getCell d x y) = false := by
  unfold getCell
  rcases hc : (d.getD x [])[y]? with _ | ch
  · rw [List.getD_eq_getElem?_getD, hc]
    decide
  · rw [List.getD_eq_getElem?_getD, hc, Option.getD_some]
    exact JF_getD_col h x ch (List.getElem?_mem hc)

theorem JF_setCell {d : List (List Char)} (h : JunctionFree d) {c : Char}
    (hc : isJunctionChar c = false) (x y : Int) :
    JunctionFree (setCell d x y c) := by
  unfold setCell
  split_ifs with hxy
  · intro col hcol ch hch
    rcases List.mem_or_eq_of_mem_set hcol with hcol | hcol
    · exact h col hcol ch hch
    · subst hcol
      rcases List.mem_or_eq_of_mem_set hch with hch | hch
      · exact JF_getD_col h _ ch hch
      · subst hch
        exact hc
  · exact h

theorem JF_makeDrawing (x y : Nat) : JunctionFree (makeDrawing x y) := by
  intro col hcol ch hch
  rw [List.eq_of_mem_replicate hcol] at hch
  rw [List.eq_of_mem_replicate hch]
  decide

theorem JF_increaseSize {d : List (List Char)} (h : JunctionFree d)
    (x y : Nat) : JunctionFree (increaseSize d x y) := by
  intro col hcol ch hch
  simp only [increaseSize, List.mem_map] at hcol
  obtain ⟨i, _, hi⟩ := hcol
  subst hi
  simp only [List.mem_map] at hch
  obtain ⟨j, _, hj⟩ := hch
  subst hj
  exact JF_getCell h i j

theorem JF_foldl {α : Type} {g : List (List Char) → α → List (List Char)} :
    ∀ (l : List α), (∀ d a, a ∈ l → JunctionFree d → JunctionFree (g d a)) →
      ∀ d, JunctionFree d → JunctionFree (List.foldl g d l) := by
  intro l
  induction l with
  | nil =>
    intro _ d hd
    exact hd
  | cons a t ih =>
    intro hg d hd
    rw [List.foldl_cons]
    exact ih (fun d b hb => hg d b (List.mem_cons_of_mem a hb)) (g d a)
      (hg d a (List.mem_cons_self a t) hd)

theorem lineChar_true (dir : Direction) :
    isJunctionChar (lineChar true dir) = false := by
  unfold lineChar
  split_ifs <;> first | decide | simp_all

theorem arrowHeadChar_true (dir : Direction) :
    isJunctionChar (arrowHeadChar true dir) = false := by
  unfold arrowHeadChar
  split_ifs <;> decide

theorem getD_safe {text : List Char}
    (htext : ∀ ch ∈ text, isJunctionChar ch = false) (x : Nat) :
    isJunctionChar (text.getD x ' ') = false := by
  rcases hx : text[x]? with _ | ch
  · rw [List.getD_eq_getElem?_getD, hx]
    decide
  · rw [List.getD_eq_getElem?_getD, hx, Option.getD_some]
    exact htext ch (List.getElem?_mem hx)

theorem JF_drawLine {d : List (List Char)} (h : JunctionFree d)
    (f t : DrawingCoord) (oF oT : Int) :
    JunctionFree (drawLine true d f t oF oT).1 := by
  simp only [drawLine]
  exact JF_foldl _ (fun d c _ hd => JF_setCell hd (lineChar_true _) _ _) _
    (JF_increaseSize h _ _)

theorem JF_drawText {d : List (List Char)} (h : JunctionFree d)
    (s : DrawingCoord) {text : List Char}
    (htext : ∀ ch ∈ text, isJunctionChar ch = false) :
    JunctionFree (drawText d s text) := by
  simp only [drawText]
  exact JF_foldl _ (fun d x _ hd => JF_setCell hd (getD_safe htext x) _ _) _
    (JF_increaseSize h _ _)

theorem JF_drawBox (gc : Option GridCoord) {name : List Char}
    (cws rhs : Int → Option Nat)
    (hname : ∀ ch ∈ name, isJunctionChar ch = false) :
    JunctionFree (drawBox true gc name cws rhs) := by
  rcases gc with _ | c
  · exact JF_makeDrawing 0 0
  · simp only [drawBox]
    refine JF_foldl _ (fun d x _ hd => JF_setCell hd (getD_safe hname x) _ _) _
      (JF_setCell (JF_setCell (JF_setCell (JF_setCell
        (JF_foldl _ (fun d y _ hd => JF_setCell hd (by decide) _ _) _
          (JF_foldl _ (fun d y _ hd => JF_setCell hd (by decide) _ _) _
            (JF_foldl _ (fun d x _ hd => JF_setCell hd (by decide) _ _) _
              (JF_foldl _ (fun d x _ hd => JF_setCell hd (by decide) _ _) _
                (JF_makeDrawing _ _)))))
        (by decide) _ _) (by decide) _ _) (by decide) _ _) (by decide) _ _)

theorem JF_drawPathAux (g2d : GridCoord → Option Direction → DrawingCoord) :
    ∀ (rest : List GridCoord) (prev : GridCoord) (d : List (List Char))
      (lines : List (List DrawingCoord)), JunctionFree d →
      JunctionFree (drawPathAux true g2d rest prev d lines).1 := by
  intro rest
  induction rest with
  | nil =>
    intro prev d lines hd
    exact hd
  | cons next rest ih =>
    intro prev d lines hd
    simp only [drawPathAux]
    by_cases hc : g2d prev none = g2d next none
    · rw [if_pos hc]
      exact ih prev d lines hd
    · rw [if_neg hc]
      exact ih next _ _ (JF_drawLine hd _ _ _ _)

theorem JF_drawPath (path : List GridCoord)
    (g2d : GridCoord → Option Direction → DrawingCoord) (bs : Nat × Nat) :
    JunctionFree (drawPath true path g2d bs).1 := by
  cases path with
  | nil => exact JF_increaseSize (JF_makeDrawing 0 0) _ _
  | cons p0 rest =>
    simp only [drawPath]
    exact JF_drawPathAux g2d rest p0 _ [] (JF_increaseSize (JF_makeDrawing 0 0) _ _)

theorem JF_drawBoxStart (path : List GridCoord) (fl : List DrawingCoord)
    (bs : Nat × Nat) : JunctionFree (drawBoxStart true path fl bs) := by
  simp only [drawBoxStart]
  split_ifs <;> exact JF_increaseSize (JF_makeDrawing 0 0) _ _

theorem JF_drawArrowHead (line : List DrawingCoord) (bs : Nat × Nat) :
    JunctionFree (drawArrowHead true line bs) := by
  simp only [drawArrowHead]
  split_ifs with h h2 <;> first
    | exact JF_increaseSize (JF_makeDrawing 0 0) _ _
    | exact JF_setCell (JF_increaseSize (JF_increaseSize (JF_makeDrawing 0 0) _ _) _ _)
        (arrowHeadChar_true _) _ _

theorem cornerChar_true (p n : Direction) :
    isJunctionChar (cornerChar true p n) = false := by
  show isJunctionChar '+' = false
  decide

theorem JF_drawCornersAux (g2d : GridCoord → Option Direction → DrawingCoord) :
    ∀ (rest : List GridCoord) (p0 p1 : GridCoord) (d : List (List Char)),
      JunctionFree d → JunctionFree (drawCornersAux true g2d d p0 p1 rest) := by
  intro rest
  induction rest with
  | nil =>
    intro p0 p1 d hd
    exact hd
  | cons p2 rest ih =>
    intro p0 p1 d hd
    simp only [drawCornersAux]
    exact ih p1 p2 _ (JF_setCell (JF_increaseSize hd _ _) (cornerChar_true _ _) _ _)

theorem JF_drawCorners (path : List GridCoord)
    (g2d : GridCoord → Option Direction → DrawingCoord) (bs : Nat × Nat) :
    JunctionFree (drawCorners true path g2d bs) := by
  rcases path with _ | ⟨p0, _ | ⟨p1, rest⟩⟩
  · exact JF_increaseSize (JF_makeDrawing 0 0) _ _
  · exact JF_increaseSize (JF_makeDrawing 0 0) _ _
  · simp only [drawCorners]
    exact JF_drawCornersAux g2d rest p0 p1 _
      (JF_increaseSize (JF_makeDrawing 0 0) _ _)

theorem JF_drawTextOnLine {d : List (List Char)} (h : JunctionFree d)
    (line : List DrawingCoord) {label : List Char}
    (hlabel : ∀ ch ∈ label, isJunctionChar ch = false) :
    JunctionFree (drawTextOnLine d line label) := by
  simp only [drawTextOnLine]
  split_ifs with h2
  · exact h
  · exact JF_drawText h _ hlabel

theorem JF_drawArrowLabel (e : RenderEdge)
    (g2d : GridCoord → Option Direction → DrawingCoord) (bs : Nat × Nat)
    (htext : ∀ ch ∈ e.text, isJunctionChar ch = false) :
    JunctionFree (drawArrowLabel e g2d bs) := by
  simp only [drawArrowLabel]
  split_ifs with h1 h2
  · exact JF_increaseSize (JF_makeDrawing 0 0) _ _
  · exact JF_drawTextOnLine (JF_increaseSize (JF_makeDrawing 0 0) _ _) _ htext
  · exact JF_increaseSize (JF_makeDrawing 0 0) _ _

theorem JF_mergeCell {dc m : List (List Char)} (hdc : JunctionFree dc)
    (hm : JunctionFree m) (mc : DrawingCoord) (xy : Nat × Nat) :
    JunctionFree (mergeCell true dc mc m xy) := by
  simp only [mergeCell]
  split_ifs with h1 h2 h3
  · exact hm
  · rcases h3 with ⟨h3, _⟩
    exact absurd h3 (by simp)
  · exact JF_setCell hm (JF_getCell hdc _ _) _ _
  · exact hm

theorem JF_mergeOne {m d : List (List Char)} (hd : JunctionFree d)
    (hm : JunctionFree m) (mc : DrawingCoord) :
    JunctionFree (mergeOne true mc m d) := by
  simp only [mergeOne]
  refine JF_foldl _ (fun m x _ hmx => ?_) _ hm
  exact JF_foldl _ (fun m y _ hmy => JF_mergeCell hd hmy mc (x, y)) _ hmx

theorem JF_mergeDrawings {base : List (List Char)}
    {ds : List (List (List Char))} (hb : JunctionFree base)
    (hds : ∀ d ∈ ds, JunctionFree d) (mc : DrawingCoord) :
    JunctionFree (mergeDrawings true base mc ds) := by
  simp only [mergeDrawings]
  refine JF_foldl _ (fun m d hdm hm => JF_mergeOne (hds d hdm) hm mc) _ ?_
  intro col hcol ch hch
  simp only [List.mem_map] at hcol
  obtain ⟨x, _, hx⟩ := hcol
  subst hx
  simp only [List.mem_map] at hch
  obtain ⟨y, _, hy⟩ := hch
  subst hy
  split_ifs with hrange
  · exact JF_getCell hb x y
  · decide

theorem JF_drawEdge (e : RenderEdge)
    (g2d : GridCoord → Option Direction → DrawingCoord) (bs : Nat × Nat)
    (htext : ∀ ch ∈ e.text, isJunctionChar ch = false) :
    JunctionFree (drawEdge true e g2d bs).1 ∧
    JunctionFree (drawEdge true e g2d bs).2.1 ∧
    JunctionFree (drawEdge true e g2d bs).2.2.1 ∧
    JunctionFree (drawEdge true e g2d bs).2.2.2.1 ∧
    JunctionFree (drawEdge true e g2d bs).2.2.2.2 := by
  simp only [drawEdge]
  split_ifs with hp
  · exact ⟨JF_makeDrawing 0 0, JF_makeDrawing 0 0, JF_makeDrawing 0 0,
      JF_makeDrawing 0 0, JF_makeDrawing 0 0⟩
  · exact ⟨JF_drawPath e.path g2d bs, JF_drawBoxStart _ _ _,
      JF_drawArrowHead _ _, JF_drawCorners _ _ _, JF_drawArrowLabel e g2d bs htext⟩

theorem JF_graphDrawEdge (e : RenderEdge)
    (g2d : GridCoord → Option Direction → DrawingCoord) (bs : Nat × Nat)
    (htext : ∀ ch ∈ e.text, isJunctionChar ch = false) :
    JunctionFree (graphDrawEdge true e g2d bs).1 ∧
    JunctionFree (graphDrawEdge true e g2d bs).2.1 ∧
    JunctionFree (graphDrawEdge true e g2d bs).2.2.1 ∧
    JunctionFree (graphDrawEdge true e g2d bs).2.2.2.1 ∧
    JunctionFree (graphDrawEdge true e g2d bs).2.2.2.2 := by
  rw [graphDrawEdge.eq_def]
  rcases e.startDir with _ | sd <;> rcases e.endDir with _ | ed <;>
    rcases e.fromCoord with _ | fc <;> rcases e.toCoord with _ | tc <;>
    dsimp only <;> first
      | exact ⟨JF_makeDrawing 0 0, JF_makeDrawing 0 0, JF_makeDrawing 0 0,
          JF_makeDrawing 0 0, JF_makeDrawing 0 0⟩
      | exact JF_drawEdge e g2d bs htext

theorem JF_drawNodeStep {b : List (List Char)} (hb : JunctionFree b)
    (cws rhs : Int → Option Nat) (n : RenderNode)
    (hname : ∀ ch ∈ n.name, isJunctionChar ch = false) :
    JunctionFree (drawNodeStep true cws rhs b n) := by
  rw [drawNodeStep.eq_def]
  rcases n.drawingCoord with _ | dc <;> rcases n.gridCoord with _ | gc <;>
    dsimp only
  · exact hb
  · exact hb
  · exact hb
  · apply JF_mergeDrawings hb
    intro d hd
    simp only [List.mem_singleton] at hd
    subst hd
    exact JF_drawBox _ _ _ hname

/-- The whole ASCII render of a graph whose node names and edge labels are
junction-free contains no junction glyph in any cell. -/
theorem JF_drawGraph (inp : RenderInput)
    (hnames : ∀ n ∈ inp.nodes, ∀ ch ∈ n.name, isJunctionChar ch = false)
    (hlabels : ∀ e ∈ inp.edges, ∀ ch ∈ e.text, isJunctionChar ch = false) :
    JunctionFree (drawGraph true inp) := by
  simp only [drawGraph]
  have hb1 : JunctionFree (inp.nodes.foldl
      (drawNodeStep true inp.columnWidths inp.rowHeights)
      (increaseSize (makeDrawing 0 0) inp.baseSize.1 inp.baseSize.2)) := by
    refine JF_foldl _ (fun b n hn hb => ?_) _
      (JF_increaseSize (JF_makeDrawing 0 0) _ _)
    exact JF_drawNodeStep hb _ _ n (hnames n hn)
  have hcomp : ∀ e ∈ inp.edges,
      JunctionFree (graphDrawEdge true e inp.g2d
        (getDrawingSize (inp.nodes.foldl
          (drawNodeStep true inp.columnWidths inp.rowHeights)
          (increaseSize (makeDrawing 0 0) inp.baseSize.1 inp.baseSize.2)))).1 ∧
      JunctionFree (graphDrawEdge true e inp.g2d _).2.1 ∧
      JunctionFree (graphDrawEdge true e inp.g2d _).2.2.1 ∧
      JunctionFree (graphDrawEdge true e inp.g2d _).2.2.2.1 ∧
      JunctionFree (graphDrawEdge true e inp.g2d _).2.2.2.2 :=
    fun e he => JF_graphDrawEdge e inp.g2d _ (hlabels e he)
  apply JF_mergeDrawings
  · apply JF_mergeDrawings
    · apply JF_mergeDrawings
      · apply JF_mergeDrawings
        · apply JF_mergeDrawings hb1
          · intro d hd
            simp only [List.mem_map] at hd
            obtain ⟨x, hx1, hx2⟩ := hd
            obtain ⟨e, he, hex⟩ := hx1
            subst hex
            subst hx2
            exact (hcomp e he).1
        · intro d hd
          simp only [List.mem_map] at hd
          obtain ⟨x, hx1, hx2⟩ := hd
          obtain ⟨e, he, hex⟩ := hx1
          subst hex
          subst hx2
          exact (hcomp e he).2.2.2.1
      · intro d hd
        simp only [List.mem_map] at hd
        obtain ⟨x, hx1, hx2⟩ := hd
        obtain ⟨e, he, hex⟩ := hx1
        subst hex
        subst hx2
        exact (hcomp e he).2.2.1
    · intro d hd
      simp only [List.mem_map] at hd
      obtain ⟨x, hx1, hx2⟩ := hd
      obtain ⟨e, he, hex⟩ := hx1
      subst hex
      subst hx2
      exact (hcomp e he).2.1
  · intro d hd
    simp only [List.mem_map] at hd
    obtain ⟨x, hx1, hx2⟩ := hd
    obtain ⟨e, he, hex⟩ := hx1
    subst hex
    subst hx2
    exact (hcomp e he).2.2.2.2

/-- Serialization of a junction-free canvas yields no junction glyph. -/
theorem JF_drawingToString {d : List (List Char)} (h : JunctionFree d) :
    ∀ ch ∈ drawingToString d, isJunctionChar ch = false := by
  unfold drawingToString
  have key : ∀ (l : List Nat) (acc : List Char),
      (∀ ch ∈ acc, isJunctionChar ch = false) →
      ∀ ch ∈ l.foldl (fun acc y =>
        acc ++ ((List.range ((getDrawingSize d).1 + 1)).map fun x => getCell d x y) ++
          (if y ≠ (getDrawingSize d).2 then ['\n'] else [])) acc,
        isJunctionChar ch = false := by
    intro l
    induction l with
    | nil =>
      intro acc hacc
      exact hacc
    | cons y t ih =>
      intro acc hacc
      rw [List.foldl_cons]
      apply ih
      intro ch hch
      rcases List.mem_append.mp hch with hch | hch
      · rcases List.mem_append.mp hch with hch | hch
        · exact hacc ch hch
        · simp only [List.mem_map] at hch
          obtain ⟨x, _, hx⟩ := hch
          subst hx
          exact JF_getCell h _ _
      · split_ifs at hch with hy
        · simp only [List.mem_singleton] at hch
          subst hch
          decide
        · simp at hch
  intro ch hch
  exact key _ [] (by intro ch hch2; simp at hch2) ch hch

/-- The column-width/row-height map of the one-node graphs used below:
widths 1, 3, 1 at indices 0, 1, 2, as `setColumnWidth` records for a node
with a one-character name anchored at the origin. -/
def c9cw : Int → Option Nat := fun i =>
  if i = 0 then some 1 else if i = 1 then some 3 else if i = 2 then some 1
  else none

/-- The render input of the one-node graph whose node is named `─`: anchor
(0,0), drawing coordinate (0,0), base size (4,4) — exactly the layout
`createMapping` computes for it. -/
def c9Input : RenderInput :=
  ⟨[⟨some ⟨0, 0⟩, some ⟨0, 0⟩, ['─']⟩], [], c9cw, c9cw,
    fun _ _ => ⟨0, 0⟩, (4, 4)⟩

/-- The same graph with the node named `a` instead. -/
def w9Input : RenderInput :=
  ⟨[⟨some ⟨0, 0⟩, some ⟨0, 0⟩, ['a']⟩], [], c9cw, c9cw,
    fun _ _ => ⟨0, 0⟩, (4, 4)⟩

set_option maxRecDepth 4000 in
/-- Claim C9 counterexample: rendering the one-node graph whose node is
named with the junction glyph `─` in ASCII mode yields an output string
that contains `─`: node names are copied verbatim onto the canvas in both
modes, so the ASCII output is not junction-glyph-free as claimed. -/
theorem C9_ascii_junction_counterexample :
    isJunctionChar '─' = true ∧
    '─' ∈ drawingToString (drawGraph true c9Input) := by
  decide

/-- Claim C9 (amended): for every graph, the ASCII-mode and Unicode-mode
renders have canvases of identical shape — the same number of columns with
the same lengths, hence serialized outputs of identical dimensions,
differing only in which glyphs fill the cells; and whenever no node name or
edge label itself contains one of the 15 junction glyphs, the ASCII-mode
output contains none of them (a junction glyph inside a name or label is
copied verbatim into the ASCII output). -/
theorem C9_render_dims_and_ascii_junctions (inp : RenderInput) :
    shape (drawGraph true inp) = shape (drawGraph false inp) ∧
    ((∀ n ∈ inp.nodes, ∀ ch ∈ n.name, isJunctionChar ch = false) →
      (∀ e ∈ inp.edges, ∀ ch ∈ e.text, isJunctionChar ch = false) →
      ∀ ch ∈ drawingToString (drawGraph true inp), isJunctionChar ch = false) :=
  ⟨drawGraph_shape_mode inp,
   fun hn hl => JF_drawingToString (JF_drawGraph inp hn hl)⟩

set_option maxRecDepth 4000 in
/-- Claim C9 witness: on the concrete one-node graph named `a`, the two
modes agree on dimensions and the ASCII output has no junction glyph. -/
theorem C9_render_dims_and_ascii_junctions_witness :
    shape (drawGraph true w9Input) = shape (drawGraph false w9Input) ∧
    'a' ∈ drawingToString (drawGraph true w9Input) ∧
    (∀ ch ∈ drawingToString (drawGraph true w9Input),
      isJunctionChar ch = false) :=
  ⟨(C9_render_dims_and_ascii_junctions w9Input).1, by decide,
   (C9_render_dims_and_ascii_junctions w9Input).2 (by decide) (by decide)⟩
